import Mathlib

set_option maxRecDepth 8000

/-!
Verification of the layout engine in src/lib/utils.js and the grouping
functions of src/lib/ReactGridLayout.jsx.  JavaScript objects are modelled as
Lean structures; mutation of the items held by a layout array is modelled by
threading the list of item values through each function, updating the entry
that the JavaScript code mutates in place (items are addressed by their key
`i`, matching the reference behaviour of the source, which obtains the object
to mutate as the first entry with that key).  Numbers are modelled as `Int`;
the nullable `x`/`y` arguments and the nullable compaction type are modelled
as `Option`.  Unbounded while loops and recursion are modelled with explicit
fuel; a `some` result is the exact result of the terminating JavaScript run,
and `none` means the fuel ran out.
-/

/-- Compaction axis; the JavaScript values null and undefined are modelled
as `Option.none` around this type. -/
inductive Axis where
  | vertical
  | horizontal
deriving DecidableEq, Repr

/-- CompactType from src/lib/utils.js: "vertical", "horizontal" or null. -/
abbrev CompactType := Option Axis

/-- LayoutItem from src/lib/utils.js, restricted to the fields that the
layout algorithms read or write: key `i`, geometry `x y w h`, the `moved`
and `static` flags and the tri-state `isDraggable`. -/
structure Item where
  i : String
  x : Int
  y : Int
  w : Int
  h : Int
  moved : Bool
  static : Bool
  isDraggable : Option Bool
deriving DecidableEq, Repr

/-- Layout is an ordered list of items, as in the source. -/
abbrev Layout := List Item

/-- Plain item constructor used for concrete layouts in the scenarios. -/
def mkItem (i : String) (x y w h : Int) : Item :=
  ⟨i, x, y, w, h, false, false, none⟩

/-- Static item constructor. -/
def mkStaticItem (i : String) (x y w h : Int) : Item :=
  ⟨i, x, y, w, h, false, true, none⟩

/-- Overlap test `collides` from src/lib/utils.js: items with the same key
never collide, and touching edges do not count as collision. -/
def collides (l1 l2 : Item) : Bool :=
  if l1.i = l2.i then false
  else if l1.x + l1.w ≤ l2.x then false
  else if l1.x ≥ l2.x + l2.w then false
  else if l1.y + l1.h ≤ l2.y then false
  else if l1.y ≥ l2.y + l2.h then false
  else true

/-- Function `bottom` from src/lib/utils.js: the maximal bottom edge of the
layout, starting from 0. -/
def bottom (layout : Layout) : Int :=
  layout.foldl (fun m it => if it.y + it.h > m then it.y + it.h else m) 0

/-- Function `getFirstCollision` from src/lib/utils.js: the first item of the
list colliding with the given item. -/
def getFirstCollision (layout : Layout) (l : Item) : Option Item :=
  layout.find? (fun it => collides it l)

/-- Function `getAllCollisions` from src/lib/utils.js. -/
def getAllCollisions (layout : Layout) (l : Item) : List Item :=
  layout.filter (fun it => collides it l)

/-- Function `getStatics` from src/lib/utils.js. -/
def getStatics (layout : Layout) : List Item :=
  layout.filter (fun it => it.static)

/-- Row-major order used by `sortLayoutItemsByRowCol`: by `y`, then by `x`;
the comparator of the source returns 0 exactly on equal coordinates, so a
stable sort with this non-strict order models it. -/
def rowColLe (a b : Item) : Bool :=
  a.y < b.y || (a.y = b.y && a.x ≤ b.x)

/-- Column-major order used by `sortLayoutItemsByColRow`: by `x`, then by
`y`. -/
def colRowLe (a b : Item) : Bool :=
  a.x < b.x || (a.x = b.x && a.y ≤ b.y)

/-- Stable ordered insert used to model Array.prototype.sort. -/
def ordInsert (le : Item → Item → Bool) (a : Item) : Layout → Layout
  | [] => [a]
  | b :: l => if le a b then a :: b :: l else b :: ordInsert le a l

/-- Stable insertion sort used to model Array.prototype.sort. -/
def insertionSortBy (le : Item → Item → Bool) : Layout → Layout
  | [] => []
  | a :: l => ordInsert le a (insertionSortBy le l)

/-- Function `sortLayoutItems` from src/lib/utils.js: column-major for
horizontal compaction, row-major for vertical, the untouched layout
otherwise. -/
def sortLayoutItems (layout : Layout) : CompactType → Layout
  | some Axis.horizontal => insertionSortBy colRowLe layout
  | some Axis.vertical => insertionSortBy rowColLe layout
  | none => layout

/-- Lookup by key, modelling `getLayoutItem`: the first entry whose key
matches. -/
def findItem (layout : Layout) (id : String) : Option Item :=
  layout.find? (fun it => it.i = id)

/-- In-place mutation of the first item with the given key, modelling a
field assignment through an object reference obtained from the layout. -/
def updateItem (layout : Layout) (id : String) (f : Item → Item) : Layout :=
  match layout with
  | [] => []
  | it :: rest => if it.i = id then f it :: rest else it :: updateItem rest id f

/-! ## Grouping engine: optimal group layout (src/lib/ReactGridLayout.jsx) -/

/-- Result type of `calculateHorizontalLayout` and
`calculateVerticalLayout`. -/
structure GroupArrangement where
  w : Int
  h : Int
  children : List Item
deriving DecidableEq, Repr

/-- Method `calculateHorizontalLayout` of src/lib/ReactGridLayout.jsx:
side-by-side arrangement, combined width, maximal height, children at
relative positions (0,0) and (item1.w, 0). -/
def calculateHorizontalLayout (item1 item2 : Item) : GroupArrangement :=
  { w := item1.w + item2.w
    h := max item1.h item2.h
    children := [{ item1 with x := 0, y := 0 }, { item2 with x := item1.w, y := 0 }] }

/-- Method `calculateVerticalLayout` of src/lib/ReactGridLayout.jsx:
stacked arrangement, maximal width, combined height, children at relative
positions (0,0) and (0, item1.h). -/
def calculateVerticalLayout (item1 item2 : Item) : GroupArrangement :=
  { w := max item1.w item2.w
    h := item1.h + item2.h
    children := [{ item1 with x := 0, y := 0 }, { item2 with x := 0, y := item1.h }] }

/-- Result type of `createOptimalGroupLayout`. -/
structure OptimalGroupLayout where
  groupX : Int
  groupY : Int
  groupW : Int
  groupH : Int
  children : List Item
deriving DecidableEq, Repr

/-- Method `createOptimalGroupLayout` of src/lib/ReactGridLayout.jsx: the
group is anchored at the target item's position, and the horizontal
arrangement is chosen when it fits within the column count from that
anchor, otherwise the vertical one. -/
def createOptimalGroupLayout (draggingItem targetItem : Item) (cols : Int) :
    OptimalGroupLayout :=
  let groupX := targetItem.x
  let groupY := targetItem.y
  let horizontalLayout := calculateHorizontalLayout draggingItem targetItem
  let verticalLayout := calculateVerticalLayout draggingItem targetItem
  let horizontalFitsInGrid := groupX + horizontalLayout.w ≤ cols
  let selectedLayout := if horizontalFitsInGrid then horizontalLayout else verticalLayout
  { groupX := groupX, groupY := groupY
    groupW := selectedLayout.w, groupH := selectedLayout.h
    children := selectedLayout.children }

/-! ## Bounds corrector (correctBounds, src/lib/utils.js) -/

/-- Per-item clamping step of `correctBounds`: right overflow pulls the item
back to `cols - w`, and a then-negative `x` resets the item to `x = 0` with
full width `cols`. -/
def clampX (cols : Int) (l : Item) : Item :=
  let l1 := if l.x + l.w > cols then { l with x := cols - l.w } else l
  if l1.x < 0 then { l1 with x := 0, w := cols } else l1

/-- Values currently stored at the given indices of the layout; models the
object references held by the `collidesWith` array of `correctBounds`. -/
def itemsAt (layout : Layout) (idxs : List Nat) : List Item :=
  idxs.filterMap (fun k => layout[k]?)

/-- Indices of the static items, the initial `collidesWith` of
`correctBounds`. -/
def staticIdxs (layout : Layout) : List Nat :=
  (List.range layout.length).filter (fun k => ((layout[k]?).map Item.static).getD false)

/-- Fuel bound for the static push-down loop of `correctBounds`: distance
from the item's `y` to the bottom of the obstacles with a different key.
Only items with a different key can collide, so once `y` passes this bottom
the loop condition is false; this amount of fuel is therefore exact. -/
def pushDownMeasure (cw : List Item) (l : Item) : Nat :=
  (bottom (cw.filter (fun c => c.i ≠ l.i)) - l.y).toNat

/-- Push-down loop `while (getFirstCollision(collidesWith, l)) l.y++;` of
`correctBounds`, with fuel. -/
def pushDownGo (cw : List Item) : Nat → Item → Item
  | 0, l => l
  | fuel + 1, l =>
    match getFirstCollision cw l with
    | none => l
    | some _ => pushDownGo cw fuel { l with y := l.y + 1 }

/-- Push-down of a colliding static item in `correctBounds`, run with exact
fuel. -/
def pushDownItem (cw : List Item) (l : Item) : Item :=
  pushDownGo cw (pushDownMeasure cw l) l

/-- Main loop of `correctBounds`, iterating over the layout entries in
order, with `remaining` counting the entries still to process.  Static items
are pushed down past colliding obstacles; non-static items are appended to
the obstacle index list. -/
def correctBoundsGo (cols : Int) : Nat → List Nat → Layout → Nat → Layout
  | 0, _, layout, _ => layout
  | remaining + 1, cwIdx, layout, k =>
    match layout[k]? with
    | none => layout
    | some l =>
      let l1 := clampX cols l
      let layout1 := layout.set k l1
      if l1.static then
        let l2 := pushDownItem (itemsAt layout1 cwIdx) l1
        correctBoundsGo cols remaining cwIdx (layout1.set k l2) (k + 1)
      else
        correctBoundsGo cols remaining (cwIdx ++ [k]) layout1 (k + 1)

/-- Function `correctBounds` from src/lib/utils.js: clamps every item into
the column range, pushing colliding statics down; mutates and returns the
same collection. -/
def correctBounds (layout : Layout) (cols : Int) : Layout :=
  correctBoundsGo cols layout.length (staticIdxs layout) layout 0

/-! ## Validation (validateLayout, src/lib/utils.js) -/

/-- JavaScript field value as far as `validateLayout` can distinguish it:
an ordinary number, NaN, a string, undefined, or any other value. -/
inductive JVal where
  | num (n : Int)
  | nan
  | str (s : String)
  | undef
  | objVal
deriving DecidableEq, Repr

/-- Raw (unvalidated) layout item: the four geometry fields and the key,
each an arbitrary JavaScript value. -/
structure RawItem where
  x : JVal
  y : JVal
  w : JVal
  h : JVal
  i : JVal
deriving DecidableEq, Repr

/-- A value passes the numeric check of `validateLayout` exactly when it is
a number and not NaN. -/
def isNumber : JVal → Bool
  | JVal.num _ => true
  | _ => false

/-- The four geometry checks of `validateLayout` on one item. -/
def rawFieldsOk (item : RawItem) : Bool :=
  isNumber item.x && isNumber item.y && isNumber item.w && isNumber item.h

/-- The key check of `validateLayout`: `i` may be undefined, otherwise it
must be a string. -/
def rawKeyOk : JVal → Bool
  | JVal.undef => true
  | JVal.str _ => true
  | _ => false

/-- Function `validateLayout` from src/lib/utils.js, as the predicate
"throws an error": some item fails the numeric checks on x, y, w, h or the
string check on a present key.  The function performs no mutation. -/
def validateLayoutThrows (layout : List RawItem) : Bool :=
  layout.any (fun item => !(rawFieldsOk item && rawKeyOk item.i))

/-- String keys present in a raw layout. -/
def rawKeys (layout : List RawItem) : List String :=
  layout.filterMap (fun item =>
    match item.i with
    | JVal.str s => some s
    | _ => none)

/-- Duplicate test on present keys. -/
def hasDupKeys (layout : List RawItem) : Bool :=
  go (rawKeys layout)
where
  go : List String → Bool
    | [] => false
    | s :: rest => rest.contains s || go rest

/-- Modelled from the spec: a Layout is malformed if any item lacks numeric,
non-NaN x, y, w, h, or any i key is present but non-string, or keys are not
unique.  This is the spec's notion, compared against what the code actually
rejects. -/
def specMalformed (layout : List RawItem) : Bool :=
  layout.any (fun item => !(rawFieldsOk item && rawKeyOk item.i)) || hasDupKeys layout

/-! ## Mover (moveElement / moveElementAwayFromCollision, src/lib/utils.js)

The three functions below are the mutual recursion of the source: the
collision loop inside `moveElement` is `moveLoop`.  Every call consumes one
unit of fuel; fuel only bounds the recursion depth, so any `some` result is
the result of the terminating JavaScript run. -/

/-- The three in-place assignments of `moveElement` on the moved item:
optional new x, optional new y, moved flag set. -/
def moveTarget (l : Item) (x y : Option Int) : Item :=
  { l with x := x.getD l.x, y := y.getD l.y, moved := true }

/-- The `movingUp` flag of `moveElement`: moving toward lower y under
vertical compaction, toward lower x under horizontal. -/
def movingUpFlag (compactType : CompactType) (x y : Option Int) (oldX oldY : Int) : Bool :=
  match compactType, y, x with
  | some Axis.vertical, some yv, _ => decide (oldY ≥ yv)
  | some Axis.horizontal, _, some xv => decide (oldX ≥ xv)
  | _, _, _ => false

/-- The collision-ordered traversal of `moveElement`: the layout sorted
along the compaction axis, reversed when moving up. -/
def collisionScan (layout : Layout) (compactType : CompactType) (movingUp : Bool) : Layout :=
  if movingUp then (sortLayoutItems layout compactType).reverse
  else sortLayoutItems layout compactType

mutual

/-- Function `moveElement` from src/lib/utils.js.  The element to move is
addressed by its key (the source receives an object reference into the
layout array); the returned list is the final state of that array's items,
which the source mutates in place and returns (the `allowOverlap` branch
returns a clone, equal in value). -/
def moveElement : Nat → Layout → String → Option Int → Option Int → Bool → Bool →
    CompactType → Int → Bool → Option Layout
  | 0, _, _, _, _, _, _, _, _, _ => none
  | fuel + 1, layout, lId, x, y, isUserAction, preventCollision, compactType, cols,
      allowOverlap =>
    match findItem layout lId with
    | none => some layout
    | some l =>
      if l.static = true ∧ l.isDraggable ≠ some true then some layout
      else if y = some l.y ∧ x = some l.x then some layout
      else
        let oldX := l.x
        let oldY := l.y
        let l1 := moveTarget l x y
        let layout1 := updateItem layout lId (fun _ => l1)
        let sorted := collisionScan layout1 compactType (movingUpFlag compactType x y oldX oldY)
        let collisions := getAllCollisions sorted l1
        let hasCollisions := !collisions.isEmpty
        if hasCollisions && allowOverlap then some layout1
        else if hasCollisions && preventCollision then
          some (updateItem layout1 lId (fun it => { it with x := oldX, y := oldY, moved := false }))
        else
          moveLoop fuel layout1 lId (collisions.map (fun c => c.i)) isUserAction
            compactType cols

/-- Collision loop of `moveElement`: an already-moved collision is skipped;
a static collision displaces the moving element away, any other collision
is displaced away from the mover.  Collisions are read by key so that
mutations from earlier iterations are visible, as with the object
references of the source. -/
def moveLoop : Nat → Layout → String → List String → Bool → CompactType → Int →
    Option Layout
  | 0, _, _, _, _, _, _ => none
  | _ + 1, layout, _, [], _, _, _ => some layout
  | fuel + 1, layout, lId, cid :: rest, isUserAction, compactType, cols =>
    match findItem layout cid with
    | none => moveLoop fuel layout lId rest isUserAction compactType cols
    | some collision =>
      if collision.moved then moveLoop fuel layout lId rest isUserAction compactType cols
      else
        let step :=
          if collision.static then
            moveElementAwayFromCollision fuel layout cid lId isUserAction compactType cols
          else
            moveElementAwayFromCollision fuel layout lId cid isUserAction compactType cols
        match step with
        | none => none
        | some layout2 => moveLoop fuel layout2 lId rest isUserAction compactType cols

/-- Function `moveElementAwayFromCollision` from src/lib/utils.js.  Both
participants are addressed by key; the synthetic probe item carries the key
"-1" and only its geometry is ever read.  Both keys are assumed present in
the layout (the source dereferences them). -/
def moveElementAwayFromCollision : Nat → Layout → String → String → Bool →
    CompactType → Int → Option Layout
  | 0, _, _, _, _, _, _ => none
  | fuel + 1, layout, collidesWithId, itemToMoveId, isUserAction, compactType, cols =>
    match findItem layout collidesWithId, findItem layout itemToMoveId with
    | some collidesWith, some itemToMove =>
      let compactH : Bool := decide (compactType = some Axis.horizontal)
      let compactV : Bool := decide (compactType = some Axis.vertical)
      let preventCollision := collidesWith.static
      if isUserAction then
        let fakeItem : Item :=
          { i := "-1"
            x := if compactH then max (collidesWith.x - itemToMove.w) 0 else itemToMove.x
            y := if compactV then max (collidesWith.y - itemToMove.h) 0 else itemToMove.y
            w := itemToMove.w
            h := itemToMove.h
            moved := false
            static := false
            isDraggable := none }
        match getFirstCollision layout fakeItem with
        | none =>
          moveElement fuel layout itemToMoveId
            (if compactH then some fakeItem.x else none)
            (if compactV then some fakeItem.y else none)
            false preventCollision compactType cols false
        | some firstCollision =>
          let collisionNorth : Bool := decide (firstCollision.y + firstCollision.h > collidesWith.y)
          let collisionWest : Bool := decide (collidesWith.x + collidesWith.w > firstCollision.x)
          if collisionNorth && compactV then
            moveElement fuel layout itemToMoveId none (some (collidesWith.y + 1)) false
              preventCollision compactType cols false
          else if collisionNorth && decide (compactType = none) then
            let layout2 := updateItem layout collidesWithId
              (fun it => { it with y := itemToMove.y })
            some (updateItem layout2 itemToMoveId
              (fun it => { it with y := itemToMove.y + itemToMove.h }))
          else if collisionWest && compactH then
            moveElement fuel layout collidesWithId (some itemToMove.x) none false
              preventCollision compactType cols false
          else
            match (if compactH then some (itemToMove.x + 1) else (none : Option Int)),
                (if compactV then some (itemToMove.y + 1) else (none : Option Int)) with
            | none, none => some layout
            | nX, nY =>
              moveElement fuel layout itemToMoveId nX nY false preventCollision
                compactType cols false
      else
        match (if compactH then some (itemToMove.x + 1) else (none : Option Int)),
            (if compactV then some (itemToMove.y + 1) else (none : Option Int)) with
        | none, none => some layout
        | nX, nY =>
          moveElement fuel layout itemToMoveId nX nY false preventCollision
            compactType cols false
    | _, _ => none

end

/-! ## Compactor (compact / compactItem / resolveCompactionCollision,
src/lib/utils.js)

The source's `compact` clones each processed item but hands the array of
original items (`sorted`, whose entries alias the caller's layout items) to
`resolveCompactionCollision`, which mutates entries after the current index;
the model therefore threads that array and finally realigns it to the input
order, exposing the final state of the caller's item objects alongside the
returned layout. -/

/-- Coordinate axis "x" or "y" passed to `resolveCompactionCollision`. -/
inductive CoordAxis where
  | xAxis
  | yAxis
deriving DecidableEq, Repr

/-- Read the coordinate selected by the axis. -/
def axGet : CoordAxis → Item → Int
  | CoordAxis.xAxis, it => it.x
  | CoordAxis.yAxis, it => it.y

/-- Write the coordinate selected by the axis. -/
def axSet : CoordAxis → Item → Int → Item
  | CoordAxis.xAxis, it, v => { it with x := v }
  | CoordAxis.yAxis, it, v => { it with y := v }

/-- The size property paired with the axis by `heightWidth`: w for x, h for
y. -/
def axSize : CoordAxis → Item → Int
  | CoordAxis.xAxis, it => it.w
  | CoordAxis.yAxis, it => it.h

/-- Index right after the entry with the given key, modelling
`indexOf(item.i) + 1` of `resolveCompactionCollision` (an absent key gives
-1 in the source, so the scan starts at 0). -/
def findIdxAfter (layout : Layout) (id : String) : Nat :=
  match layout.findIdx? (fun li => li.i = id) with
  | some n => n + 1
  | none => 0

mutual

/-- Function `resolveCompactionCollision` from src/lib/utils.js.  The item
is bumped one cell along the axis, colliding non-static items after its
index are pushed recursively, and the item finally lands on `moveToCoord`.
The processed item is passed and returned by value: the source's top-level
call works on a detached clone whose key still finds the original's index,
while recursive calls write the result back into the array (see
`resolveCCLoop`). -/
def resolveCompactionCollision : Nat → Layout → Item → Int → CoordAxis →
    Option (Layout × Item)
  | 0, _, _, _, _ => none
  | fuel + 1, layout, item, moveToCoord, axis =>
    let sizeVal := axSize axis item
    let item1 := axSet axis item (axGet axis item + 1)
    let start := findIdxAfter layout item1.i
    match resolveCCLoop fuel layout item1 moveToCoord sizeVal axis start with
    | none => none
    | some layout2 => some (layout2, axSet axis item1 moveToCoord)

/-- Scan loop of `resolveCompactionCollision` over the entries after the
item's index: static entries are skipped, the scan stops at the first entry
below the item, and each colliding entry is pushed recursively, its new
value written back in place. -/
def resolveCCLoop : Nat → Layout → Item → Int → Int → CoordAxis → Nat → Option Layout
  | 0, _, _, _, _, _, _ => none
  | fuel + 1, layout, item, moveToCoord, sizeVal, axis, idx =>
    match layout[idx]? with
    | none => some layout
    | some other =>
      if other.static then resolveCCLoop fuel layout item moveToCoord sizeVal axis (idx + 1)
      else if other.y > item.y + item.h then some layout
      else if collides item other then
        match resolveCompactionCollision fuel layout other (moveToCoord + sizeVal) axis with
        | none => none
        | some (layout2, other2) =>
          resolveCCLoop fuel (layout2.set idx other2) item moveToCoord sizeVal axis (idx + 1)
      else resolveCCLoop fuel layout item moveToCoord sizeVal axis (idx + 1)

end

/-- Upward slide of `compactItem`: decrement y while positive and free of
collision.  The entry fuel `y.toNat` is exact: the loop can run at most
that many times, and when it is exhausted the loop condition is false. -/
def slideUpGo (cw : List Item) : Nat → Item → Item
  | 0, l => l
  | fuel + 1, l =>
    if l.y > 0 ∧ getFirstCollision cw l = none then slideUpGo cw fuel { l with y := l.y - 1 }
    else l

/-- Upward slide of `compactItem` with exact fuel. -/
def slideUp (cw : List Item) (l : Item) : Item :=
  slideUpGo cw l.y.toNat l

/-- Leftward slide of `compactItem`: decrement x while positive and free of
collision, with exact fuel as in `slideUpGo`. -/
def slideLeftGo (cw : List Item) : Nat → Item → Item
  | 0, l => l
  | fuel + 1, l =>
    if l.x > 0 ∧ getFirstCollision cw l = none then slideLeftGo cw fuel { l with x := l.x - 1 }
    else l

/-- Leftward slide of `compactItem` with exact fuel. -/
def slideLeft (cw : List Item) (l : Item) : Item :=
  slideLeftGo cw l.x.toNat l

/-- Collision loop of `compactItem`: while the item collides with the
comparison set (and not in the overlap-allowed axis-free mode), push the
collider cascade and land past it; a horizontal overflow wraps to the next
row and slides left again. -/
def compactItemGo : Nat → List Item → Item → CompactType → Int → Layout → Bool →
    Option (Item × Layout)
  | 0, _, _, _, _, _, _ => none
  | fuel + 1, compareWith, l, compactType, cols, fullLayout, allowOverlap =>
    match getFirstCollision compareWith l with
    | none => some (l, fullLayout)
    | some c =>
      if compactType = none ∧ allowOverlap = true then some (l, fullLayout)
      else
        match (if compactType = some Axis.horizontal then
            resolveCompactionCollision fuel fullLayout l (c.x + c.w) CoordAxis.xAxis
          else
            resolveCompactionCollision fuel fullLayout l (c.y + c.h) CoordAxis.yAxis) with
        | none => none
        | some (fullLayout2, l2) =>
          let l3 :=
            if compactType = some Axis.horizontal ∧ l2.x + l2.w > cols then
              slideLeft compareWith { l2 with x := cols - l2.w, y := l2.y + 1 }
            else l2
          compactItemGo fuel compareWith l3 compactType cols fullLayout2 allowOverlap

/-- Function `compactItem` from src/lib/utils.js: clamp to the bottom and
slide up (vertical), or slide left (horizontal), then resolve collisions
against the comparison set, and finally clamp the coordinates to be
non-negative. -/
def compactItem (compareWith : List Item) (l : Item) (compactType : CompactType)
    (cols : Int) (fullLayout : Layout) (allowOverlap : Bool) (fuel : Nat) :
    Option (Item × Layout) :=
  let l1 :=
    match compactType with
    | some Axis.vertical => slideUp compareWith { l with y := min (bottom compareWith) l.y }
    | some Axis.horizontal => slideLeft compareWith l
    | none => l
  match compactItemGo fuel compareWith l1 compactType cols fullLayout allowOverlap with
  | none => none
  | some (l2, fullLayout2) =>
    some ({ l2 with y := max l2.y 0, x := max l2.x 0 }, fullLayout2)

/-- Association list from item key to its compacted value, modelling the
`out` array of `compact` (filled at the input position of each sorted
item). -/
def lookupOut : List (String × Item) → String → Option Item
  | [], _ => none
  | (id, it) :: rest, key => if id = key then some it else lookupOut rest key

/-- Main loop of `compact` over the sorted items: statics pass through with
the moved flag cleared; every other item is compacted against the
comparison set and then added to it. -/
def compactGo : Nat → List Item → Layout → Nat → List (String × Item) → CompactType →
    Int → Bool → Option (Layout × List (String × Item))
  | 0, _, _, _, _, _, _, _ => none
  | fuel + 1, compareWith, sorted, k, out, compactType, cols, allowOverlap =>
    match sorted[k]? with
    | none => some (sorted, out)
    | some it =>
      if it.static then
        compactGo fuel compareWith sorted (k + 1) (out ++ [(it.i, { it with moved := false })])
          compactType cols allowOverlap
      else
        match compactItem compareWith it compactType cols sorted allowOverlap fuel with
        | none => none
        | some (l2, sorted2) =>
          compactGo fuel (compareWith ++ [l2]) sorted2 (k + 1)
            (out ++ [(l2.i, { l2 with moved := false })]) compactType cols allowOverlap

/-- Function `compact` from src/lib/utils.js.  The first component of the
result is the returned layout (the compacted clones, realigned to the input
order by key); the second component is the final state of the caller's own
item objects (the sorted originals that `resolveCompactionCollision`
mutates, realigned to the input order), exposing any in-place mutation of
the input. -/
def compact (layout : Layout) (compactType : CompactType) (cols : Int)
    (allowOverlap : Bool) (fuel : Nat) : Option (Layout × Layout) :=
  let compareWith := getStatics layout
  let sorted := sortLayoutItems layout compactType
  match compactGo fuel compareWith sorted 0 [] compactType cols allowOverlap with
  | none => none
  | some (sortedFinal, out) =>
    some (layout.map (fun it => (lookupOut out it.i).getD it),
      layout.map (fun it => (findItem sortedFinal it.i).getD it))

/-! ## Predicates used by the compaction theorems -/

/-- Two items agree on everything except their position: same key, sizes
and flags. -/
def sameShape (a b : Item) : Prop :=
  a.i = b.i ∧ a.w = b.w ∧ a.h = b.h ∧ a.static = b.static ∧
    a.moved = b.moved ∧ a.isDraggable = b.isDraggable

/-- Entry-wise `sameShape` between two layouts of equal length. -/
def layoutShapeEq (L2 L1 : Layout) : Prop :=
  L2.length = L1.length ∧
    ∀ j : Nat, j < L1.length →
      ∃ a b, L1[j]? = some a ∧ L2[j]? = some b ∧ sameShape b a

/-- All items have non-negative coordinates and sizes. -/
def nonNegSized (L : Layout) : Prop :=
  ∀ c ∈ L, 0 ≤ c.x ∧ 0 ≤ c.y ∧ 0 ≤ c.w ∧ 0 ≤ c.h

/-- An item of the data model: non-negative coordinates, sizes at least
one, width within the column count. -/
def GoodItem (cols : Int) (it : Item) : Prop :=
  0 ≤ it.x ∧ 0 ≤ it.y ∧ 1 ≤ it.w ∧ 1 ≤ it.h ∧ it.w ≤ cols

/-- All items of a layout are within the data model. -/
def GoodLayout (cols : Int) (L : Layout) : Prop :=
  ∀ c ∈ L, GoodItem cols c

/-- Symmetric non-overlap relation between two entries of the compacted
output: two non-static entries do not overlap. -/
def PairRel (pr qr : String × Item) : Prop :=
  pr.2.static = false → qr.2.static = false →
    collides pr.2 qr.2 = false ∧ collides qr.2 pr.2 = false

/-- Entry-wise preservation of the static entries: every static entry of
the second layout is still present, unchanged, at the same position of the
first (the scan of `resolveCompactionCollision` skips static items). -/
def staticsUntouched (L2 L1 : Layout) : Prop :=
  ∀ j : Nat, ∀ a : Item, L1[j]? = some a → a.static = true → L2[j]? = some a

/-- Comparison set of the `compact` loop at position `k` of an axis-none
run (the sorted order is the layout order): the pre-seeded statics
followed by the non-static items already placed. -/
def cwAt (L : Layout) (k : Nat) : List Item :=
  getStatics L ++ (L.take k).filter (fun a => !a.static)

/-- Per-item effect of `compact` with axis none and overlap allowed: the
collision loop exits at once, so the item is only clamped to non-negative
coordinates (non-static items) and gets its moved flag cleared. -/
def passOneNoneOverlap (it : Item) : Item :=
  if it.static then { it with moved := false }
  else { it with y := max it.y 0, x := max it.x 0, moved := false }

/-- Comparison set of the `compact` loop at position `k` of a sorted run:
the pre-seeded base (the statics of the unsorted layout) followed by the
non-static items among the first `k` sorted entries. -/
def cwFrom (base : List Item) (S : Layout) (k : Nat) : List Item :=
  base ++ (S.take k).filter (fun a => !a.static)

/-! ## Theorems -/

/-- Characterisation of `collides`: distinct keys and strict overlap on both
axes. -/
theorem collides_iff (c l : Item) :
    collides c l = true ↔
      c.i ≠ l.i ∧ l.x < c.x + c.w ∧ c.x < l.x + l.w ∧
        l.y < c.y + c.h ∧ c.y < l.y + l.h := by
  unfold collides
  by_cases h1 : c.i = l.i
  · simp [h1]
  · by_cases h2 : c.x + c.w ≤ l.x
    · simp only [if_neg h1, if_pos h2]
      constructor
      · intro h; exact absurd h Bool.false_ne_true
      · rintro ⟨-, h, -⟩; omega
    · by_cases h3 : c.x ≥ l.x + l.w
      · simp only [if_neg h1, if_neg h2, if_pos h3]
        constructor
        · intro h; exact absurd h Bool.false_ne_true
        · rintro ⟨-, -, h, -⟩; omega
      · by_cases h4 : c.y + c.h ≤ l.y
        · simp only [if_neg h1, if_neg h2, if_neg h3, if_pos h4]
          constructor
          · intro h; exact absurd h Bool.false_ne_true
          · rintro ⟨-, -, -, h, -⟩; omega
        · by_cases h5 : c.y ≥ l.y + l.h
          · simp only [if_neg h1, if_neg h2, if_neg h3, if_neg h4, if_pos h5]
            constructor
            · intro h; exact absurd h Bool.false_ne_true
            · rintro ⟨-, -, -, -, h⟩; omega
          · simp only [if_neg h1, if_neg h2, if_neg h3, if_neg h4, if_neg h5]
            constructor
            · intro _
              refine ⟨h1, by omega, by omega, by omega, by omega⟩
            · intro _; trivial

/-- The overlap test is symmetric. -/
theorem collides_symm (a b : Item) : collides a b = collides b a := by
  by_cases h : collides a b = true
  · obtain ⟨h1, h2, h3, h4, h5⟩ := (collides_iff a b).mp h
    have : collides b a = true :=
      (collides_iff b a).mpr ⟨Ne.symm h1, h3, h2, h5, h4⟩
    rw [h, this]
  · have hb : ¬ collides b a = true := by
      intro hba
      obtain ⟨h1, h2, h3, h4, h5⟩ := (collides_iff b a).mp hba
      exact h ((collides_iff a b).mpr ⟨Ne.symm h1, h3, h2, h5, h4⟩)
    simp only [Bool.not_eq_true] at h hb
    rw [h, hb]

/-- The fold behind `bottom` never decreases its accumulator. -/
theorem bottom_foldl_ge_init (L : Layout) :
    ∀ m : Int, m ≤ L.foldl (fun m it => if it.y + it.h > m then it.y + it.h else m) m := by
  induction L with
  | nil => intro m; simp
  | cons a L ih =>
    intro m
    simp only [List.foldl_cons]
    refine le_trans ?_ (ih _)
    split <;> omega

/-- Every member's bottom edge is at most `bottom`. -/
theorem le_bottom_of_mem {c : Item} {L : Layout} (hc : c ∈ L) :
    c.y + c.h ≤ bottom L := by
  unfold bottom
  suffices h : ∀ m : Int, c ∈ L →
      c.y + c.h ≤ L.foldl (fun m it => if it.y + it.h > m then it.y + it.h else m) m from
    h 0 hc
  clear hc
  induction L with
  | nil => intro m h; cases h
  | cons a L ih =>
    intro m hmem
    simp only [List.foldl_cons]
    rcases List.mem_cons.mp hmem with h | h
    · subst h
      refine le_trans ?_ (bottom_foldl_ge_init L _)
      split <;> omega
    · exact ih _ h

/-- Function `bottom` is non-negative. -/
theorem bottom_nonneg (L : Layout) : 0 ≤ bottom L :=
  bottom_foldl_ge_init L 0

/-- Ordered insertion permutes. -/
theorem ordInsert_perm (le : Item → Item → Bool) (a : Item) (l : Layout) :
    List.Perm (ordInsert le a l) (a :: l) := by
  induction l with
  | nil => simp [ordInsert]
  | cons b rest ih =>
    unfold ordInsert
    by_cases h : le a b
    · rw [if_pos h]
    · rw [if_neg h]
      exact List.Perm.trans (List.Perm.cons b ih) (List.Perm.swap a b rest)

/-- Insertion sort permutes. -/
theorem insertionSortBy_perm (le : Item → Item → Bool) (l : Layout) :
    List.Perm (insertionSortBy le l) l := by
  induction l with
  | nil => simp [insertionSortBy]
  | cons a rest ih =>
    unfold insertionSortBy
    exact List.Perm.trans (ordInsert_perm le a (insertionSortBy le rest))
      (List.Perm.cons a ih)

/-- Sorting for the collision scan permutes the layout. -/
theorem sortLayoutItems_perm (l : Layout) (ct : CompactType) :
    List.Perm (sortLayoutItems l ct) l := by
  cases ct with
  | none => exact List.Perm.refl l
  | some a =>
    cases a with
    | vertical => exact insertionSortBy_perm rowColLe l
    | horizontal => exact insertionSortBy_perm colRowLe l

/-- Membership in the collision scan agrees with membership in the
layout. -/
theorem mem_collisionScan {c : Item} (L : Layout) (ct : CompactType) (b : Bool) :
    c ∈ collisionScan L ct b ↔ c ∈ L := by
  unfold collisionScan
  by_cases hb : b
  · rw [if_pos hb, List.mem_reverse]
    exact (sortLayoutItems_perm L ct).mem_iff
  · rw [if_neg hb]
    exact (sortLayoutItems_perm L ct).mem_iff

/-- A witnessed collision makes `getAllCollisions` non-empty. -/
theorem getAllCollisions_isEmpty_false {L : Layout} {l : Item}
    (h : ∃ c ∈ L, collides c l = true) : (getAllCollisions L l).isEmpty = false := by
  obtain ⟨c, hmem, hcol⟩ := h
  have : c ∈ getAllCollisions L l := List.mem_filter.mpr ⟨hmem, hcol⟩
  cases hg : getAllCollisions L l with
  | nil => rw [hg] at this; cases this
  | cons a rest => rfl

/-- Update of an update with a constant item of the same key collapses. -/
theorem updateItem_twice (L : Layout) (id : String) (a : Item) (g : Item → Item)
    (ha : a.i = id) :
    updateItem (updateItem L id (fun _ => a)) id g = updateItem L id (fun _ => g a) := by
  induction L with
  | nil => rfl
  | cons b rest ih =>
    by_cases hb : b.i = id
    · simp only [updateItem, if_pos hb, if_pos ha]
    · simp only [updateItem, if_neg hb, ih]

/-- Two updates agree when their functions agree on the found item. -/
theorem updateItem_congr_of_find (L : Layout) (id : String) (l : Item) (f g : Item → Item)
    (hfind : findItem L id = some l) (hfg : f l = g l) :
    updateItem L id f = updateItem L id g := by
  induction L with
  | nil => rfl
  | cons b rest ih =>
    by_cases hb : b.i = id
    · have hbl : b = l := by
        unfold findItem at hfind
        rw [List.find?_cons_of_pos _ (by simpa using hb)] at hfind
        exact Option.some_injective _ hfind
      subst hbl
      simp only [updateItem, if_pos hb, hfg]
    · have hrest : findItem rest id = some l := by
        unfold findItem at hfind ⊢
        rwa [List.find?_cons_of_neg _ (by simpa using hb)] at hfind
      simp only [updateItem, if_neg hb, ih hrest]

/-- A found item carries the searched key. -/
theorem findItem_key {L : Layout} {id : String} {l : Item}
    (h : findItem L id = some l) : l.i = id := by
  have := List.find?_some h
  simpa using this

/-! ### C7: group layout selection -/

/-- C7: when merging two plain items, dragged item A onto target item B, the
new group's top-left equals B's original position, and the horizontal
arrangement (width A.w + B.w, height max(A.h, B.h), children at relative
(0,0) and (A.w, 0)) is chosen exactly when B.x + A.w + B.w ≤ columnCount,
otherwise the vertical arrangement (width max(A.w, B.w), height A.h + B.h,
children at relative (0,0) and (0, A.h)) is used. -/
theorem c7_group_layout_selection (A B : Item) (cols : Int) :
    createOptimalGroupLayout A B cols =
      if B.x + (A.w + B.w) ≤ cols then
        ⟨B.x, B.y, A.w + B.w, max A.h B.h,
          [{ A with x := 0, y := 0 }, { B with x := A.w, y := 0 }]⟩
      else
        ⟨B.x, B.y, max A.w B.w, A.h + B.h,
          [{ A with x := 0, y := 0 }, { B with x := 0, y := A.h }]⟩ := by
  unfold createOptimalGroupLayout calculateHorizontalLayout calculateVerticalLayout
  by_cases h : B.x + (A.w + B.w) ≤ cols
  · simp only [h, if_pos h, if_true]
  · simp only [h, if_neg h, if_false]

/-! ### C9: bounds containment -/

/-- The clamp of `correctBounds` establishes horizontal containment. -/
theorem clampX_bounds (cols : Int) (l : Item) :
    0 ≤ (clampX cols l).x ∧ (clampX cols l).x + (clampX cols l).w ≤ cols := by
  unfold clampX
  by_cases h1 : l.x + l.w > cols
  · simp only [if_pos h1]
    by_cases h2 : cols - l.w < 0
    · simp only [if_pos h2]
      constructor
      · exact le_refl 0
      · omega
    · simp only [if_neg h2]
      constructor <;> omega
  · simp only [if_neg h1]
    by_cases h2 : l.x < 0
    · simp only [if_pos h2]
      constructor
      · exact le_refl 0
      · omega
    · simp only [if_neg h2]
      constructor <;> omega

/-- The push-down loop changes only the `y` coordinate. -/
theorem pushDownGo_fields (cw : List Item) :
    ∀ (fuel : Nat) (l : Item),
      (pushDownGo cw fuel l).i = l.i ∧ (pushDownGo cw fuel l).x = l.x ∧
      (pushDownGo cw fuel l).w = l.w ∧ (pushDownGo cw fuel l).h = l.h ∧
      (pushDownGo cw fuel l).moved = l.moved ∧
      (pushDownGo cw fuel l).static = l.static ∧
      (pushDownGo cw fuel l).isDraggable = l.isDraggable := by
  intro fuel
  induction fuel with
  | zero => intro l; exact ⟨rfl, rfl, rfl, rfl, rfl, rfl, rfl⟩
  | succ n ih =>
    intro l
    unfold pushDownGo
    cases h : getFirstCollision cw l with
    | none => exact ⟨rfl, rfl, rfl, rfl, rfl, rfl, rfl⟩
    | some c => exact ih { l with y := l.y + 1 }

/-- The push-down step of `correctBounds` changes only the `y`
coordinate. -/
theorem pushDownItem_fields (cw : List Item) (l : Item) :
    (pushDownItem cw l).i = l.i ∧ (pushDownItem cw l).x = l.x ∧
    (pushDownItem cw l).w = l.w ∧ (pushDownItem cw l).h = l.h ∧
    (pushDownItem cw l).moved = l.moved ∧
    (pushDownItem cw l).static = l.static ∧
    (pushDownItem cw l).isDraggable = l.isDraggable :=
  pushDownGo_fields cw (pushDownMeasure cw l) l

/-- Invariant of the `correctBounds` loop: entries below `k` are untouched,
and each processed entry's `x` and `w` are those produced by the clamp of
its input value. -/
theorem correctBoundsGo_spec (cols : Int) :
    ∀ (remaining : Nat) (cwIdx : List Nat) (layout : Layout) (k : Nat),
      (correctBoundsGo cols remaining cwIdx layout k).length = layout.length ∧
      (∀ j, j < k → (correctBoundsGo cols remaining cwIdx layout k)[j]? = layout[j]?) ∧
      (∀ j a, k ≤ j → j < k + remaining → layout[j]? = some a →
        ∃ b, (correctBoundsGo cols remaining cwIdx layout k)[j]? = some b ∧
          b.x = (clampX cols a).x ∧ b.w = (clampX cols a).w) := by
  intro remaining
  induction remaining with
  | zero =>
    intro cwIdx layout k
    refine ⟨rfl, fun j _ => rfl, fun j a h1 h2 _ => absurd h2 (by omega)⟩
  | succ n ih =>
    intro cwIdx layout k
    unfold correctBoundsGo
    cases hk : layout[k]? with
    | none =>
      have hklen : layout.length ≤ k := List.getElem?_eq_none_iff.mp hk
      refine ⟨rfl, fun j _ => rfl, fun j a h1 h2 ha => ?_⟩
      rw [List.getElem?_eq_none (show layout.length ≤ j by omega)] at ha
      exact Option.noConfusion ha
    | some l =>
      by_cases hs : (clampX cols l).static
      · simp only [hs, if_true]
        set l2 := pushDownItem (itemsAt (layout.set k (clampX cols l)) cwIdx) (clampX cols l) with hl2
        have hrec := ih cwIdx ((layout.set k (clampX cols l)).set k l2) (k + 1)
        have hlen2 : ((layout.set k (clampX cols l)).set k l2).length = layout.length := by
          simp [List.length_set]
        have hklt : k < layout.length := by
          by_contra h
          push_neg at h
          rw [List.getElem?_eq_none h] at hk
          exact Option.noConfusion hk
        refine ⟨hrec.1.trans hlen2, ?_, ?_⟩
        · intro j hj
          rw [hrec.2.1 j (by omega)]
          rw [List.getElem?_set_ne (by omega), List.getElem?_set_ne (by omega)]
        · intro j a h1 h2 ha
          rcases Nat.eq_or_lt_of_le h1 with rfl | hlt
          · have hval : ((layout.set k (clampX cols l)).set k l2)[k]? = some l2 := by
              rw [List.getElem?_set_self (by simp [List.length_set]; omega)]
            have := hrec.2.1 k (by omega)
            refine ⟨l2, this.trans hval, ?_, ?_⟩
            · have hfx := (pushDownItem_fields (itemsAt (layout.set k (clampX cols l)) cwIdx) (clampX cols l)).2.1
              rw [hl2, hfx]
              have : a = l := by rw [hk] at ha; exact (Option.some_injective _ ha).symm
              rw [this]
            · have hfw := (pushDownItem_fields (itemsAt (layout.set k (clampX cols l)) cwIdx) (clampX cols l)).2.2.1
              rw [hl2, hfw]
              have : a = l := by rw [hk] at ha; exact (Option.some_injective _ ha).symm
              rw [this]
          · have ha2 : ((layout.set k (clampX cols l)).set k l2)[j]? = some a := by
              rw [List.getElem?_set_ne (by omega), List.getElem?_set_ne (by omega)]
              exact ha
            obtain ⟨b, hb, hbx, hbw⟩ := hrec.2.2 j a (by omega) (by omega) ha2
            exact ⟨b, hb, hbx, hbw⟩
      · have hs' : (clampX cols l).static = false := by
          simpa using hs
        simp only [hs', Bool.false_eq_true, if_false]
        have hrec := ih (cwIdx ++ [k]) (layout.set k (clampX cols l)) (k + 1)
        have hklt : k < layout.length := by
          by_contra h
          push_neg at h
          rw [List.getElem?_eq_none h] at hk
          exact Option.noConfusion hk
        refine ⟨hrec.1.trans (by simp), ?_, ?_⟩
        · intro j hj
          rw [hrec.2.1 j (by omega), List.getElem?_set_ne (by omega)]
        · intro j a h1 h2 ha
          rcases Nat.eq_or_lt_of_le h1 with rfl | hlt
          · have hval : (layout.set k (clampX cols l))[k]? = some (clampX cols l) := by
              rw [List.getElem?_set_self hklt]
            have := hrec.2.1 k (by omega)
            have hla : a = l := by rw [hk] at ha; exact (Option.some_injective _ ha).symm
            exact ⟨clampX cols l, this.trans hval, by rw [hla], by rw [hla]⟩
          · have ha2 : (layout.set k (clampX cols l))[j]? = some a := by
              rw [List.getElem?_set_ne (by omega)]
              exact ha
            obtain ⟨b, hb, hbx, hbw⟩ := hrec.2.2 j a (by omega) (by omega) ha2
            exact ⟨b, hb, hbx, hbw⟩

/-- C9: after `correctBounds` every item satisfies 0 ≤ x and x + w ≤
columnCount; an item with x + w > columnCount is clamped to x = columnCount
- w, and an item whose x is then negative is reset to x = 0 with width
forced to columnCount (the per-item transform `clampX`). -/
theorem c9_correct_bounds_containment (layout : Layout) (cols : Int) (j : Nat) (a b : Item)
    (ha : layout[j]? = some a) (hb : (correctBounds layout cols)[j]? = some b) :
    b.x = (clampX cols a).x ∧ b.w = (clampX cols a).w ∧ 0 ≤ b.x ∧ b.x + b.w ≤ cols := by
  have hj : j < layout.length := by
    by_contra h
    push_neg at h
    rw [List.getElem?_eq_none h] at ha
    exact Option.noConfusion ha
  obtain ⟨b', hb', hbx, hbw⟩ :=
    (correctBoundsGo_spec cols layout.length (staticIdxs layout) layout 0).2.2 j a
      (Nat.zero_le j) (by omega) ha
  have : b = b' := by
    unfold correctBounds at hb
    rw [hb] at hb'
    exact Option.some_injective _ hb'
  subst this
  obtain ⟨hcb1, hcb2⟩ := clampX_bounds cols a
  exact ⟨hbx, hbw, by omega, by omega⟩

/-- C9 witness: a layout with one right-overflowing and one left-overflowing
item, corrected at column count 12. -/
theorem c9_correct_bounds_witness :
    ((mkItem "a" 8 0 4 1).x = (clampX 12 (mkItem "a" 10 0 4 1)).x ∧
      (mkItem "a" 8 0 4 1).w = (clampX 12 (mkItem "a" 10 0 4 1)).w ∧
      0 ≤ (mkItem "a" 8 0 4 1).x ∧
      (mkItem "a" 8 0 4 1).x + (mkItem "a" 8 0 4 1).w ≤ 12) ∧
    ((mkItem "b" 0 0 12 1).x = (clampX 12 (mkItem "b" (-2) 0 3 1)).x ∧
      (mkItem "b" 0 0 12 1).w = (clampX 12 (mkItem "b" (-2) 0 3 1)).w ∧
      0 ≤ (mkItem "b" 0 0 12 1).x ∧
      (mkItem "b" 0 0 12 1).x + (mkItem "b" 0 0 12 1).w ≤ 12) :=
  ⟨c9_correct_bounds_containment [mkItem "a" 10 0 4 1, mkItem "b" (-2) 0 3 1] 12 0
      (mkItem "a" 10 0 4 1) (mkItem "a" 8 0 4 1) rfl (by decide),
    c9_correct_bounds_containment [mkItem "a" 10 0 4 1, mkItem "b" (-2) 0 3 1] 12 1
      (mkItem "b" (-2) 0 3 1) (mkItem "b" 0 0 12 1) rfl (by decide)⟩

/-! ### C8: validation -/

/-- C8 counterexample: a layout with two items carrying the same key "a" is
malformed per the spec but is not rejected by validateLayout, which never
checks key uniqueness. -/
theorem c8_validation_counterexample :
    specMalformed
        [⟨JVal.num 0, JVal.num 0, JVal.num 1, JVal.num 1, JVal.str "a"⟩,
          ⟨JVal.num 1, JVal.num 1, JVal.num 1, JVal.num 1, JVal.str "a"⟩] = true ∧
    validateLayoutThrows
        [⟨JVal.num 0, JVal.num 0, JVal.num 1, JVal.num 1, JVal.str "a"⟩,
          ⟨JVal.num 1, JVal.num 1, JVal.num 1, JVal.num 1, JVal.str "a"⟩] = false := by
  decide

/-- C8 amended: validateLayout throws exactly when some item's x, y, w or h
is not a number or is NaN, or some item's i key is present but not a
string; key uniqueness is not checked, and validation performs no
mutation. -/
theorem c8_validate_layout_iff (layout : List RawItem) :
    validateLayoutThrows layout = true ↔
      ∃ item ∈ layout,
        (∀ n : Int, item.x ≠ JVal.num n) ∨ (∀ n : Int, item.y ≠ JVal.num n) ∨
        (∀ n : Int, item.w ≠ JVal.num n) ∨ (∀ n : Int, item.h ≠ JVal.num n) ∨
        (item.i ≠ JVal.undef ∧ ∀ s : String, item.i ≠ JVal.str s) := by
  unfold validateLayoutThrows
  rw [List.any_eq_true]
  constructor
  · rintro ⟨item, hmem, hbad⟩
    refine ⟨item, hmem, ?_⟩
    simp only [Bool.not_eq_true', Bool.and_eq_false_iff] at hbad
    rcases hbad with h | h
    · unfold rawFieldsOk at h
      simp only [Bool.and_eq_false_iff] at h
      rcases h with ((hx | hy) | hw) | hh
      · left
        intro n hn
        rw [hn] at hx
        exact Bool.noConfusion hx
      · right; left
        intro n hn
        rw [hn] at hy
        exact Bool.noConfusion hy
      · right; right; left
        intro n hn
        rw [hn] at hw
        exact Bool.noConfusion hw
      · right; right; right; left
        intro n hn
        rw [hn] at hh
        exact Bool.noConfusion hh
    · right; right; right; right
      cases hi : item.i with
      | undef => rw [hi] at h; exact Bool.noConfusion h
      | str s => rw [hi] at h; exact Bool.noConfusion h
      | num n => exact ⟨by simp [hi], by simp [hi]⟩
      | nan => exact ⟨by simp [hi], by simp [hi]⟩
      | objVal => exact ⟨by simp [hi], by simp [hi]⟩
  · rintro ⟨item, hmem, hbad⟩
    refine ⟨item, hmem, ?_⟩
    simp only [Bool.not_eq_true', Bool.and_eq_false_iff]
    rcases hbad with h | h | h | h | h
    · left
      unfold rawFieldsOk
      simp only [Bool.and_eq_false_iff]
      left; left; left
      cases hx : item.x with
      | num n => exact absurd hx (h n)
      | nan => rfl
      | str s => rfl
      | undef => rfl
      | objVal => rfl
    · left
      unfold rawFieldsOk
      simp only [Bool.and_eq_false_iff]
      left; left; right
      cases hy : item.y with
      | num n => exact absurd hy (h n)
      | nan => rfl
      | str s => rfl
      | undef => rfl
      | objVal => rfl
    · left
      unfold rawFieldsOk
      simp only [Bool.and_eq_false_iff]
      left; right
      cases hw : item.w with
      | num n => exact absurd hw (h n)
      | nan => rfl
      | str s => rfl
      | undef => rfl
      | objVal => rfl
    · left
      unfold rawFieldsOk
      simp only [Bool.and_eq_false_iff]
      right
      cases hh : item.h with
      | num n => exact absurd hh (h n)
      | nan => rfl
      | str s => rfl
      | undef => rfl
      | objVal => rfl
    · right
      obtain ⟨h1, h2⟩ := h
      cases hi : item.i with
      | undef => exact absurd hi h1
      | str s => exact absurd hi (h2 s)
      | num n => rfl
      | nan => rfl
      | objVal => rfl

/-! ### C2: scenario 1 (the repository's own test expects "8" at (10,0)) -/

/-- C2: evaluation of the move of scenario 1.  Moving item "11" to (8,0)
with axis none, preventCollision false and allowOverlap false leaves "11"
at (8,0) but displaces "8" to (8,2) via the vertical swap branch of
moveElementAwayFromCollision, not to (10,0) as the claim (and the
repository's own test in src/test/spec/specific-collision-test.js)
states. -/
theorem c2_scenario1_eval :
    moveElement 10 [mkItem "11" 6 0 2 3, mkItem "8" 8 0 2 2] "11" (some 8) (some 0)
        true false none 12 false =
      some [⟨"11", 8, 0, 2, 3, true, false, none⟩,
        ⟨"8", 8, 2, 2, 2, false, false, none⟩] := by
  decide

/-! ### C3: static items can be moved by the axis-none swap branch -/

/-- C3: evaluation showing a static item relocated.  Item "A" is dragged
onto static item "S" with axis none; the swap branch of
moveElementAwayFromCollision assigns the static item's y from the moving
item, relocating "S" from (0,2) to (0,1) although "S" is static and not
explicitly draggable. -/
theorem c3_static_relocated_eval :
    moveElement 10 [mkItem "A" 0 0 2 2, mkStaticItem "S" 0 2 2 2] "A" (some 0) (some 1)
        true false none 12 false =
      some [⟨"A", 0, 3, 2, 2, true, false, none⟩,
        ⟨"S", 0, 1, 2, 2, false, true, none⟩] := by
  decide

/-! ### C1: the no-overlap invariant fails for the Mover with axis none -/

/-- C1 counterexample: with axis none and allowOverlap false, the layout
returned by moveElement for scenario 1 contains the two distinct non-static
items "11" at (8,0,2,3) and "8" at (8,2,2,2), which collide: the claimed
no-overlap invariant does not hold for every layout returned by
MoveElement. -/
theorem c1_no_overlap_counterexample :
    moveElement 10 [mkItem "11" 6 0 2 3, mkItem "8" 8 0 2 2] "11" (some 8) (some 0)
        true false none 12 false =
      some [⟨"11", 8, 0, 2, 3, true, false, none⟩,
        ⟨"8", 8, 2, 2, 2, false, false, none⟩] ∧
    collides ⟨"11", 8, 0, 2, 3, true, false, none⟩
        ⟨"8", 8, 2, 2, 2, false, false, none⟩ = true ∧
    (⟨"11", 8, 0, 2, 3, true, false, none⟩ : Item).static = false ∧
    (⟨"8", 8, 2, 2, 2, false, false, none⟩ : Item).static = false := by
  decide

/-! ### C5: preventCollision reverts atomically -/

/-- C5: when the target position collides, preventCollision true and
allowOverlap false make moveElement return the caller's layout with the
moved item's position reverted to its pre-call x,y and its moved flag
cleared, and no other item touched: the result is the input layout with
only the moved item's moved flag forced to false. -/
theorem c5_prevent_collision_atomic (fuel : Nat) (layout : Layout) (lId : String)
    (x y : Option Int) (isUserAction : Bool) (compactType : CompactType) (cols : Int)
    (l : Item) (hfind : findItem layout lId = some l)
    (hstatic : ¬(l.static = true ∧ l.isDraggable ≠ some true))
    (htarget : ¬(y = some l.y ∧ x = some l.x))
    (hcol : ∃ c ∈ updateItem layout lId (fun _ => moveTarget l x y),
      collides c (moveTarget l x y) = true) :
    moveElement (fuel + 1) layout lId x y isUserAction true compactType cols false =
      some (updateItem layout lId (fun it => { it with moved := false })) := by
  have hkey : l.i = lId := findItem_key hfind
  have hscan : ∃ c ∈ collisionScan (updateItem layout lId (fun _ => moveTarget l x y))
      compactType (movingUpFlag compactType x y l.x l.y), collides c (moveTarget l x y) = true := by
    obtain ⟨c, hmem, hc⟩ := hcol
    exact ⟨c, (mem_collisionScan _ _ _).mpr hmem, hc⟩
  have hne := getAllCollisions_isEmpty_false hscan
  simp only [moveElement, hfind, if_neg hstatic, if_neg htarget, hne, Bool.not_false,
    Bool.and_false, Bool.false_eq_true, if_false, Bool.and_true, if_true]
  rw [updateItem_twice layout lId (moveTarget l x y) _ (by simp [moveTarget, hkey])]
  rw [updateItem_congr_of_find layout lId l _ _ hfind]
  simp [moveTarget]

/-- C5 witness: moving "11" onto "8" with preventCollision yields the input
layout with the moved flag of "11" (already false) cleared. -/
theorem c5_prevent_collision_witness :
    moveElement 5 [mkItem "11" 6 0 2 3, mkItem "8" 8 0 2 2] "11" (some 8) (some 0)
        true true none 12 false =
      some (updateItem [mkItem "11" 6 0 2 3, mkItem "8" 8 0 2 2] "11"
        (fun it => { it with moved := false })) :=
  c5_prevent_collision_atomic 4 [mkItem "11" 6 0 2 3, mkItem "8" 8 0 2 2] "11"
    (some 8) (some 0) true none 12 (mkItem "11" 6 0 2 3) rfl (by decide) (by decide)
    ⟨mkItem "8" 8 0 2 2, by decide, by decide⟩

/-! ### C10: no displacement for secondary collisions without an axis -/

/-- C10: with compactType null and isUserAction false,
moveElementAwayFromCollision computes no displacement coordinates (the
one-cell fallback exists only along a set compaction axis) and returns its
input layout unchanged. -/
theorem c10_away_secondary_no_axis_noop (fuel : Nat) (layout : Layout)
    (collidesWithId itemToMoveId : String) (cols : Int) (cw itm : Item)
    (hcw : findItem layout collidesWithId = some cw)
    (hitm : findItem layout itemToMoveId = some itm) :
    moveElementAwayFromCollision (fuel + 1) layout collidesWithId itemToMoveId
      false none cols = some layout := by
  simp only [moveElementAwayFromCollision, hcw, hitm]
  rfl

/-- C10 witness: a concrete secondary collision with axis none leaves the
layout untouched. -/
theorem c10_away_secondary_no_axis_witness :
    moveElementAwayFromCollision 3 [mkItem "a" 0 0 1 1, mkItem "b" 0 0 1 1] "a" "b"
      false none 12 = some [mkItem "a" 0 0 1 1, mkItem "b" 0 0 1 1] :=
  c10_away_secondary_no_axis_noop 2 [mkItem "a" 0 0 1 1, mkItem "b" 0 0 1 1] "a" "b" 12
    (mkItem "a" 0 0 1 1) (mkItem "b" 0 0 1 1) rfl rfl

/-! ### C6: compact mutates the caller's items -/

set_option maxHeartbeats 2000000 in
/-- C6: vertical compaction of A(0,0,1,2), B(0,1,1,1), C(0,2,1,1) returns
the compacted clones, but the cascade of resolveCompactionCollision pushed
the caller's own item C from y=2 to y=3 in place (second component, the
final state of the input items), although compact's documentation promises
cloned, unmodified inputs. -/
theorem c6_compact_mutates_input :
    compact [mkItem "A" 0 0 1 2, mkItem "B" 0 1 1 1, mkItem "C" 0 2 1 1]
        (some Axis.vertical) 12 false 20 =
      some ([mkItem "A" 0 0 1 2, mkItem "B" 0 2 1 1, mkItem "C" 0 3 1 1],
        [mkItem "A" 0 0 1 2, mkItem "B" 0 1 1 1, mkItem "C" 0 3 1 1]) ∧
    ([mkItem "A" 0 0 1 2, mkItem "B" 0 1 1 1, mkItem "C" 0 3 1 1] : Layout) ≠
      [mkItem "A" 0 0 1 2, mkItem "B" 0 1 1 1, mkItem "C" 0 2 1 1] := by
  decide

/-! ### C4: idempotence fails on a layout with a negative coordinate -/

set_option maxHeartbeats 2000000 in
/-- C4 counterexample: for the layout a(0,0,1,1), b(-5,0,1,1) with axis
none, the first compaction clamps b to x = 0 on top of a (the final
coordinate clamp runs after the collision loop), and the second compaction
then pushes b down: Compact(Compact(L)) differs from Compact(L). -/
theorem c4_idempotence_counterexample :
    (compact [mkItem "a" 0 0 1 1, mkItem "b" (-5) 0 1 1] none 12 false 30).map Prod.fst =
      some [mkItem "a" 0 0 1 1, mkItem "b" 0 0 1 1] ∧
    (compact [mkItem "a" 0 0 1 1, mkItem "b" 0 0 1 1] none 12 false 30).map Prod.fst =
      some [mkItem "a" 0 0 1 1, mkItem "b" 0 1 1 1] ∧
    ([mkItem "a" 0 0 1 1, mkItem "b" 0 1 1 1] : Layout) ≠
      [mkItem "a" 0 0 1 1, mkItem "b" 0 0 1 1] := by
  decide

/-! ### Shape and non-negativity machinery for the compaction proofs -/

/-- Reflexivity of `sameShape`. -/
theorem sameShape_refl (a : Item) : sameShape a a :=
  ⟨rfl, rfl, rfl, rfl, rfl, rfl⟩

/-- Symmetry of `sameShape`. -/
theorem sameShape_symm {a b : Item} (h : sameShape a b) : sameShape b a :=
  ⟨h.1.symm, h.2.1.symm, h.2.2.1.symm, h.2.2.2.1.symm, h.2.2.2.2.1.symm, h.2.2.2.2.2.symm⟩

/-- Transitivity of `sameShape`. -/
theorem sameShape_trans {a b c : Item} (h1 : sameShape a b) (h2 : sameShape b c) :
    sameShape a c :=
  ⟨h1.1.trans h2.1, h1.2.1.trans h2.2.1, h1.2.2.1.trans h2.2.2.1,
    h1.2.2.2.1.trans h2.2.2.2.1, h1.2.2.2.2.1.trans h2.2.2.2.2.1,
    h1.2.2.2.2.2.trans h2.2.2.2.2.2⟩

/-- Writing a coordinate keeps the shape. -/
theorem sameShape_axSet (ax : CoordAxis) (it : Item) (v : Int) :
    sameShape (axSet ax it v) it := by
  cases ax <;> exact ⟨rfl, rfl, rfl, rfl, rfl, rfl⟩

/-- Writing a coordinate keeps the paired size. -/
theorem axSize_axSet (ax : CoordAxis) (it : Item) (v : Int) :
    axSize ax (axSet ax it v) = axSize ax it := by
  cases ax <;> rfl

/-- Two writes to the same coordinate collapse. -/
theorem axSet_axSet (ax : CoordAxis) (it : Item) (v w : Int) :
    axSet ax (axSet ax it v) w = axSet ax it w := by
  cases ax <;> rfl

/-- A coordinate write with a non-negative value keeps non-negative
coordinates and sizes. -/
theorem axSet_nonneg {ax : CoordAxis} {it : Item} {v : Int}
    (h : 0 ≤ it.x ∧ 0 ≤ it.y ∧ 0 ≤ it.w ∧ 0 ≤ it.h) (hv : 0 ≤ v) :
    0 ≤ (axSet ax it v).x ∧ 0 ≤ (axSet ax it v).y ∧
      0 ≤ (axSet ax it v).w ∧ 0 ≤ (axSet ax it v).h := by
  obtain ⟨h1, h2, h3, h4⟩ := h
  cases ax
  · exact ⟨hv, h2, h3, h4⟩
  · exact ⟨h1, hv, h3, h4⟩

/-- The paired size of an item with non-negative sizes is non-negative. -/
theorem axSize_nonneg {ax : CoordAxis} {it : Item}
    (hw : 0 ≤ it.w) (hh : 0 ≤ it.h) : 0 ≤ axSize ax it := by
  cases ax <;> simpa [axSize]

/-- Reflexivity of `layoutShapeEq`. -/
theorem layoutShapeEq_refl (L : Layout) : layoutShapeEq L L := by
  refine ⟨rfl, fun j hj => ?_⟩
  rw [List.getElem?_eq_getElem hj]
  exact ⟨L[j], L[j], rfl, rfl, sameShape_refl _⟩

/-- Transitivity of `layoutShapeEq`. -/
theorem layoutShapeEq_trans {L3 L2 L1 : Layout}
    (h32 : layoutShapeEq L3 L2) (h21 : layoutShapeEq L2 L1) : layoutShapeEq L3 L1 := by
  refine ⟨h32.1.trans h21.1, fun j hj => ?_⟩
  have hj2 : j < L2.length := by rw [h21.1]; exact hj
  obtain ⟨a, b, ha, hb, hba⟩ := h21.2 j hj
  obtain ⟨a2, b2, ha2, hb2, hb2a2⟩ := h32.2 j hj2
  have hab : a2 = b := by rw [hb] at ha2; exact (Option.some_injective _ ha2).symm
  exact ⟨a, b2, ha, hb2, sameShape_trans (hab ▸ hb2a2) hba⟩

/-- Setting one entry to a shape-equal value keeps `layoutShapeEq`. -/
theorem layoutShapeEq_set {L : Layout} {idx : Nat} {v w : Item}
    (hidx : L[idx]? = some w) (hsh : sameShape v w) :
    layoutShapeEq (L.set idx v) L := by
  have hlt : idx < L.length := by
    by_contra h
    push_neg at h
    rw [List.getElem?_eq_none h] at hidx
    exact Option.noConfusion hidx
  refine ⟨by simp, fun j hj => ?_⟩
  by_cases hji : idx = j
  · subst hji
    refine ⟨w, v, hidx, List.getElem?_set_self hlt, hsh⟩
  · rw [List.getElem?_set_ne hji, List.getElem?_eq_getElem hj]
    exact ⟨L[j], L[j], rfl, rfl, sameShape_refl _⟩

/-- Membership transported through `layoutShapeEq` preserves the data
model. -/
theorem goodLayout_of_shapeEq {cols : Int} {L2 L1 : Layout}
    (hsh : layoutShapeEq L2 L1) (hnn : nonNegSized L2) (hgood : GoodLayout cols L1) :
    GoodLayout cols L2 := by
  intro c hc
  obtain ⟨j, hj⟩ := List.mem_iff_getElem?.mp hc
  have hj2 : j < L2.length := by
    by_contra h
    push_neg at h
    rw [List.getElem?_eq_none h] at hj
    exact Option.noConfusion hj
  have hj1 : j < L1.length := by rw [← hsh.1]; exact hj2
  obtain ⟨a, b, ha, hb, hba⟩ := hsh.2 j hj1
  have hbc : b = c := by rw [hj] at hb; exact (Option.some_injective _ hb).symm
  rw [hbc] at hba
  have hga : GoodItem cols a := hgood a (List.mem_iff_getElem?.mpr ⟨j, ha⟩)
  obtain ⟨n1, n2, n3, n4⟩ := hnn c hc
  obtain ⟨g1, g2, g3, g4, g5⟩ := hga
  obtain ⟨s1, s2, s3, s4, s5, s6⟩ := hba
  exact ⟨n1, n2, by omega, by omega, by omega⟩

/-- Setting an entry to a non-negative item keeps `nonNegSized`. -/
theorem nonNegSized_set {L : Layout} {idx : Nat} {v : Item}
    (hL : nonNegSized L) (hv : 0 ≤ v.x ∧ 0 ≤ v.y ∧ 0 ≤ v.w ∧ 0 ≤ v.h) :
    nonNegSized (L.set idx v) := by
  intro c hc
  rcases List.mem_or_eq_of_mem_set hc with h | h
  · exact hL c h
  · rw [h]; exact hv

/-- The data model implies non-negative coordinates and sizes. -/
theorem nonNegSized_of_good {cols : Int} {L : Layout} (h : GoodLayout cols L) :
    nonNegSized L := by
  intro c hc
  obtain ⟨h1, h2, h3, h4, h5⟩ := h c hc
  exact ⟨h1, h2, le_trans (by decide) h3, le_trans (by decide) h4⟩

/-- An item never collides with itself. -/
theorem collides_self (a : Item) : collides a a = false := by
  simp [collides]

/-- Clearing the moved flag of the first argument does not change the
overlap test. -/
theorem collides_clearMoved_left (a b : Item) :
    collides { a with moved := false } b = collides a b := rfl

/-- Clearing the moved flag of the second argument does not change the
overlap test. -/
theorem collides_clearMoved_right (a b : Item) :
    collides a { b with moved := false } = collides a b := rfl

/-- Characterisation of an empty first-collision scan. -/
theorem getFirstCollision_eq_none_iff {L : Layout} {l : Item} :
    getFirstCollision L l = none ↔ ∀ c ∈ L, collides c l = false := by
  unfold getFirstCollision
  rw [List.find?_eq_none]
  constructor
  · intro h c hc
    have := h c hc
    simpa using this
  · intro h c hc
    simp [h c hc]

/-- Joint specification of `resolveCompactionCollision` and its scan loop:
the processed item lands exactly on `moveToCoord`, every layout entry keeps
its key, sizes and flags (only positions move), and non-negative
coordinates are preserved when the landing coordinates are
non-negative. -/
theorem resolveCC_spec : ∀ fuel : Nat,
    (∀ layout item mtc axis out,
      resolveCompactionCollision fuel layout item mtc axis = some out →
        out.2 = axSet axis item mtc ∧ layoutShapeEq out.1 layout ∧
        (0 ≤ mtc → 0 ≤ axSize axis item → nonNegSized layout → nonNegSized out.1)) ∧
    (∀ layout item mtc sizeVal axis idx out,
      resolveCCLoop fuel layout item mtc sizeVal axis idx = some out →
        layoutShapeEq out layout ∧
        (0 ≤ mtc + sizeVal → nonNegSized layout → nonNegSized out)) := by
  intro fuel
  induction fuel with
  | zero =>
    constructor
    · intro layout item mtc axis out h
      exact Option.noConfusion h
    · intro layout item mtc sizeVal axis idx out h
      exact Option.noConfusion h
  | succ n ih =>
    obtain ⟨ihc, ihl⟩ := ih
    constructor
    · intro layout item mtc axis out h
      simp only [resolveCompactionCollision] at h
      split at h
      · exact Option.noConfusion h
      · rename_i layout2 heq
        have h2 := (Option.some_injective _ h).symm
        subst h2
        obtain ⟨hsh, hnn⟩ := ihl _ _ _ _ _ _ _ heq
        refine ⟨axSet_axSet axis item _ mtc, hsh, fun hm hs hn => hnn (by omega) hn⟩
    · intro layout item mtc sizeVal axis idx out h
      simp only [resolveCCLoop] at h
      split at h
      · have h2 := (Option.some_injective _ h).symm
        subst h2
        exact ⟨layoutShapeEq_refl _, fun _ hn => hn⟩
      · rename_i other hother
        split at h
        · exact ihl _ _ _ _ _ _ _ h
        · split at h
          · have h2 := (Option.some_injective _ h).symm
            subst h2
            exact ⟨layoutShapeEq_refl _, fun _ hn => hn⟩
          · split at h
            · split at h
              · exact Option.noConfusion h
              · rename_i layout2 other2 heq2
                have hmemo : other ∈ layout := List.mem_iff_getElem?.mpr ⟨idx, hother⟩
                obtain ⟨hpair2, hshL2p, hnnL2p⟩ := ihc _ _ _ _ _ heq2
                have hpair : other2 = axSet axis other (mtc + sizeVal) := hpair2
                have hshL2 : layoutShapeEq layout2 layout := hshL2p
                have hnnL2 := hnnL2p
                obtain ⟨hshOut, hnnOut⟩ := ihl _ _ _ _ _ _ _ h
                have hlt : idx < layout.length := by
                  by_contra hc
                  push_neg at hc
                  rw [List.getElem?_eq_none hc] at hother
                  exact Option.noConfusion hother
                obtain ⟨a, b, ha, hb, hba⟩ := hshL2.2 idx hlt
                have hao : a = other := by
                  rw [hother] at ha
                  exact (Option.some_injective _ ha).symm
                constructor
                · refine layoutShapeEq_trans hshOut (layoutShapeEq_trans ?_ hshL2)
                  refine layoutShapeEq_set hb ?_
                  have h1 : sameShape other2 other := by
                    rw [hpair]
                    exact sameShape_axSet axis other (mtc + sizeVal)
                  exact sameShape_trans h1 (hao ▸ sameShape_symm hba)
                · intro hms hn
                  have hnno := hn other hmemo
                  have hnn2 : nonNegSized layout2 :=
                    hnnL2 hms (axSize_nonneg hnno.2.2.1 hnno.2.2.2) hn
                  have hset : nonNegSized (layout2.set idx other2) := by
                    refine nonNegSized_set hnn2 ?_
                    rw [hpair]
                    exact axSet_nonneg hnno hms
                  exact hnnOut hms hset
            · exact ihl _ _ _ _ _ _ _ h

/-- The upward slide changes only `y` and keeps it non-negative. -/
theorem slideUpGo_spec (cw : List Item) : ∀ (fuel : Nat) (l : Item),
    sameShape (slideUpGo cw fuel l) l ∧ (slideUpGo cw fuel l).x = l.x ∧
      (0 ≤ l.y → 0 ≤ (slideUpGo cw fuel l).y) := by
  intro fuel
  induction fuel with
  | zero => intro l; exact ⟨sameShape_refl l, rfl, fun h => h⟩
  | succ n ih =>
    intro l
    unfold slideUpGo
    split
    · rename_i hcond
      have h1 := hcond.1
      obtain ⟨hsh, hx, hy⟩ := ih { l with y := l.y - 1 }
      have hs2 : sameShape ({ l with y := l.y - 1 } : Item) l := ⟨rfl, rfl, rfl, rfl, rfl, rfl⟩
      refine ⟨sameShape_trans hsh hs2, hx, fun _ => hy ?_⟩
      show (0 : Int) ≤ l.y - 1
      omega
    · exact ⟨sameShape_refl l, rfl, fun h => h⟩

/-- The leftward slide changes only `x` and keeps it non-negative. -/
theorem slideLeftGo_spec (cw : List Item) : ∀ (fuel : Nat) (l : Item),
    sameShape (slideLeftGo cw fuel l) l ∧ (slideLeftGo cw fuel l).y = l.y ∧
      (0 ≤ l.x → 0 ≤ (slideLeftGo cw fuel l).x) := by
  intro fuel
  induction fuel with
  | zero => intro l; exact ⟨sameShape_refl l, rfl, fun h => h⟩
  | succ n ih =>
    intro l
    unfold slideLeftGo
    split
    · rename_i hcond
      have h1 := hcond.1
      obtain ⟨hsh, hy, hx⟩ := ih { l with x := l.x - 1 }
      have hs2 : sameShape ({ l with x := l.x - 1 } : Item) l := ⟨rfl, rfl, rfl, rfl, rfl, rfl⟩
      refine ⟨sameShape_trans hsh hs2, hy, fun _ => hx ?_⟩
      show (0 : Int) ≤ l.x - 1
      omega
    · exact ⟨sameShape_refl l, rfl, fun h => h⟩

/-- Wrapper of the upward slide specification. -/
theorem slideUp_spec (cw : List Item) (l : Item) :
    sameShape (slideUp cw l) l ∧ (slideUp cw l).x = l.x ∧
      (0 ≤ l.y → 0 ≤ (slideUp cw l).y) :=
  slideUpGo_spec cw l.y.toNat l

/-- Wrapper of the leftward slide specification. -/
theorem slideLeft_spec (cw : List Item) (l : Item) :
    sameShape (slideLeft cw l) l ∧ (slideLeft cw l).y = l.y ∧
      (0 ≤ l.x → 0 ≤ (slideLeft cw l).x) :=
  slideLeftGo_spec cw l.x.toNat l

/-- Specification of the collision loop of `compactItem` (overlap not
allowed): the returned item has no collision left against the comparison
set, keeps its shape, the full layout keeps all shapes, and non-negative
coordinates are preserved for data-model inputs. -/
theorem compactItemGo_spec : ∀ (fuel : Nat) (cw : List Item) (l : Item) (ct : CompactType)
    (cols : Int) (full : Layout) (out : Item × Layout),
    compactItemGo fuel cw l ct cols full false = some out →
      getFirstCollision cw out.1 = none ∧ sameShape out.1 l ∧ layoutShapeEq out.2 full ∧
      ((∀ c ∈ cw, 0 ≤ c.x ∧ 0 ≤ c.y ∧ 0 ≤ c.w ∧ 0 ≤ c.h) → nonNegSized full →
        0 ≤ l.x → 0 ≤ l.y → 0 ≤ l.w → 0 ≤ l.h → l.w ≤ cols →
        (0 ≤ out.1.x ∧ 0 ≤ out.1.y) ∧ nonNegSized out.2) := by
  intro fuel
  induction fuel with
  | zero => intro cw l ct cols full out h; exact Option.noConfusion h
  | succ n ih =>
    intro cw l ct cols full out h
    simp only [compactItemGo] at h
    split at h
    · rename_i hgfc
      have h2 := (Option.some_injective _ h).symm
      subst h2
      exact ⟨hgfc, sameShape_refl l, layoutShapeEq_refl full,
        fun _ hnf hx hy hw hh hwc => ⟨⟨hx, hy⟩, hnf⟩⟩
    · rename_i c hgfc
      split at h
      · rename_i hcond
        exact absurd hcond.2 (by simp)
      · have hcmem : c ∈ cw := List.mem_of_find?_eq_some hgfc
        by_cases hax : ct = some Axis.horizontal
        · rw [if_pos hax] at h
          split at h
          · exact Option.noConfusion h
          · rename_i full2 l2 heq
            obtain ⟨hp, hshp, hnnp⟩ := (resolveCC_spec n).1 _ _ _ _ _ heq
            have hl2 : l2 = axSet CoordAxis.xAxis l (c.x + c.w) := hp
            have hshfull : layoutShapeEq full2 full := hshp
            have hshl2 : sameShape l2 l := by
              rw [hl2]; exact sameShape_axSet _ _ _
            by_cases hov : ct = some Axis.horizontal ∧ l2.x + l2.w > cols
            · rw [if_pos hov] at h
              obtain ⟨hgfcO, hshO, hshFO, hnnO⟩ := ih _ _ _ _ _ _ h
              obtain ⟨hsSh, hsY, hsX⟩ := slideLeft_spec cw
                { l2 with x := cols - l2.w, y := l2.y + 1 }
              have hs2 : sameShape ({ l2 with x := cols - l2.w, y := l2.y + 1 } : Item) l2 :=
                ⟨rfl, rfl, rfl, rfl, rfl, rfl⟩
              refine ⟨hgfcO, sameShape_trans hshO (sameShape_trans hsSh (sameShape_trans hs2 hshl2)),
                layoutShapeEq_trans hshFO hshfull, ?_⟩
              intro hcw hnf hx hy hw hh hwc
              obtain ⟨hc1, hc2, hc3, hc4⟩ := hcw c hcmem
              have hfull2nn : nonNegSized full2 := by
                refine hnnp (by omega) ?_ hnf
                show (0 : Int) ≤ l.w
                exact hw
              have hl2x : l2.x = c.x + c.w := by rw [hl2]; rfl
              have hl2y : l2.y = l.y := by rw [hl2]; rfl
              have hl2w : l2.w = l.w := hshl2.2.1
              have hl2h : l2.h = l.h := hshl2.2.2.1
              have hstartx : (0 : Int) ≤ ({ l2 with x := cols - l2.w, y := l2.y + 1 } : Item).x := by
                show (0 : Int) ≤ cols - l2.w
                omega
              have hslX := hsX hstartx
              have hslY : (slideLeft cw { l2 with x := cols - l2.w, y := l2.y + 1 }).y = l2.y + 1 := hsY
              refine (hnnO hcw hfull2nn ?_ ?_ ?_ ?_ ?_).imp id id
              · exact hslX
              · rw [hslY]; omega
              · rw [hsSh.2.1]
                show (0 : Int) ≤ l2.w
                omega
              · rw [hsSh.2.2.1]
                show (0 : Int) ≤ l2.h
                omega
              · rw [hsSh.2.1]
                show l2.w ≤ cols
                omega
            · rw [if_neg hov] at h
              obtain ⟨hgfcO, hshO, hshFO, hnnO⟩ := ih _ _ _ _ _ _ h
              refine ⟨hgfcO, sameShape_trans hshO hshl2,
                layoutShapeEq_trans hshFO hshfull, ?_⟩
              intro hcw hnf hx hy hw hh hwc
              obtain ⟨hc1, hc2, hc3, hc4⟩ := hcw c hcmem
              have hfull2nn : nonNegSized full2 := by
                refine hnnp (by omega) ?_ hnf
                show (0 : Int) ≤ l.w
                exact hw
              have hl2x : l2.x = c.x + c.w := by rw [hl2]; rfl
              have hl2y : l2.y = l.y := by rw [hl2]; rfl
              refine (hnnO hcw hfull2nn ?_ ?_ ?_ ?_ ?_).imp id id
              · omega
              · omega
              · rw [hshl2.2.1]; exact hw
              · rw [hshl2.2.2.1]; exact hh
              · rw [hshl2.2.1]; exact hwc
        · rw [if_neg hax] at h
          split at h
          · exact Option.noConfusion h
          · rename_i full2 l2 heq
            obtain ⟨hp, hshp, hnnp⟩ := (resolveCC_spec n).1 _ _ _ _ _ heq
            have hl2 : l2 = axSet CoordAxis.yAxis l (c.y + c.h) := hp
            have hshfull : layoutShapeEq full2 full := hshp
            have hshl2 : sameShape l2 l := by
              rw [hl2]; exact sameShape_axSet _ _ _
            rw [if_neg (fun hc => hax hc.1)] at h
            obtain ⟨hgfcO, hshO, hshFO, hnnO⟩ := ih _ _ _ _ _ _ h
            refine ⟨hgfcO, sameShape_trans hshO hshl2,
              layoutShapeEq_trans hshFO hshfull, ?_⟩
            intro hcw hnf hx hy hw hh hwc
            obtain ⟨hc1, hc2, hc3, hc4⟩ := hcw c hcmem
            have hfull2nn : nonNegSized full2 := by
              refine hnnp (by omega) ?_ hnf
              show (0 : Int) ≤ l.h
              exact hh
            have hl2x : l2.x = l.x := by rw [hl2]; rfl
            have hl2y : l2.y = c.y + c.h := by rw [hl2]; rfl
            refine (hnnO hcw hfull2nn ?_ ?_ ?_ ?_ ?_).imp id id
            · omega
            · omega
            · rw [hshl2.2.1]; exact hw
            · rw [hshl2.2.2.1]; exact hh
            · rw [hshl2.2.1]; exact hwc

/-- Specification of `compactItem` (overlap not allowed): under data-model
inputs the returned item is free of collision against the comparison set,
keeps the processed item's shape, has non-negative coordinates, and the
full layout keeps shapes and non-negativity. -/
theorem compactItem_spec (fuel : Nat) (cw : List Item) (l : Item) (ct : CompactType)
    (cols : Int) (full : Layout) (out : Item × Layout)
    (h : compactItem cw l ct cols full false fuel = some out)
    (hcw : ∀ c ∈ cw, 0 ≤ c.x ∧ 0 ≤ c.y ∧ 0 ≤ c.w ∧ 0 ≤ c.h)
    (hfull : nonNegSized full)
    (hl : GoodItem cols l) :
    getFirstCollision cw out.1 = none ∧ sameShape out.1 l ∧
      (0 ≤ out.1.x ∧ 0 ≤ out.1.y) ∧ layoutShapeEq out.2 full ∧ nonNegSized out.2 := by
  obtain ⟨hlx, hly, hlw, hlh, hlwc⟩ := hl
  have hlw0 : (0 : Int) ≤ l.w := le_trans (by decide) hlw
  have hlh0 : (0 : Int) ≤ l.h := le_trans (by decide) hlh
  simp only [compactItem] at h
  rcases ct with - | ax
  · -- compactType none: no slide
    split at h
    · exact Option.noConfusion h
    · rename_i l2 full2 heq
      obtain ⟨hgfc2, hsh2, hshF, hnn⟩ := compactItemGo_spec fuel cw l none cols full (l2, full2) heq
      obtain ⟨⟨h2x, h2y⟩, hnnF⟩ := hnn hcw hfull hlx hly hlw0 hlh0 hlwc
      have hout := (Option.some_injective _ h).symm
      subst hout
      have hent : ({ l2 with y := max l2.y 0, x := max l2.x 0 } : Item) = l2 := by
        rw [max_eq_left h2y, max_eq_left h2x]
      refine ⟨?_, ?_, ?_, hshF, hnnF⟩
      · show getFirstCollision cw ({ l2 with y := max l2.y 0, x := max l2.x 0 } : Item) = none
        rw [hent]; exact hgfc2
      · show sameShape ({ l2 with y := max l2.y 0, x := max l2.x 0 } : Item) l
        rw [hent]; exact hsh2
      · constructor
        · show (0 : Int) ≤ ({ l2 with y := max l2.y 0, x := max l2.x 0 } : Item).x
          rw [hent]; exact h2x
        · show (0 : Int) ≤ ({ l2 with y := max l2.y 0, x := max l2.x 0 } : Item).y
          rw [hent]; exact h2y
  · rcases ax with - | -
    · -- vertical: clamp to bottom and slide up
      obtain ⟨hsSh, hsX, hsY⟩ := slideUp_spec cw { l with y := min (bottom cw) l.y }
      have hstart : (0 : Int) ≤ ({ l with y := min (bottom cw) l.y } : Item).y := by
        show (0 : Int) ≤ min (bottom cw) l.y
        exact le_min (bottom_nonneg cw) hly
      split at h
      · exact Option.noConfusion h
      · rename_i l2 full2 heq
        obtain ⟨hgfc2, hsh2, hshF, hnn⟩ :=
          compactItemGo_spec fuel cw _ (some Axis.vertical) cols full (l2, full2) heq
        have hs0 : sameShape ({ l with y := min (bottom cw) l.y } : Item) l :=
          ⟨rfl, rfl, rfl, rfl, rfl, rfl⟩
        have hshl1 : sameShape (slideUp cw { l with y := min (bottom cw) l.y }) l :=
          sameShape_trans hsSh hs0
        obtain ⟨⟨h2x, h2y⟩, hnnF⟩ := hnn hcw hfull
          (by rw [hsX]; exact hlx) (hsY hstart)
          (by rw [hshl1.2.1]; exact hlw0) (by rw [hshl1.2.2.1]; exact hlh0)
          (by rw [hshl1.2.1]; exact hlwc)
        have hout := (Option.some_injective _ h).symm
        subst hout
        have hent : ({ l2 with y := max l2.y 0, x := max l2.x 0 } : Item) = l2 := by
          rw [max_eq_left h2y, max_eq_left h2x]
        refine ⟨?_, ?_, ?_, hshF, hnnF⟩
        · show getFirstCollision cw ({ l2 with y := max l2.y 0, x := max l2.x 0 } : Item) = none
          rw [hent]; exact hgfc2
        · show sameShape ({ l2 with y := max l2.y 0, x := max l2.x 0 } : Item) l
          rw [hent]; exact sameShape_trans hsh2 hshl1
        · constructor
          · show (0 : Int) ≤ ({ l2 with y := max l2.y 0, x := max l2.x 0 } : Item).x
            rw [hent]; exact h2x
          · show (0 : Int) ≤ ({ l2 with y := max l2.y 0, x := max l2.x 0 } : Item).y
            rw [hent]; exact h2y
    · -- horizontal: slide left
      obtain ⟨hsSh, hsY, hsX⟩ := slideLeft_spec cw l
      split at h
      · exact Option.noConfusion h
      · rename_i l2 full2 heq
        obtain ⟨hgfc2, hsh2, hshF, hnn⟩ :=
          compactItemGo_spec fuel cw _ (some Axis.horizontal) cols full (l2, full2) heq
        obtain ⟨⟨h2x, h2y⟩, hnnF⟩ := hnn hcw hfull
          (hsX hlx) (by rw [hsY]; exact hly)
          (by rw [hsSh.2.1]; exact hlw0) (by rw [hsSh.2.2.1]; exact hlh0)
          (by rw [hsSh.2.1]; exact hlwc)
        have hout := (Option.some_injective _ h).symm
        subst hout
        have hent : ({ l2 with y := max l2.y 0, x := max l2.x 0 } : Item) = l2 := by
          rw [max_eq_left h2y, max_eq_left h2x]
        refine ⟨?_, ?_, ?_, hshF, hnnF⟩
        · show getFirstCollision cw ({ l2 with y := max l2.y 0, x := max l2.x 0 } : Item) = none
          rw [hent]; exact hgfc2
        · show sameShape ({ l2 with y := max l2.y 0, x := max l2.x 0 } : Item) l
          rw [hent]; exact sameShape_trans hsh2 hsSh
        · constructor
          · show (0 : Int) ≤ ({ l2 with y := max l2.y 0, x := max l2.x 0 } : Item).x
            rw [hent]; exact h2x
          · show (0 : Int) ≤ ({ l2 with y := max l2.y 0, x := max l2.x 0 } : Item).y
            rw [hent]; exact h2y

/-- The pair non-overlap relation is symmetric. -/
theorem pairRel_symm : Symmetric PairRel := by
  intro pr qr h hq hp
  exact ⟨(h hp hq).2, (h hp hq).1⟩

/-- A key present among the pairs makes the lookup succeed. -/
theorem lookupOut_isSome_of_key {L : List (String × Item)} {id : String}
    (h : ∃ pr ∈ L, pr.1 = id) : ∃ v, lookupOut L id = some v := by
  induction L with
  | nil => obtain ⟨pr, hm, _⟩ := h; cases hm
  | cons p rest ih =>
    obtain ⟨k, it⟩ := p
    by_cases hk : k = id
    · exact ⟨it, by simp [lookupOut, hk]⟩
    · obtain ⟨pr, hm, hpr⟩ := h
      rcases List.mem_cons.mp hm with heq | hmem
      · exact absurd (by rw [heq] at hpr; exact hpr) hk
      · obtain ⟨v, hv⟩ := ih ⟨pr, hmem, hpr⟩
        exact ⟨v, by simp [lookupOut, hk, hv]⟩

/-- A successful lookup returns a pair of the list. -/
theorem lookupOut_mem {L : List (String × Item)} {id : String} {v : Item}
    (h : lookupOut L id = some v) : (id, v) ∈ L := by
  induction L with
  | nil => exact Option.noConfusion h
  | cons p rest ih =>
    obtain ⟨k, it⟩ := p
    by_cases hk : k = id
    · simp only [lookupOut, if_pos hk] at h
      have : it = v := Option.some_injective _ h
      subst this
      subst hk
      exact List.mem_cons_self _ _
    · simp only [lookupOut, if_neg hk] at h
      exact List.mem_cons_of_mem _ (ih h)

/-- The relation `staticsUntouched` is reflexive. -/
theorem staticsUntouched_refl (L : Layout) : staticsUntouched L L :=
  fun _ _ h _ => h

/-- The relation `staticsUntouched` composes. -/
theorem staticsUntouched_trans {L3 L2 L1 : Layout}
    (h32 : staticsUntouched L3 L2) (h21 : staticsUntouched L2 L1) :
    staticsUntouched L3 L1 :=
  fun j a h hs => h32 j a (h21 j a h hs) hs

/-- Writing at a position holding a non-static entry keeps the statics. -/
theorem staticsUntouched_set {L1 L2 : Layout} {idx : Nat} {b v : Item}
    (hidx : L1[idx]? = some b) (hb : b.static = false)
    (h21 : staticsUntouched L2 L1) :
    staticsUntouched (L2.set idx v) L1 := by
  intro j a h hs
  by_cases hj : idx = j
  · subst hj
    rw [hidx] at h
    have hab : b = a := Option.some_injective _ h
    rw [← hab] at hs
    rw [hs] at hb
    exact Bool.noConfusion hb
  · rw [List.getElem?_set_ne hj]
    exact h21 j a h hs

/-- The scan of `resolveCompactionCollision` never writes to a static
entry, so static entries keep their exact values at their positions. -/
theorem resolveCC_statics : ∀ fuel : Nat,
    (∀ layout item mtc axis out,
      resolveCompactionCollision fuel layout item mtc axis = some out →
        staticsUntouched out.1 layout) ∧
    (∀ layout item mtc sizeVal axis idx out,
      resolveCCLoop fuel layout item mtc sizeVal axis idx = some out →
        staticsUntouched out layout) := by
  intro fuel
  induction fuel with
  | zero =>
    constructor
    · intro layout item mtc axis out h
      exact Option.noConfusion h
    · intro layout item mtc sizeVal axis idx out h
      exact Option.noConfusion h
  | succ n ih =>
    obtain ⟨ihc, ihl⟩ := ih
    constructor
    · intro layout item mtc axis out h
      simp only [resolveCompactionCollision] at h
      split at h
      · exact Option.noConfusion h
      · rename_i layout2 heq
        have h2 := (Option.some_injective _ h).symm
        subst h2
        exact ihl _ _ _ _ _ _ _ heq
    · intro layout item mtc sizeVal axis idx out h
      simp only [resolveCCLoop] at h
      split at h
      · have h2 := (Option.some_injective _ h).symm
        subst h2
        exact staticsUntouched_refl _
      · rename_i other hother
        split at h
        · exact ihl _ _ _ _ _ _ _ h
        · rename_i hns
          split at h
          · have h2 := (Option.some_injective _ h).symm
            subst h2
            exact staticsUntouched_refl _
          · split at h
            · split at h
              · exact Option.noConfusion h
              · rename_i layout2 other2 heq2
                have hns' : other.static = false := by simpa using hns
                have hpres2 : staticsUntouched layout2 layout := ihc _ _ _ _ _ heq2
                have hpresOut := ihl _ _ _ _ _ _ _ h
                exact staticsUntouched_trans hpresOut
                  (staticsUntouched_set hother hns' hpres2)
            · exact ihl _ _ _ _ _ _ _ h

/-- The collision loop of `compactItem` keeps static entries of the full
layout untouched, for either allowOverlap setting. -/
theorem compactItemGo_statics : ∀ (fuel : Nat) (cw : List Item) (l : Item) (ct : CompactType)
    (cols : Int) (full : Layout) (ao : Bool) (out : Item × Layout),
    compactItemGo fuel cw l ct cols full ao = some out →
      staticsUntouched out.2 full := by
  intro fuel
  induction fuel with
  | zero => intro cw l ct cols full ao out h; exact Option.noConfusion h
  | succ n ih =>
    intro cw l ct cols full ao out h
    simp only [compactItemGo] at h
    split at h
    · have h2 := (Option.some_injective _ h).symm
      subst h2
      exact staticsUntouched_refl _
    · split at h
      · have h2 := (Option.some_injective _ h).symm
        subst h2
        exact staticsUntouched_refl _
      · split at h
        · exact Option.noConfusion h
        · rename_i full2 l2 heq
          have hpres : staticsUntouched full2 full := by
            by_cases hax : ct = some Axis.horizontal
            · rw [if_pos hax] at heq
              exact (resolveCC_statics n).1 _ _ _ _ _ heq
            · rw [if_neg hax] at heq
              exact (resolveCC_statics n).1 _ _ _ _ _ heq
          exact staticsUntouched_trans (ih _ _ _ _ _ _ _ h) hpres

/-- Function `compactItem` keeps static entries of the full layout untouched. -/
theorem compactItem_statics (fuel : Nat) (cw : List Item) (l : Item) (ct : CompactType)
    (cols : Int) (full : Layout) (ao : Bool) (out : Item × Layout)
    (h : compactItem cw l ct cols full ao fuel = some out) :
    staticsUntouched out.2 full := by
  simp only [compactItem] at h
  split at h
  · exact Option.noConfusion h
  · rename_i l2 full2 heq
    have h2 := (Option.some_injective _ h).symm
    subst h2
    exact compactItemGo_statics fuel cw _ ct cols full ao (l2, full2) heq

/-- With pairwise-distinct keys, the lookup of an entry's key returns that
entry's value. -/
theorem lookupOut_getElem : ∀ (pairs : List (String × Item)),
    (pairs.map Prod.fst).Nodup →
    ∀ (j : Nat) (pr : String × Item), pairs[j]? = some pr →
      lookupOut pairs pr.1 = some pr.2 := by
  intro pairs
  induction pairs with
  | nil =>
    intro _ j pr h
    rw [List.getElem?_nil] at h
    exact Option.noConfusion h
  | cons p rest ih =>
    intro hnd j pr h
    rw [List.map_cons] at hnd
    have hnd2 := List.nodup_cons.mp hnd
    cases j with
    | zero =>
      rw [List.getElem?_cons_zero] at h
      have hp : p = pr := Option.some_injective _ h
      subst hp
      simp [lookupOut]
    | succ m =>
      rw [List.getElem?_cons_succ] at h
      have hmem : pr ∈ rest := List.mem_iff_getElem?.mpr ⟨m, h⟩
      have hkey : pr.1 ∈ rest.map Prod.fst := List.mem_map.mpr ⟨pr, hmem, rfl⟩
      have hne : p.1 ≠ pr.1 := fun hc => hnd2.1 (hc ▸ hkey)
      obtain ⟨k, v⟩ := p
      simp only [lookupOut, if_neg hne]
      exact ih hnd2.2 m pr h

/-- With pairwise-distinct keys, looking an entry's key up by `findItem`
returns that entry. -/
theorem findItem_self : ∀ (L : Layout), (L.map Item.i).Nodup →
    ∀ (j : Nat) (v : Item), L[j]? = some v → findItem L v.i = some v := by
  intro L
  induction L with
  | nil =>
    intro _ j v h
    rw [List.getElem?_nil] at h
    exact Option.noConfusion h
  | cons a rest ih =>
    intro hnd j v h
    rw [List.map_cons] at hnd
    have hnd2 := List.nodup_cons.mp hnd
    cases j with
    | zero =>
      rw [List.getElem?_cons_zero] at h
      have hp : a = v := Option.some_injective _ h
      subst hp
      simp [findItem]
    | succ m =>
      rw [List.getElem?_cons_succ] at h
      have hmem : v ∈ rest := List.mem_iff_getElem?.mpr ⟨m, h⟩
      have hkey : v.i ∈ rest.map Item.i := List.mem_map.mpr ⟨v, hmem, rfl⟩
      have hne : a.i ≠ v.i := fun hc => hnd2.1 (hc ▸ hkey)
      unfold findItem
      rw [List.find?_cons_of_neg]
      · exact ih hnd2.2 m v h
      · simpa using hne


/-- Clearing an already-clear moved flag is the identity. -/
theorem clearMoved_eq_self {it : Item} (h : it.moved = false) :
    ({ it with moved := false } : Item) = it := by
  cases it
  simp_all

/-- The comparison set does not grow past a static entry. -/
theorem cwAt_succ_static {L : Layout} {k : Nat} {it : Item}
    (hk : L[k]? = some it) (hst : it.static = true) :
    cwAt L (k + 1) = cwAt L k := by
  unfold cwAt
  rw [List.take_succ, hk]
  simp [List.filter_append, hst]

/-- The comparison set grows by a placed non-static entry. -/
theorem cwAt_succ_movable {L : Layout} {k : Nat} {it : Item}
    (hk : L[k]? = some it) (hst : it.static = false) :
    cwAt L (k + 1) = cwAt L k ++ [it] := by
  unfold cwAt
  rw [List.take_succ, hk]
  simp [List.filter_append, hst]

/-- A successful positional read splits the drop at that position. -/
theorem drop_cons_of_getElem {L : Layout} {k : Nat} {it : Item}
    (hk : L[k]? = some it) :
    L.drop k = it :: L.drop (k + 1) := by
  have hlt : k < L.length := by
    by_contra hc
    push_neg at hc
    rw [List.getElem?_eq_none hc] at hk
    exact Option.noConfusion hk
  rw [List.drop_eq_getElem_cons hlt]
  have : L[k] = it := by
    rw [List.getElem?_eq_getElem hlt] at hk
    exact Option.some_injective _ hk
  rw [this]

/-- Invariant of the `compact` loop (overlap not allowed): the comparison
set splits into the pre-seeded statics and the already-placed items, every
placed item is free of collision against the whole comparison set, and the
loop extends the output pairs with values that keep their keys, collide
with nothing already placed, and are pairwise non-overlapping (among
non-static entries); every remaining sorted position gets an output pair
at the matching index, a static position keeping its exact value with the
moved flag cleared and a non-static position receiving a non-static,
cleared value within the data model. -/
theorem compactGo_spec : ∀ (fuel : Nat) (statics placed : List Item) (sorted : Layout)
    (k : Nat) (out0 : List (String × Item)) (ct : CompactType) (cols : Int)
    (res : Layout × List (String × Item)),
    compactGo fuel (statics ++ placed) sorted k out0 ct cols false = some res →
    GoodLayout cols (statics ++ placed) →
    GoodLayout cols sorted →
    (∀ p ∈ placed, ∀ c ∈ statics ++ placed, collides c p = false) →
    (∀ a ∈ sorted, a.static = true → a ∈ statics) →
      ∃ newPairs,
        res.2 = out0 ++ newPairs ∧
        (∀ pr ∈ newPairs, pr.2.i = pr.1) ∧
        (∀ pr ∈ newPairs, pr.2.static = false →
          ∀ c ∈ statics ++ placed, collides c pr.2 = false) ∧
        List.Pairwise PairRel newPairs ∧
        newPairs.length = sorted.length - k ∧
        (∀ j, k ≤ j → j < sorted.length →
          ∃ a pr, sorted[j]? = some a ∧ newPairs[j - k]? = some pr ∧ pr ∈ newPairs ∧
            pr.1 = a.i ∧
            (a.static = true → pr.2 = { a with moved := false }) ∧
            (a.static = false →
              pr.2.static = false ∧ pr.2.moved = false ∧ GoodItem cols pr.2)) := by
  intro fuel
  induction fuel with
  | zero => intro statics placed sorted k out0 ct cols res h; exact Option.noConfusion h
  | succ n ih =>
    intro statics placed sorted k out0 ct cols res h hgcw hgs hinv hstin
    simp only [compactGo] at h
    split at h
    · rename_i hk
      have hlen : sorted.length ≤ k := List.getElem?_eq_none_iff.mp hk
      have hres := (Option.some_injective _ h).symm
      subst hres
      refine ⟨[], by simp, by simp, by simp, List.Pairwise.nil, ?_, ?_⟩
      · simp only [List.length_nil]
        omega
      · intro j h1 h2
        omega
    · rename_i it hk
      have hitmem : it ∈ sorted := List.mem_iff_getElem?.mpr ⟨k, hk⟩
      have hitgood : GoodItem cols it := hgs it hitmem
      have hklt : k < sorted.length := by
        by_contra hc
        push_neg at hc
        rw [List.getElem?_eq_none hc] at hk
        exact Option.noConfusion hk
      split at h
      · -- static item: passes through, comparison set unchanged
        rename_i hst
        obtain ⟨newPairs, hout, hids, hfree, hpw, hlen2, hcover⟩ :=
          ih statics placed sorted (k + 1) _ ct cols res h hgcw hgs hinv hstin
        refine ⟨(it.i, { it with moved := false }) :: newPairs, ?_, ?_, ?_, ?_, ?_, ?_⟩
        · rw [hout, List.append_assoc]; rfl
        · intro pr hpr
          rcases List.mem_cons.mp hpr with heq | hmem
          · rw [heq]
          · exact hids pr hmem
        · intro pr hpr hprs
          rcases List.mem_cons.mp hpr with heq | hmem
          · exfalso
            rw [heq] at hprs
            have : ({ it with moved := false } : Item).static = it.static := rfl
            rw [this, hst] at hprs
            exact Bool.noConfusion hprs
          · exact hfree pr hmem hprs
        · refine List.Pairwise.cons ?_ hpw
          intro qr hqr hps
          exfalso
          have : ({ it with moved := false } : Item).static = it.static := rfl
          rw [this, hst] at hps
          exact Bool.noConfusion hps
        · simp only [List.length_cons, hlen2]
          omega
        · intro j h1 h2
          rcases Nat.eq_or_lt_of_le h1 with rfl | hlt
          · refine ⟨it, (it.i, { it with moved := false }), hk, ?_,
              List.mem_cons_self _ _, rfl, ?_, ?_⟩
            · rw [Nat.sub_self]
              exact List.getElem?_cons_zero
            · intro _
              rfl
            · intro hcontra
              rw [hst] at hcontra
              exact Bool.noConfusion hcontra
          · obtain ⟨a, pr, ha, hidx, hmem, hprid, hsta, hnsta⟩ := hcover j (by omega) h2
            refine ⟨a, pr, ha, ?_, List.mem_cons_of_mem _ hmem, hprid, hsta, hnsta⟩
            have hjk : j - k = (j - (k + 1)) + 1 := by omega
            rw [hjk, List.getElem?_cons_succ]
            exact hidx
      · -- movable item: compacted and added to the comparison set
        rename_i hst
        split at h
        · exact Option.noConfusion h
        · rename_i l2 sorted2 heq
          have hnncw : ∀ c ∈ statics ++ placed, 0 ≤ c.x ∧ 0 ≤ c.y ∧ 0 ≤ c.w ∧ 0 ≤ c.h := by
            intro c hc
            obtain ⟨a1, a2, a3, a4, a5⟩ := hgcw c hc
            exact ⟨a1, a2, le_trans (by decide) a3, le_trans (by decide) a4⟩
          obtain ⟨hgfc, hsh, ⟨h2x, h2y⟩, hshF, hnnF⟩ :=
            compactItem_spec n (statics ++ placed) it ct cols sorted (l2, sorted2) heq
              hnncw (nonNegSized_of_good hgs) hitgood
          have hsh2 : sameShape l2 it := hsh
          have h2x2 : (0 : Int) ≤ l2.x := h2x
          have h2y2 : (0 : Int) ≤ l2.y := h2y
          have hgfc2 : getFirstCollision (statics ++ placed) l2 = none := hgfc
          have hshF2 : layoutShapeEq sorted2 sorted := hshF
          have hnnF2 : nonNegSized sorted2 := hnnF
          have hl2good : GoodItem cols l2 := by
            obtain ⟨s1, s2, s3, s4, s5, s6⟩ := hsh2
            obtain ⟨g1, g2, g3, g4, g5⟩ := hitgood
            exact ⟨h2x2, h2y2, by omega, by omega, by omega⟩
          have hfreel2 : ∀ c ∈ statics ++ placed, collides c l2 = false :=
            getFirstCollision_eq_none_iff.mp hgfc2
          have hgcw2 : GoodLayout cols ((statics ++ placed) ++ [l2]) := by
            intro c hc
            rcases List.mem_append.mp hc with hmem | hmem
            · exact hgcw c hmem
            · rw [List.mem_singleton.mp hmem]; exact hl2good
          have hgs2 : GoodLayout cols sorted2 := goodLayout_of_shapeEq hshF2 hnnF2 hgs
          have hstpres : staticsUntouched sorted2 sorted :=
            compactItem_statics n (statics ++ placed) it ct cols sorted false (l2, sorted2) heq
          have hstin2 : ∀ a ∈ sorted2, a.static = true → a ∈ statics := by
            intro a hmem hstat
            obtain ⟨j, hj⟩ := List.mem_iff_getElem?.mp hmem
            have hjlt2 : j < sorted2.length := by
              by_contra hc
              push_neg at hc
              rw [List.getElem?_eq_none hc] at hj
              exact Option.noConfusion hj
            have hjlt : j < sorted.length := by rw [← hshF2.1]; exact hjlt2
            obtain ⟨b, b2, hb, hb2, hshb⟩ := hshF2.2 j hjlt
            have hb2a : b2 = a := by rw [hj] at hb2; exact (Option.some_injective _ hb2).symm
            have hbstat : b.static = true := by
              rw [← hshb.2.2.2.1, hb2a]
              exact hstat
            have hpres := hstpres j b hb hbstat
            have hba : b = a := by rw [hj] at hpres; exact (Option.some_injective _ hpres).symm
            exact hba ▸ hstin b (List.mem_iff_getElem?.mpr ⟨j, hb⟩) hbstat
          have hinv2 : ∀ p ∈ placed ++ [l2], ∀ c ∈ statics ++ (placed ++ [l2]),
              collides c p = false := by
            intro p hp c hc
            rw [← List.append_assoc] at hc
            rcases List.mem_append.mp hp with hpm | hpm
            · rcases List.mem_append.mp hc with hcm | hcm
              · exact hinv p hpm c hcm
              · rw [List.mem_singleton.mp hcm]
                rw [collides_symm]
                exact hfreel2 p (List.mem_append.mpr (Or.inr hpm))
            · rw [List.mem_singleton.mp hpm]
              rcases List.mem_append.mp hc with hcm | hcm
              · exact hfreel2 c hcm
              · rw [List.mem_singleton.mp hcm]
                exact collides_self l2
          have h' : compactGo n (statics ++ (placed ++ [l2])) sorted2 (k + 1)
              (out0 ++ [(l2.i, { l2 with moved := false })]) ct cols false = some res := by
            rw [← List.append_assoc]
            exact h
          have hgcw2' : GoodLayout cols (statics ++ (placed ++ [l2])) := by
            rw [← List.append_assoc]
            exact hgcw2
          obtain ⟨newPairs, hout, hids, hfree, hpw, hlen2, hcover⟩ :=
            ih statics (placed ++ [l2]) sorted2 (k + 1) _ ct cols res h' hgcw2' hgs2 hinv2 hstin2
          refine ⟨(l2.i, { l2 with moved := false }) :: newPairs, ?_, ?_, ?_, ?_, ?_, ?_⟩
          · rw [hout, List.append_assoc]; rfl
          · intro pr hpr
            rcases List.mem_cons.mp hpr with heq2 | hmem
            · rw [heq2]
            · exact hids pr hmem
          · intro pr hpr hprs
            rcases List.mem_cons.mp hpr with heq2 | hmem
            · intro c hc
              rw [heq2]
              show collides c ({ l2 with moved := false } : Item) = false
              rw [collides_clearMoved_right]
              exact hfreel2 c hc
            · intro c hc
              refine hfree pr hmem hprs c ?_
              rw [← List.append_assoc]
              exact List.mem_append.mpr (Or.inl hc)
          · refine List.Pairwise.cons ?_ hpw
            intro qr hqr hps hqs
            have hqfree := hfree qr hqr hqs l2 (by
              rw [← List.append_assoc]
              exact List.mem_append.mpr (Or.inr (List.mem_singleton.mpr rfl)))
            constructor
            · show collides ({ l2 with moved := false } : Item) qr.2 = false
              rw [collides_clearMoved_left, collides_symm]
              rw [collides_symm]
              exact hqfree
            · show collides qr.2 ({ l2 with moved := false } : Item) = false
              rw [collides_clearMoved_right, collides_symm]
              exact hqfree
          · simp only [List.length_cons, hlen2, hshF2.1]
            omega
          · intro j h1 h2
            rcases Nat.eq_or_lt_of_le h1 with rfl | hlt
            · refine ⟨it, (l2.i, { l2 with moved := false }), hk, ?_,
                List.mem_cons_self _ _, hsh2.1, ?_, ?_⟩
              · rw [Nat.sub_self]
                exact List.getElem?_cons_zero
              · intro hcontra
                exact absurd hcontra hst
              · intro _
                refine ⟨?_, rfl, ?_⟩
                · show l2.static = false
                  rw [hsh2.2.2.2.1]
                  simpa using hst
                · exact hl2good
            · have hj2 : j < sorted2.length := by rw [hshF2.1]; exact h2
              obtain ⟨a, pr, ha, hidx, hmem, hprid, hsta, hnsta⟩ := hcover j (by omega) hj2
              obtain ⟨a0, b0, ha0, hb0, hshb⟩ := hshF2.2 j h2
              have hab : a = b0 := by rw [ha] at hb0; exact Option.some_injective _ hb0
              refine ⟨a0, pr, ha0, ?_, List.mem_cons_of_mem _ hmem, ?_, ?_, ?_⟩
              · have hjk : j - k = (j - (k + 1)) + 1 := by omega
                rw [hjk, List.getElem?_cons_succ]
                exact hidx
              · rw [hprid, hab, hshb.1]
              · intro ha0st
                have hpres := hstpres j a0 ha0 ha0st
                have haa0 : a = a0 := by
                  rw [ha] at hpres
                  exact Option.some_injective _ hpres
                have hval : pr.2 = { a with moved := false } :=
                  hsta (by rw [haa0]; exact ha0st)
                rw [hval, haa0]
              · intro ha0ns
                refine hnsta ?_
                rw [hab, hshb.2.2.2.1]
                exact ha0ns

/-- C1 amended: for every Layout returned by Compact with allowOverlap
false, under any compaction axis including none, on an input within the
data model (non-negative coordinates and sizes, width within the column
count), no two distinct non-static items of the returned Layout collide.
(For MoveElement the invariant fails with axis none, see the
counterexample.) -/
theorem c1_compact_no_overlap (fuel : Nat) (layout : Layout) (ct : CompactType)
    (cols : Int) (out after : Layout)
    (hgood : GoodLayout cols layout)
    (hrun : compact layout ct cols false fuel = some (out, after)) :
    ∀ a ∈ out, ∀ b ∈ out, a.static = false → b.static = false → a.i ≠ b.i →
      collides a b = false := by
  intro a ha b hb has hbs hab
  simp only [compact] at hrun
  split at hrun
  · exact Option.noConfusion hrun
  · rename_i sortedF outF hgo
    have hpair := (Option.some_injective _ hrun).symm
    have hout : out = layout.map (fun it => (lookupOut outF it.i).getD it) :=
      congrArg Prod.fst hpair
    have hgo' : compactGo fuel (getStatics layout ++ []) (sortLayoutItems layout ct) 0 []
        ct cols false = some (sortedF, outF) := by
      rw [List.append_nil]
      exact hgo
    have hgcw : GoodLayout cols (getStatics layout ++ []) := by
      rw [List.append_nil]
      intro c hc
      exact hgood c (List.mem_filter.mp hc).1
    have hgs : GoodLayout cols (sortLayoutItems layout ct) := by
      intro c hc
      exact hgood c ((sortLayoutItems_perm layout ct).mem_iff.mp hc)
    have hinv : ∀ p ∈ ([] : List Item), ∀ c ∈ getStatics layout ++ [], collides c p = false :=
      fun p hp => absurd hp (List.not_mem_nil p)
    have hstin : ∀ a ∈ sortLayoutItems layout ct, a.static = true → a ∈ getStatics layout := by
      intro a hmem hstat
      refine List.mem_filter.mpr ⟨(sortLayoutItems_perm layout ct).mem_iff.mp hmem, ?_⟩
      simpa using hstat
    obtain ⟨newPairs, houtF, hids, hfree, hpw, hlenP, hcover⟩ :=
      compactGo_spec fuel (getStatics layout) [] (sortLayoutItems layout ct) 0 [] ct cols
        (sortedF, outF) hgo' hgcw hgs hinv hstin
    have houtF2 : newPairs = outF := (by simpa using houtF : outF = newPairs).symm
    subst houtF2
    obtain ⟨ita, hita, hfa⟩ := List.mem_map.mp (hout ▸ ha)
    obtain ⟨itb, hitb, hfb⟩ := List.mem_map.mp (hout ▸ hb)
    obtain ⟨ja, hja⟩ := List.mem_iff_getElem?.mp
      ((sortLayoutItems_perm layout ct).mem_iff.mpr hita)
    obtain ⟨jb, hjb⟩ := List.mem_iff_getElem?.mp
      ((sortLayoutItems_perm layout ct).mem_iff.mpr hitb)
    have hjalt : ja < (sortLayoutItems layout ct).length := by
      by_contra hc
      push_neg at hc
      rw [List.getElem?_eq_none hc] at hja
      exact Option.noConfusion hja
    have hjblt : jb < (sortLayoutItems layout ct).length := by
      by_contra hc
      push_neg at hc
      rw [List.getElem?_eq_none hc] at hjb
      exact Option.noConfusion hjb
    obtain ⟨a0, pra, ha0, hidxa, hpra, hpraid, hsta1, hnsta1⟩ :=
      hcover ja (Nat.zero_le ja) hjalt
    obtain ⟨b0, prb, hb0, hidxb, hprb, hprbid, hstb1, hnstb1⟩ :=
      hcover jb (Nat.zero_le jb) hjblt
    have ha0a : a0 = ita := by
      rw [hja] at ha0
      exact (Option.some_injective _ ha0).symm
    have hb0b : b0 = itb := by
      rw [hjb] at hb0
      exact (Option.some_injective _ hb0).symm
    obtain ⟨va, hva⟩ := lookupOut_isSome_of_key ⟨pra, hpra, by rw [hpraid, ha0a]⟩
    obtain ⟨vb, hvb⟩ := lookupOut_isSome_of_key ⟨prb, hprb, by rw [hprbid, hb0b]⟩
    have hvaa : a = va := by
      rw [hva] at hfa
      exact hfa.symm
    have hvbb : b = vb := by
      rw [hvb] at hfb
      exact hfb.symm
    subst hvaa
    subst hvbb
    have hpamem : (ita.i, a) ∈ newPairs := lookupOut_mem hva
    have hpbmem : (itb.i, b) ∈ newPairs := lookupOut_mem hvb
    have haid : a.i = ita.i := hids (ita.i, a) hpamem
    have hbid : b.i = itb.i := hids (itb.i, b) hpbmem
    have hne : ((ita.i, a) : String × Item) ≠ (itb.i, b) := by
      intro hcontra
      apply hab
      rw [haid, hbid]
      exact congrArg Prod.fst hcontra
    have hrel := hpw.forall pairRel_symm hpamem hpbmem hne
    exact (hrel has hbs).1

/-- C1 witness: vertically compacting two 1-by-1 items placed at the same
cell yields the layout a(0,0), b(0,1), and its two distinct non-static
items do not collide. -/
theorem c1_compact_no_overlap_witness :
    collides (mkItem "a" 0 0 1 1) (mkItem "b" 0 1 1 1) = false :=
  c1_compact_no_overlap 20 [mkItem "a" 0 0 1 1, mkItem "b" 0 0 1 1] (some Axis.vertical) 12
    [mkItem "a" 0 0 1 1, mkItem "b" 0 1 1 1] [mkItem "a" 0 0 1 1, mkItem "b" 0 0 1 1]
    (by simp only [GoodLayout, GoodItem]; decide) (by decide)
    (mkItem "a" 0 0 1 1) (by decide) (mkItem "b" 0 1 1 1) (by decide)
    (by decide) (by decide) (by decide)

/-- The key of a pass-one value. -/
theorem passOne_i (v : Item) : (passOneNoneOverlap v).i = v.i := by
  unfold passOneNoneOverlap
  split <;> rfl

/-- A pass-one value has its moved flag cleared. -/
theorem passOne_moved (v : Item) : (passOneNoneOverlap v).moved = false := by
  unfold passOneNoneOverlap
  split <;> rfl

/-- A pass-one value keeps the static flag. -/
theorem passOne_static (v : Item) : (passOneNoneOverlap v).static = v.static := by
  unfold passOneNoneOverlap
  split <;> rfl

/-- A non-static pass-one value has non-negative coordinates. -/
theorem passOne_nonneg (v : Item) (h : v.static = false) :
    0 ≤ (passOneNoneOverlap v).x ∧ 0 ≤ (passOneNoneOverlap v).y := by
  unfold passOneNoneOverlap
  rw [if_neg (by simp [h])]
  exact ⟨le_max_right v.x 0, le_max_right v.y 0⟩

/-- Identity run of the `compact` loop with axis none: when every item has
its moved flag cleared, non-static items have non-negative coordinates,
and (unless overlap is allowed) every non-static item is free of collision
against its comparison set, the loop changes nothing and emits each item
as its own output pair. -/
theorem compactGoIdNone : ∀ (fuel : Nat) (L : Layout) (k : Nat)
    (out0 : List (String × Item)) (cols : Int) (ao : Bool),
    L.length - k + 1 ≤ fuel →
    (∀ v ∈ L, v.moved = false) →
    (∀ v ∈ L, v.static = false → 0 ≤ v.x ∧ 0 ≤ v.y) →
    (ao = true ∨ ∀ j, k ≤ j → j < L.length → ∀ v, L[j]? = some v → v.static = false →
      getFirstCollision (cwAt L j) v = none) →
    compactGo fuel (cwAt L k) L k out0 none cols ao =
      some (L, out0 ++ (L.drop k).map (fun v => (v.i, v))) := by
  intro fuel
  induction fuel with
  | zero =>
    intro L k out0 cols ao hfuel hmv hnn hfree
    omega
  | succ n ih =>
    intro L k out0 cols ao hfuel hmv hnn hfree
    simp only [compactGo]
    split
    · rename_i hk
      have hlen : L.length ≤ k := List.getElem?_eq_none_iff.mp hk
      rw [List.drop_eq_nil_of_le hlen]
      simp
    · rename_i it hk
      have hklt : k < L.length := by
        by_contra hc
        push_neg at hc
        rw [List.getElem?_eq_none hc] at hk
        exact Option.noConfusion hk
      have hitmem : it ∈ L := List.mem_iff_getElem?.mpr ⟨k, hk⟩
      have hitmv : it.moved = false := hmv it hitmem
      have hdrop : L.drop k = it :: L.drop (k + 1) := drop_cons_of_getElem hk
      have hfree2 : ao = true ∨ ∀ j, k + 1 ≤ j → j < L.length → ∀ v, L[j]? = some v →
          v.static = false → getFirstCollision (cwAt L j) v = none := by
        rcases hfree with hao | hfr
        · exact Or.inl hao
        · exact Or.inr (fun j hj hjl v hv hvs => hfr j (by omega) hjl v hv hvs)
      have hout : ({ it with moved := false } : Item) = it := clearMoved_eq_self hitmv
      split
      · rename_i hst
        have hcw : cwAt L (k + 1) = cwAt L k := cwAt_succ_static hk hst
        rw [hout, ← hcw]
        rw [ih L (k + 1) (out0 ++ [(it.i, it)]) cols ao (by omega) hmv hnn hfree2]
        rw [hdrop]
        simp
      · rename_i hst
        have hstf : it.static = false := by simpa using hst
        obtain ⟨m, rfl⟩ : ∃ m, n = m + 1 := ⟨n - 1, by omega⟩
        have hci : compactItem (cwAt L k) it none cols L ao (m + 1) = some (it, L) := by
          simp only [compactItem]
          have hgo : compactItemGo (m + 1) (cwAt L k) it none cols L ao = some (it, L) := by
            simp only [compactItemGo]
            rcases hfree with hao | hfr
            · subst hao
              cases hgfc : getFirstCollision (cwAt L k) it with
              | none => rfl
              | some c => simp
            · have hnone := hfr k le_rfl hklt it hk hstf
              rw [hnone]
          simp only [hgo]
          obtain ⟨hx0, hy0⟩ := hnn it hitmem hstf
          have hclamp : ({ it with y := max it.y 0, x := max it.x 0 } : Item) = it := by
            rw [max_eq_left hy0, max_eq_left hx0]
          rw [hclamp]
        simp only [hci]
        rw [hout]
        have hcw : cwAt L (k + 1) = cwAt L k ++ [it] := cwAt_succ_movable hk hstf
        rw [← hcw]
        rw [ih L (k + 1) (out0 ++ [(it.i, it)]) cols ao (by omega) hmv hnn hfree2]
        rw [hdrop]
        simp

/-- With axis none and overlap allowed, the `compact` loop leaves the
sorted array untouched and emits for each item the clamped, cleared
clone. -/
theorem compactGoNoneOverlapRun : ∀ (fuel : Nat) (cw : List Item) (L : Layout) (k : Nat)
    (out0 : List (String × Item)) (cols : Int) (res : Layout × List (String × Item)),
    compactGo fuel cw L k out0 none cols true = some res →
    res = (L, out0 ++ (L.drop k).map (fun v => (v.i, passOneNoneOverlap v))) := by
  intro fuel
  induction fuel with
  | zero =>
    intro cw L k out0 cols res h
    exact Option.noConfusion h
  | succ n ih =>
    intro cw L k out0 cols res h
    simp only [compactGo] at h
    split at h
    · rename_i hk
      have hlen : L.length ≤ k := List.getElem?_eq_none_iff.mp hk
      have hres := (Option.some_injective _ h).symm
      subst hres
      rw [List.drop_eq_nil_of_le hlen]
      simp
    · rename_i it hk
      have hdrop : L.drop k = it :: L.drop (k + 1) := drop_cons_of_getElem hk
      split at h
      · rename_i hst
        have hres := ih _ _ _ _ _ _ h
        rw [hres, hdrop]
        have hpo : passOneNoneOverlap it = { it with moved := false } := by
          unfold passOneNoneOverlap
          rw [if_pos hst]
        rw [← hpo]
        simp
      · rename_i hst
        split at h
        · exact Option.noConfusion h
        · rename_i l2 sorted2 heq
          have hci : compactItem cw it none cols L true n =
              some ({ it with y := max it.y 0, x := max it.x 0 }, L) := by
            obtain ⟨m, rfl⟩ : ∃ m, n = m + 1 := by
              cases n with
              | zero =>
                simp only [compactItem, compactItemGo] at heq
                exact Option.noConfusion heq
              | succ m => exact ⟨m, rfl⟩
            simp only [compactItem]
            have hgo : compactItemGo (m + 1) cw it none cols L true = some (it, L) := by
              simp only [compactItemGo]
              cases hgfc : getFirstCollision cw it with
              | none => rfl
              | some c => simp
            simp only [hgo]
          rw [hci] at heq
          have hpq := Option.some_injective _ heq
          have hl2 : l2 = { it with y := max it.y 0, x := max it.x 0 } :=
            (congrArg Prod.fst hpq).symm
          have hs2 : sorted2 = L := (congrArg Prod.snd hpq).symm
          subst hl2
          subst hs2
          have hres := ih _ _ _ _ _ _ h
          rw [hres, hdrop]
          have hpo : passOneNoneOverlap it =
              ({ { it with y := max it.y 0, x := max it.x 0 } with moved := false } : Item) := by
            unfold passOneNoneOverlap
            rw [if_neg hst]
          rw [← hpo]
          simp

/-- Identity pass of `compact` with axis none: a layout with unique keys,
cleared moved flags, non-negative non-static coordinates, and (unless
overlap is allowed) no collision of any non-static item against its
comparison set, is returned unchanged, and the caller items are not
touched. -/
theorem compact_identity_none (L : Layout) (cols : Int) (ao : Bool) (fuel : Nat)
    (hfuel : L.length + 1 ≤ fuel)
    (hkeys : (L.map Item.i).Nodup)
    (hmoved : ∀ v ∈ L, v.moved = false)
    (hnn : ∀ v ∈ L, v.static = false → 0 ≤ v.x ∧ 0 ≤ v.y)
    (hfree : ao = true ∨ ∀ j, j < L.length → ∀ v, L[j]? = some v → v.static = false →
      getFirstCollision (cwAt L j) v = none) :
    compact L none cols ao fuel = some (L, L) := by
  simp only [compact, sortLayoutItems]
  have hcw0 : getStatics L = cwAt L 0 := by
    simp [cwAt]
  rw [hcw0]
  have hfree0 : ao = true ∨ ∀ j, 0 ≤ j → j < L.length → ∀ v, L[j]? = some v →
      v.static = false → getFirstCollision (cwAt L j) v = none := by
    rcases hfree with hao | hfr
    · exact Or.inl hao
    · exact Or.inr (fun j _ hjl v hv hvs => hfr j hjl v hv hvs)
  simp only [compactGoIdNone fuel L 0 [] cols ao (by omega) hmoved hnn hfree0]
  simp only [List.drop_zero, List.nil_append]
  have hlook : ∀ v ∈ L, lookupOut (L.map (fun u => (u.i, u))) v.i = some v := by
    intro v hv
    obtain ⟨j, hj⟩ := List.mem_iff_getElem?.mp hv
    have hnd : ((L.map (fun u => (u.i, u))).map Prod.fst).Nodup := by
      rw [List.map_map]
      simpa [Function.comp] using hkeys
    have hj2 : (L.map (fun u => (u.i, u)))[j]? = some (v.i, v) := by
      rw [List.getElem?_map, hj]
      rfl
    have hres := lookupOut_getElem _ hnd j (v.i, v) hj2
    simpa using hres
  have h1 : L.map (fun it => (lookupOut (L.map (fun u => (u.i, u))) it.i).getD it) = L := by
    have hcong : ∀ it ∈ L, (lookupOut (L.map (fun u => (u.i, u))) it.i).getD it = id it := by
      intro it hit
      rw [hlook it hit]
      rfl
    rw [List.map_congr_left hcong, List.map_id]
  have h2 : L.map (fun it => (findItem L it.i).getD it) = L := by
    have hcong : ∀ it ∈ L, (findItem L it.i).getD it = id it := by
      intro it hit
      obtain ⟨j, hj⟩ := List.mem_iff_getElem?.mp hit
      rw [findItem_self L hkeys j it hj]
      rfl
    rw [List.map_congr_left hcong, List.map_id]
  rw [h1, h2]

/-- Characterisation of `compact` with axis none and overlap allowed on a
unique-key layout: the returned layout is the per-item clamped, cleared
input and the caller items are untouched. -/
theorem compact_none_overlap_run (fuel : Nat) (L out1 mut1 : Layout) (cols : Int)
    (hkeys : (L.map Item.i).Nodup)
    (h : compact L none cols true fuel = some (out1, mut1)) :
    out1 = L.map passOneNoneOverlap ∧ mut1 = L := by
  simp only [compact, sortLayoutItems] at h
  split at h
  · exact Option.noConfusion h
  · rename_i sortedF outF hgo
    have hrun := compactGoNoneOverlapRun fuel _ L 0 [] cols (sortedF, outF) hgo
    have hsF : sortedF = L := congrArg Prod.fst hrun
    have hoF : outF = L.map (fun v => (v.i, passOneNoneOverlap v)) := by
      have hsnd := congrArg Prod.snd hrun
      simpa using hsnd
    rw [hsF, hoF] at h
    have hpair := (Option.some_injective _ h).symm
    have hout1 : out1 = L.map (fun it =>
        (lookupOut (L.map (fun v => (v.i, passOneNoneOverlap v))) it.i).getD it) :=
      congrArg Prod.fst hpair
    have hmut1 : mut1 = L.map (fun it => (findItem L it.i).getD it) :=
      congrArg Prod.snd hpair
    constructor
    · rw [hout1]
      refine List.map_congr_left ?_
      intro it hit
      obtain ⟨j, hj⟩ := List.mem_iff_getElem?.mp hit
      have hnd : ((L.map (fun v => (v.i, passOneNoneOverlap v))).map Prod.fst).Nodup := by
        rw [List.map_map]
        simpa [Function.comp] using hkeys
      have hj2 : (L.map (fun v => (v.i, passOneNoneOverlap v)))[j]? =
          some (it.i, passOneNoneOverlap it) := by
        rw [List.getElem?_map, hj]
        rfl
      have hl := lookupOut_getElem _ hnd j (it.i, passOneNoneOverlap it) hj2
      simp only at hl
      rw [hl]
      rfl
    · rw [hmut1]
      have hcong : ∀ it ∈ L, (findItem L it.i).getD it = id it := by
        intro it hit
        obtain ⟨j, hj⟩ := List.mem_iff_getElem?.mp hit
        rw [findItem_self L hkeys j it hj]
        rfl
      rw [List.map_congr_left hcong, List.map_id]

/-- Distinct positions of a duplicate-free list carry distinct values. -/
theorem nodup_getElem_ne {α : Type} {l : List α} (hnd : l.Nodup) {i j : Nat}
    (hij : i ≠ j) {a b : α} (ha : l[i]? = some a) (hb : l[j]? = some b) : a ≠ b := by
  intro hab
  subst hab
  have hilt : i < l.length := by
    by_contra hc
    push_neg at hc
    rw [List.getElem?_eq_none hc] at ha
    exact Option.noConfusion ha
  exact hij (List.getElem?_inj hilt hnd (ha.trans hb.symm))

/-- Facts about the first pass of `compact` with axis none and overlap not
allowed on a data-model layout with unique keys: the result aligns
positionally with the input, every value keeps the key and has the moved
flag cleared, static values are carried over exactly, non-static values
stay within the data model, and every non-static value is free of
collision against its comparison set. -/
theorem compact_none_facts (fuel : Nat) (L out1 mut1 : Layout) (cols : Int)
    (hgood : GoodLayout cols L) (hkeys : (L.map Item.i).Nodup)
    (h1 : compact L none cols false fuel = some (out1, mut1)) :
    out1.length = L.length ∧
    (∀ j, j < L.length → ∃ a v, L[j]? = some a ∧ out1[j]? = some v ∧
      v.i = a.i ∧ v.moved = false ∧
      (a.static = true → v = { a with moved := false }) ∧
      (a.static = false → v.static = false ∧ GoodItem cols v)) ∧
    (∀ j, j < out1.length → ∀ v, out1[j]? = some v → v.static = false →
      getFirstCollision (cwAt out1 j) v = none) := by
  simp only [compact, sortLayoutItems] at h1
  split at h1
  · exact Option.noConfusion h1
  · rename_i sortedF outF hgo
    have hgo' : compactGo fuel (getStatics L ++ []) L 0 [] none cols false =
        some (sortedF, outF) := by
      rw [List.append_nil]
      exact hgo
    have hgcw : GoodLayout cols (getStatics L ++ []) := by
      rw [List.append_nil]
      intro c hc
      exact hgood c (List.mem_filter.mp hc).1
    have hinv : ∀ p ∈ ([] : List Item), ∀ c ∈ getStatics L ++ [], collides c p = false :=
      fun p hp => absurd hp (List.not_mem_nil p)
    have hstin : ∀ a ∈ L, a.static = true → a ∈ getStatics L := by
      intro a hmem hstat
      refine List.mem_filter.mpr ⟨hmem, ?_⟩
      simpa using hstat
    obtain ⟨newPairs, houtF, hids, hfree, hpw, hlenP, hcover⟩ :=
      compactGo_spec fuel (getStatics L) [] L 0 [] none cols (sortedF, outF)
        hgo' hgcw hgood hinv hstin
    have houtF2 : newPairs = outF := (by simpa using houtF : outF = newPairs).symm
    subst houtF2
    have hlenP' : newPairs.length = L.length := by simpa using hlenP
    have hpair := (Option.some_injective _ h1).symm
    have hout1 : out1 = L.map (fun it => (lookupOut newPairs it.i).getD it) :=
      congrArg Prod.fst hpair
    have hkeysP : newPairs.map Prod.fst = L.map Item.i := by
      refine List.ext_getElem? ?_
      intro j
      by_cases hj : j < L.length
      · obtain ⟨a, pr, ha, hidx, hmem, hprid, hsta, hnsta⟩ := hcover j (Nat.zero_le j) hj
        rw [Nat.sub_zero] at hidx
        rw [List.getElem?_map, List.getElem?_map, ha, hidx]
        simp [hprid]
      · have hj1 : (newPairs.map Prod.fst)[j]? = none := by
          rw [List.getElem?_eq_none]
          simp only [List.length_map, hlenP']
          omega
        have hj2 : (L.map Item.i)[j]? = none := by
          rw [List.getElem?_eq_none]
          simp only [List.length_map]
          omega
        rw [hj1, hj2]
    have hndP : (newPairs.map Prod.fst).Nodup := by
      rw [hkeysP]
      exact hkeys
    have hpos : ∀ j, j < L.length → ∃ a pr, L[j]? = some a ∧ newPairs[j]? = some pr ∧
        pr ∈ newPairs ∧ pr.1 = a.i ∧ out1[j]? = some pr.2 ∧
        (a.static = true → pr.2 = { a with moved := false }) ∧
        (a.static = false → pr.2.static = false ∧ pr.2.moved = false ∧ GoodItem cols pr.2) := by
      intro j hj
      obtain ⟨a, pr, ha, hidx, hmem, hprid, hsta, hnsta⟩ := hcover j (Nat.zero_le j) hj
      rw [Nat.sub_zero] at hidx
      have hlook : lookupOut newPairs a.i = some pr.2 := by
        have hres := lookupOut_getElem _ hndP j pr hidx
        rw [hprid] at hres
        exact hres
      refine ⟨a, pr, ha, hidx, hmem, hprid, ?_, hsta, hnsta⟩
      rw [hout1, List.getElem?_map, ha]
      simp [hlook]
    have hlen1 : out1.length = L.length := by
      rw [hout1, List.length_map]
    refine ⟨hlen1, ?_, ?_⟩
    · intro j hj
      obtain ⟨a, pr, ha, hidx, hmem, hprid, hv, hsta, hnsta⟩ := hpos j hj
      refine ⟨a, pr.2, ha, hv, ?_, ?_, hsta, fun hns => ⟨(hnsta hns).1, (hnsta hns).2.2⟩⟩
      · rw [hids pr hmem, hprid]
      · by_cases hstat : a.static = true
        · rw [hsta hstat]
        · have hns : a.static = false := by simpa using hstat
          exact (hnsta hns).2.1
    · intro j hj v hvj hvs
      rw [hlen1] at hj
      obtain ⟨a, pr, ha, hidx, hmem, hprid, hv, hsta, hnsta⟩ := hpos j hj
      have hvpr : v = pr.2 := by
        rw [hvj] at hv
        exact Option.some_injective _ hv
      subst hvpr
      have hans : a.static = false := by
        by_contra hstat
        have hstat' : a.static = true := by simpa using hstat
        have hvv := hsta hstat'
        rw [hvv] at hvs
        have : a.static = false := by simpa using hvs
        rw [hstat'] at this
        exact Bool.noConfusion this
      refine getFirstCollision_eq_none_iff.mpr ?_
      intro c hc
      rcases List.mem_append.mp hc with hcs | hct
      · -- a pre-seeded static of the pass-one output
        have hcf := List.mem_filter.mp hcs
        have hcstat : c.static = true := by simpa using hcf.2
        obtain ⟨i, hi⟩ := List.mem_iff_getElem?.mp hcf.1
        have hilt : i < L.length := by
          rw [← hlen1]
          by_contra hc2
          push_neg at hc2
          rw [List.getElem?_eq_none hc2] at hi
          exact Option.noConfusion hi
        obtain ⟨b, qr, hb, hqidx, hqmem, hqid, hqv, hqsta, hqnsta⟩ := hpos i hilt
        have hcq : c = qr.2 := by
          rw [hi] at hqv
          exact Option.some_injective _ hqv
        have hbstat : b.static = true := by
          by_contra hbs
          have hbs' : b.static = false := by simpa using hbs
          have := (hqnsta hbs').1
          rw [← hcq] at this
          rw [hcstat] at this
          exact Bool.noConfusion this
        have hqval : qr.2 = { b with moved := false } := hqsta hbstat
        have hbmem : b ∈ getStatics L :=
          hstin b (List.mem_iff_getElem?.mpr ⟨i, hb⟩) hbstat
        have hfr := hfree pr hmem ((hnsta hans).1) b
          (List.mem_append.mpr (Or.inl hbmem))
        rw [hcq, hqval]
        rw [collides_clearMoved_left]
        exact hfr
      · -- an earlier placed non-static value
        have hcf := List.mem_filter.mp hct
        have hcstat : c.static = false := by simpa using hcf.2
        obtain ⟨i, hi0⟩ := List.mem_iff_getElem?.mp hcf.1
        have hilt0 : i < (out1.take j).length := by
          by_contra hc2
          push_neg at hc2
          rw [List.getElem?_eq_none hc2] at hi0
          exact Option.noConfusion hi0
        have hij : i < j := by
          have := List.length_take_le j out1
          have h2 := hilt0
          rw [List.length_take] at h2
          omega
        have hi : out1[i]? = some c := by
          rw [← List.getElem?_take_of_lt hij]
          exact hi0
        have hilt : i < L.length := by
          rw [← hlen1]
          by_contra hc2
          push_neg at hc2
          rw [List.getElem?_eq_none hc2] at hi
          exact Option.noConfusion hi
        obtain ⟨b, qr, hb, hqidx, hqmem, hqid, hqv, hqsta, hqnsta⟩ := hpos i hilt
        have hcq : c = qr.2 := by
          rw [hi] at hqv
          exact Option.some_injective _ hqv
        have hbi : b.i ≠ a.i := by
          have hbkey : (L.map Item.i)[i]? = some b.i := by
            rw [List.getElem?_map, hb]
            rfl
          have hakey : (L.map Item.i)[j]? = some a.i := by
            rw [List.getElem?_map, ha]
            rfl
          exact nodup_getElem_ne hkeys (by omega) hbkey hakey
        have hne : qr ≠ pr := by
          intro hcontra
          apply hbi
          rw [← hqid, ← hprid, hcontra]
        have hrel := hpw.forall pairRel_symm hqmem hmem hne
        rw [hcq]
        exact (hrel (hcq ▸ hcstat) ((hnsta hans).1)).1

/-- With axis none, compaction is idempotent on layouts within the data
model (non-negative coordinates, sizes at least one, width within the
column count) having unique keys, for either allowOverlap setting:
compacting the result of a compaction returns it unchanged (and leaves its
items untouched). -/
theorem compact_idempotent_none (fuel fuel2 : Nat) (L out1 mut1 : Layout)
    (cols : Int) (ao : Bool)
    (hgood : GoodLayout cols L) (hkeys : (L.map Item.i).Nodup)
    (h1 : compact L none cols ao fuel = some (out1, mut1))
    (hfuel2 : L.length + 1 ≤ fuel2) :
    compact out1 none cols ao fuel2 = some (out1, out1) := by
  cases ao with
  | true =>
    obtain ⟨hout1, hmut1⟩ := compact_none_overlap_run fuel L out1 mut1 cols hkeys h1
    subst hout1
    refine compact_identity_none _ cols true fuel2 ?_ ?_ ?_ ?_ (Or.inl rfl)
    · rw [List.length_map]
      exact hfuel2
    · have hkeq : (L.map passOneNoneOverlap).map Item.i = L.map Item.i := by
        rw [List.map_map]
        refine List.map_congr_left ?_
        intro v hv
        show (passOneNoneOverlap v).i = v.i
        exact passOne_i v
      rw [hkeq]
      exact hkeys
    · intro v hv
      obtain ⟨u, hu, huv⟩ := List.mem_map.mp hv
      rw [← huv]
      exact passOne_moved u
    · intro v hv hvs
      obtain ⟨u, hu, huv⟩ := List.mem_map.mp hv
      rw [← huv]
      refine passOne_nonneg u ?_
      rw [← passOne_static u, huv]
      exact hvs
  | false =>
    obtain ⟨hlen1, hposF, hfreeF⟩ := compact_none_facts fuel L out1 mut1 cols hgood hkeys h1
    refine compact_identity_none out1 cols false fuel2 ?_ ?_ ?_ ?_ (Or.inr ?_)
    · rw [hlen1]
      exact hfuel2
    · have hkeq : out1.map Item.i = L.map Item.i := by
        refine List.ext_getElem? ?_
        intro j
        by_cases hj : j < L.length
        · obtain ⟨a, v, ha, hv, hvi, hvm, hsta, hnsta⟩ := hposF j hj
          rw [List.getElem?_map, List.getElem?_map, ha, hv]
          simp [hvi]
        · have hj1 : (out1.map Item.i)[j]? = none := by
            rw [List.getElem?_eq_none]
            simp only [List.length_map, hlen1]
            omega
          have hj2 : (L.map Item.i)[j]? = none := by
            rw [List.getElem?_eq_none]
            simp only [List.length_map]
            omega
          rw [hj1, hj2]
      rw [hkeq]
      exact hkeys
    · intro v hv
      obtain ⟨j, hj⟩ := List.mem_iff_getElem?.mp hv
      have hjl : j < L.length := by
        rw [← hlen1]
        by_contra hc
        push_neg at hc
        rw [List.getElem?_eq_none hc] at hj
        exact Option.noConfusion hj
      obtain ⟨a, v2, ha, hv2, hvi, hvm, hsta, hnsta⟩ := hposF j hjl
      have hveq : v = v2 := by
        rw [hj] at hv2
        exact Option.some_injective _ hv2
      rw [hveq]
      exact hvm
    · intro v hv hvs
      obtain ⟨j, hj⟩ := List.mem_iff_getElem?.mp hv
      have hjl : j < L.length := by
        rw [← hlen1]
        by_contra hc
        push_neg at hc
        rw [List.getElem?_eq_none hc] at hj
        exact Option.noConfusion hj
      obtain ⟨a, v2, ha, hv2, hvi, hvm, hsta, hnsta⟩ := hposF j hjl
      have hveq : v = v2 := by
        rw [hj] at hv2
        exact Option.some_injective _ hv2
      subst hveq
      have hans : a.static = false := by
        by_contra hstat
        have hstat' : a.static = true := by simpa using hstat
        have hvv := hsta hstat'
        rw [hvv] at hvs
        have hcontra : a.static = false := by simpa using hvs
        rw [hstat'] at hcontra
        exact Bool.noConfusion hcontra
      obtain ⟨g1, g2, g3, g4, g5⟩ := (hnsta hans).2
      exact ⟨g1, g2⟩
    · exact hfreeF

/-- The row-major order is total. -/
theorem rowColLe_total (a b : Item) : rowColLe a b = true ∨ rowColLe b a = true := by
  simp only [rowColLe, Bool.or_eq_true, Bool.and_eq_true, decide_eq_true_eq]
  omega

/-- The row-major order is transitive. -/
theorem rowColLe_trans (a b c : Item) (h1 : rowColLe a b = true) (h2 : rowColLe b c = true) :
    rowColLe a c = true := by
  simp only [rowColLe, Bool.or_eq_true, Bool.and_eq_true, decide_eq_true_eq] at h1 h2 ⊢
  omega

/-- The column-major order is total. -/
theorem colRowLe_total (a b : Item) : colRowLe a b = true ∨ colRowLe b a = true := by
  simp only [colRowLe, Bool.or_eq_true, Bool.and_eq_true, decide_eq_true_eq]
  omega

/-- The column-major order is transitive. -/
theorem colRowLe_trans (a b c : Item) (h1 : colRowLe a b = true) (h2 : colRowLe b c = true) :
    colRowLe a c = true := by
  simp only [colRowLe, Bool.or_eq_true, Bool.and_eq_true, decide_eq_true_eq] at h1 h2 ⊢
  omega

/-- Ordered insertion into a sorted list keeps it sorted, for a total and
transitive comparator. -/
theorem ordInsert_pairwise (le : Item → Item → Bool)
    (htot : ∀ a b, le a b = true ∨ le b a = true)
    (htrans : ∀ a b c, le a b = true → le b c = true → le a c = true) :
    ∀ (a : Item) (l : Layout), List.Pairwise (fun x y => le x y = true) l →
      List.Pairwise (fun x y => le x y = true) (ordInsert le a l) := by
  intro a l
  induction l with
  | nil =>
    intro _
    exact List.pairwise_singleton _ _
  | cons b t ih =>
    intro hp
    have hbt := List.pairwise_cons.mp hp
    unfold ordInsert
    by_cases hab : le a b = true
    · rw [if_pos hab]
      refine List.Pairwise.cons ?_ hp
      intro c hc
      rcases List.mem_cons.mp hc with rfl | hct
      · exact hab
      · exact htrans a b c hab (hbt.1 c hct)
    · rw [if_neg hab]
      have hba : le b a = true := (htot a b).resolve_left hab
      refine List.Pairwise.cons ?_ (ih hbt.2)
      intro c hc
      have hmem := (ordInsert_perm le a t).mem_iff.mp hc
      rcases List.mem_cons.mp hmem with rfl | hct
      · exact hba
      · exact hbt.1 c hct

/-- Insertion sort sorts, for a total and transitive comparator. -/
theorem insertionSortBy_pairwise (le : Item → Item → Bool)
    (htot : ∀ a b, le a b = true ∨ le b a = true)
    (htrans : ∀ a b c, le a b = true → le b c = true → le a c = true) :
    ∀ l : Layout, List.Pairwise (fun x y => le x y = true) (insertionSortBy le l) := by
  intro l
  induction l with
  | nil => exact List.Pairwise.nil
  | cons a t ih => exact ordInsert_pairwise le htot htrans a _ ih

/-- The vertical sort is row-major sorted. -/
theorem sortLayoutItems_sorted_v (L : Layout) :
    List.Pairwise (fun x y => rowColLe x y = true) (sortLayoutItems L (some Axis.vertical)) :=
  insertionSortBy_pairwise rowColLe rowColLe_total rowColLe_trans L

/-- The horizontal sort is column-major sorted. -/
theorem sortLayoutItems_sorted_h (L : Layout) :
    List.Pairwise (fun x y => colRowLe x y = true) (sortLayoutItems L (some Axis.horizontal)) :=
  insertionSortBy_pairwise colRowLe colRowLe_total colRowLe_trans L

/-- The generalized comparison set does not grow past a static entry. -/
theorem cwFrom_succ_static {base : List Item} {S : Layout} {k : Nat} {it : Item}
    (hk : S[k]? = some it) (hst : it.static = true) :
    cwFrom base S (k + 1) = cwFrom base S k := by
  unfold cwFrom
  rw [List.take_succ, hk]
  simp [List.filter_append, hst]

/-- The generalized comparison set grows by a placed non-static entry. -/
theorem cwFrom_succ_movable {base : List Item} {S : Layout} {k : Nat} {it : Item}
    (hk : S[k]? = some it) (hst : it.static = false) :
    cwFrom base S (k + 1) = cwFrom base S k ++ [it] := by
  unfold cwFrom
  rw [List.take_succ, hk]
  simp [List.filter_append, hst]

/-- The upward slide ends at the top, on a colliding cell, or with its
fuel spent. -/
theorem slideUpGo_exit (cw : List Item) : ∀ (fuel : Nat) (l : Item),
    (slideUpGo cw fuel l).y ≤ 0 ∨ getFirstCollision cw (slideUpGo cw fuel l) ≠ none ∨
      (slideUpGo cw fuel l).y ≤ l.y - fuel := by
  intro fuel
  induction fuel with
  | zero =>
    intro l
    right; right
    simp [slideUpGo]
  | succ n ih =>
    intro l
    simp only [slideUpGo]
    by_cases hcond : l.y > 0 ∧ getFirstCollision cw l = none
    · rw [if_pos hcond]
      rcases ih { l with y := l.y - 1 } with h | h | h
      · exact Or.inl h
      · exact Or.inr (Or.inl h)
      · right; right
        have hy : ({ l with y := l.y - 1 } : Item).y = l.y - 1 := rfl
        rw [hy] at h
        omega
    · rw [if_neg hcond]
      rcases Decidable.not_and_iff_or_not.mp hcond with h | h
      · left
        omega
      · right; left
        exact h

/-- The upward slide with its exact fuel ends at the top or on a colliding
cell. -/
theorem slideUp_exit (cw : List Item) (l : Item) :
    (slideUp cw l).y ≤ 0 ∨ getFirstCollision cw (slideUp cw l) ≠ none := by
  unfold slideUp
  rcases slideUpGo_exit cw l.y.toNat l with h | h | h
  · exact Or.inl h
  · exact Or.inr h
  · left
    omega

/-- The upward slide of a collision-free item blocked one cell above stops
exactly one cell up. -/
theorem slideUp_stop (cw : List Item) (l : Item)
    (hfree : getFirstCollision cw l = none) (hy : 1 ≤ l.y)
    (hcol : getFirstCollision cw { l with y := l.y - 1 } ≠ none) :
    slideUp cw l = { l with y := l.y - 1 } := by
  unfold slideUp
  obtain ⟨m, hm⟩ : ∃ m, l.y.toNat = m + 1 := ⟨l.y.toNat - 1, by omega⟩
  rw [hm]
  simp only [slideUpGo]
  rw [if_pos ⟨by omega, hfree⟩]
  cases m with
  | zero => rfl
  | succ m2 =>
    simp only [slideUpGo]
    rw [if_neg (fun hc => hcol hc.2)]

/-- The upward slide from the top row is the identity. -/
theorem slideUp_zero (cw : List Item) (l : Item) (hy : l.y = 0) : slideUp cw l = l := by
  unfold slideUp
  rw [hy]
  rfl

/-- The leftward slide ends at the left edge, on a colliding cell, or with
its fuel spent. -/
theorem slideLeftGo_exit (cw : List Item) : ∀ (fuel : Nat) (l : Item),
    (slideLeftGo cw fuel l).x ≤ 0 ∨ getFirstCollision cw (slideLeftGo cw fuel l) ≠ none ∨
      (slideLeftGo cw fuel l).x ≤ l.x - fuel := by
  intro fuel
  induction fuel with
  | zero =>
    intro l
    right; right
    simp [slideLeftGo]
  | succ n ih =>
    intro l
    simp only [slideLeftGo]
    by_cases hcond : l.x > 0 ∧ getFirstCollision cw l = none
    · rw [if_pos hcond]
      rcases ih { l with x := l.x - 1 } with h | h | h
      · exact Or.inl h
      · exact Or.inr (Or.inl h)
      · right; right
        have hx : ({ l with x := l.x - 1 } : Item).x = l.x - 1 := rfl
        rw [hx] at h
        omega
    · rw [if_neg hcond]
      rcases Decidable.not_and_iff_or_not.mp hcond with h | h
      · left
        omega
      · right; left
        exact h

/-- The leftward slide with its exact fuel ends at the left edge or on a
colliding cell. -/
theorem slideLeft_exit (cw : List Item) (l : Item) :
    (slideLeft cw l).x ≤ 0 ∨ getFirstCollision cw (slideLeft cw l) ≠ none := by
  unfold slideLeft
  rcases slideLeftGo_exit cw l.x.toNat l with h | h | h
  · exact Or.inl h
  · exact Or.inr h
  · left
    omega

/-- The leftward slide of a collision-free item blocked one cell to the
left stops exactly one cell over. -/
theorem slideLeft_stop (cw : List Item) (l : Item)
    (hfree : getFirstCollision cw l = none) (hx : 1 ≤ l.x)
    (hcol : getFirstCollision cw { l with x := l.x - 1 } ≠ none) :
    slideLeft cw l = { l with x := l.x - 1 } := by
  unfold slideLeft
  obtain ⟨m, hm⟩ : ∃ m, l.x.toNat = m + 1 := ⟨l.x.toNat - 1, by omega⟩
  rw [hm]
  simp only [slideLeftGo]
  rw [if_pos ⟨by omega, hfree⟩]
  cases m with
  | zero => rfl
  | succ m2 =>
    simp only [slideLeftGo]
    rw [if_neg (fun hc => hcol hc.2)]

/-- The leftward slide from the left edge is the identity. -/
theorem slideLeft_zero (cw : List Item) (l : Item) (hx : l.x = 0) : slideLeft cw l = l := by
  unfold slideLeft
  rw [hx]
  rfl

/-- The leftward slide never moves an item to the right. -/
theorem slideLeftGo_x_le (cw : List Item) : ∀ (fuel : Nat) (l : Item),
    (slideLeftGo cw fuel l).x ≤ l.x := by
  intro fuel
  induction fuel with
  | zero =>
    intro l
    simp [slideLeftGo]
  | succ n ih =>
    intro l
    simp only [slideLeftGo]
    by_cases hcond : l.x > 0 ∧ getFirstCollision cw l = none
    · rw [if_pos hcond]
      have := ih { l with x := l.x - 1 }
      have hx : ({ l with x := l.x - 1 } : Item).x = l.x - 1 := rfl
      rw [hx] at this
      omega
    · rw [if_neg hcond]

/-- The scan of `resolveCompactionCollision` over a layout whose entries
are static or collision-free against the probe leaves the layout
untouched. -/
theorem resolveCCLoop_id (layout : Layout) (item : Item) (mtc sv : Int) (ax : CoordAxis)
    (hfree : ∀ q ∈ layout, q.static = true ∨ collides item q = false) :
    ∀ (fuel : Nat) (idx : Nat), layout.length - idx + 1 ≤ fuel →
      resolveCCLoop fuel layout item mtc sv ax idx = some layout := by
  intro fuel
  induction fuel with
  | zero =>
    intro idx h
    omega
  | succ n ih =>
    intro idx hfuel
    simp only [resolveCCLoop]
    split
    · rfl
    · rename_i other hother
      have hmem : other ∈ layout := List.mem_iff_getElem?.mpr ⟨idx, hother⟩
      have hidxlt : idx < layout.length := by
        by_contra hc
        push_neg at hc
        rw [List.getElem?_eq_none hc] at hother
        exact Option.noConfusion hother
      by_cases hstat : other.static = true
      · rw [if_pos hstat]
        exact ih (idx + 1) (by omega)
      · rw [if_neg hstat]
        by_cases hbreak : other.y > item.y + item.h
        · rw [if_pos hbreak]
        · rw [if_neg hbreak]
          have hnc : collides item other = false := (hfree other hmem).resolve_left hstat
          rw [if_neg (by simp [hnc])]
          exact ih (idx + 1) (by omega)

/-- A call of `resolveCompactionCollision` whose bumped probe is static-or-
free against every entry touches nothing and lands the item on the target
coordinate. -/
theorem resolveCC_id (fuel : Nat) (layout : Layout) (item : Item) (mtc : Int) (ax : CoordAxis)
    (hfree : ∀ q ∈ layout, q.static = true ∨
      collides (axSet ax item (axGet ax item + 1)) q = false)
    (hfuel : layout.length + 2 ≤ fuel) :
    resolveCompactionCollision fuel layout item mtc ax = some (layout, axSet ax item mtc) := by
  obtain ⟨m, rfl⟩ : ∃ m, fuel = m + 1 := ⟨fuel - 1, by omega⟩
  simp only [resolveCompactionCollision]
  rw [resolveCCLoop_id layout _ mtc _ ax hfree m _ (by omega)]
  rw [axSet_axSet]

/-- The collision loop of `compactItem` ignores allowOverlap whenever a
compaction axis is set. -/
theorem compactItemGo_ao : ∀ (fuel : Nat) (cw : List Item) (l : Item) (ax : Axis)
    (cols : Int) (full : Layout),
    compactItemGo fuel cw l (some ax) cols full true =
      compactItemGo fuel cw l (some ax) cols full false := by
  intro fuel
  induction fuel with
  | zero => intro cw l ax cols full; rfl
  | succ n ih =>
    intro cw l ax cols full
    cases ax
    · simp only [compactItemGo]
      split
      · rfl
      · rename_i c hgfc
        rw [if_neg ((by decide : ¬((some Axis.vertical : CompactType) = none ∧ True)))]
        rw [if_neg ((by decide : ¬((some Axis.vertical : CompactType) = none ∧ false = true)))]
        split
        · rfl
        · rename_i full2 l2 heq
          exact ih cw _ Axis.vertical cols full2
    · simp only [compactItemGo]
      split
      · rfl
      · rename_i c hgfc
        rw [if_neg ((by decide : ¬((some Axis.horizontal : CompactType) = none ∧ True)))]
        rw [if_neg ((by decide : ¬((some Axis.horizontal : CompactType) = none ∧ false = true)))]
        split
        · rfl
        · rename_i full2 l2 heq
          exact ih cw _ Axis.horizontal cols full2

/-- Function `compactItem` ignores allowOverlap whenever a compaction axis
is set. -/
theorem compactItem_ao (fuel : Nat) (cw : List Item) (l : Item) (ax : Axis)
    (cols : Int) (full : Layout) :
    compactItem cw l (some ax) cols full true fuel =
      compactItem cw l (some ax) cols full false fuel := by
  simp only [compactItem]
  rw [compactItemGo_ao]

/-- The `compact` loop ignores allowOverlap whenever a compaction axis is
set. -/
theorem compactGo_ao : ∀ (fuel : Nat) (cw : List Item) (sorted : Layout) (k : Nat)
    (out0 : List (String × Item)) (ax : Axis) (cols : Int),
    compactGo fuel cw sorted k out0 (some ax) cols true =
      compactGo fuel cw sorted k out0 (some ax) cols false := by
  intro fuel
  induction fuel with
  | zero => intro cw sorted k out0 ax cols; rfl
  | succ n ih =>
    intro cw sorted k out0 ax cols
    simp only [compactGo]
    split
    · rfl
    · rename_i it hk
      by_cases hst : it.static = true
      · rw [if_pos hst, if_pos hst]
        exact ih _ _ _ _ ax cols
      · rw [if_neg hst, if_neg hst]
        rw [compactItem_ao]
        split
        · rfl
        · rename_i l2 sorted2 heq
          exact ih _ _ _ _ ax cols

/-- Function `compact` ignores allowOverlap whenever a compaction axis is
set. -/
theorem compact_ao (fuel : Nat) (L : Layout) (ax : Axis) (cols : Int) :
    compact L (some ax) cols true fuel = compact L (some ax) cols false fuel := by
  simp only [compact]
  rw [compactGo_ao]

/-- Support invariant of the vertical collision loop: the processed item
keeps its x and exits at the top or landed exactly on the bottom edge of a
blocking member of the comparison set. -/
theorem compactItemGo_support_v : ∀ (fuel : Nat) (cw : List Item) (l : Item)
    (cols : Int) (full : Layout) (out : Item × Layout),
    compactItemGo fuel cw l (some Axis.vertical) cols full false = some out →
    (∀ c ∈ cw, 1 ≤ c.h) → 1 ≤ l.h →
    (l.y ≤ 0 ∨ getFirstCollision cw l ≠ none ∨
      ∃ b ∈ cw, collides { l with y := l.y - 1 } b = true) →
    out.1.x = l.x ∧
      (out.1.y ≤ 0 ∨ ∃ b ∈ cw, collides { out.1 with y := out.1.y - 1 } b = true) := by
  intro fuel
  induction fuel with
  | zero =>
    intro cw l cols full out h _ _ _
    exact Option.noConfusion h
  | succ n ih =>
    intro cw l cols full out h hcwh hlh hentry
    simp only [compactItemGo] at h
    split at h
    · rename_i hgfc
      have hout := (Option.some_injective _ h).symm
      subst hout
      refine ⟨rfl, ?_⟩
      rcases hentry with h1 | h2 | h3
      · exact Or.inl h1
      · exact absurd hgfc h2
      · exact Or.inr h3
    · rename_i c hgfc
      split at h
      · rename_i hcond
        exact absurd hcond (by decide)
      · rw [if_neg ((by decide : ¬((some Axis.vertical : CompactType) = some Axis.horizontal)))] at h
        split at h
        · exact Option.noConfusion h
        · rename_i full2 l2 heq
          obtain ⟨hland, _, _⟩ := (resolveCC_spec n).1 _ _ _ _ _ heq
          have hland2 : l2 = axSet CoordAxis.yAxis l (c.y + c.h) := hland
          rw [if_neg (fun hc =>
            Axis.noConfusion (Option.some_injective _ hc.1))] at h
          have hmemc : c ∈ cw := List.mem_of_find?_eq_some hgfc
          have hcoll : collides c l = true := by
            have := List.find?_some hgfc
            simpa using this
          obtain ⟨k1, k2, k3, k4, k5⟩ := (collides_iff c l).mp hcoll
          have hch : 1 ≤ c.h := hcwh c hmemc
          have e1 : l2.i = l.i := by rw [hland2]; rfl
          have e2 : l2.x = l.x := by rw [hland2]; rfl
          have e3 : l2.w = l.w := by rw [hland2]; rfl
          have e4 : l2.h = l.h := by rw [hland2]; rfl
          have e5 : l2.y = c.y + c.h := by rw [hland2]; rfl
          have hblock : collides { l2 with y := l2.y - 1 } c = true := by
            refine (collides_iff _ c).mpr ⟨?_, ?_, ?_, ?_, ?_⟩
            · show l2.i ≠ c.i
              rw [e1]
              exact fun hc => k1 hc.symm
            · show c.x < l2.x + l2.w
              rw [e2, e3]
              omega
            · show l2.x < c.x + c.w
              rw [e2]
              omega
            · show c.y < l2.y - 1 + l2.h
              rw [e4, e5]
              omega
            · show l2.y - 1 < c.y + c.h
              rw [e5]
              omega
          obtain ⟨hx2, hsupp⟩ := ih cw l2 cols full2 out h hcwh (by rw [e4]; exact hlh)
            (Or.inr (Or.inr ⟨c, hmemc, hblock⟩))
          exact ⟨by rw [hx2, e2], hsupp⟩

/-- Support invariant of the horizontal collision loop: the processed item
never moves up, ends within the columns, and exits at the left edge or
landed exactly on the right edge of a blocking member of the comparison
set. -/
theorem compactItemGo_support_h : ∀ (fuel : Nat) (cw : List Item) (l : Item)
    (cols : Int) (full : Layout) (out : Item × Layout),
    compactItemGo fuel cw l (some Axis.horizontal) cols full false = some out →
    (∀ c ∈ cw, 1 ≤ c.w) → 1 ≤ l.w → l.w ≤ cols →
    (l.x ≤ 0 ∨ getFirstCollision cw l ≠ none ∨
      ∃ b ∈ cw, collides { l with x := l.x - 1 } b = true) →
    (l.x + l.w ≤ cols ∨ l.x ≤ 0 ∨ getFirstCollision cw l ≠ none) →
    (l.y ≤ out.1.y ∧ out.1.w = l.w) ∧ out.1.x + out.1.w ≤ cols ∧
      (out.1.x ≤ 0 ∨ ∃ b ∈ cw, collides { out.1 with x := out.1.x - 1 } b = true) := by
  intro fuel
  induction fuel with
  | zero =>
    intro cw l cols full out h _ _ _ _ _
    exact Option.noConfusion h
  | succ n ih =>
    intro cw l cols full out h hcww hlw hlwc hentry hbound
    simp only [compactItemGo] at h
    split at h
    · rename_i hgfc
      have hout := (Option.some_injective _ h).symm
      subst hout
      refine ⟨⟨le_refl _, rfl⟩, ?_, ?_⟩
      · rcases hbound with h1 | h2 | h3
        · exact h1
        · show l.x + l.w ≤ cols
          omega
        · exact absurd hgfc h3
      · rcases hentry with h1 | h2 | h3
        · exact Or.inl h1
        · exact absurd hgfc h2
        · exact Or.inr h3
    · rename_i c hgfc
      split at h
      · rename_i hcond
        exact absurd hcond (by decide)
      · split at h
        · exact Option.noConfusion h
        · rename_i full2 l2 heq
          obtain ⟨hland, _, _⟩ := (resolveCC_spec n).1 _ _ _ _ _ heq
          have hland2 : l2 = axSet CoordAxis.xAxis l (c.x + c.w) := hland
          have hmemc : c ∈ cw := List.mem_of_find?_eq_some hgfc
          have hcoll : collides c l = true := by
            have := List.find?_some hgfc
            simpa using this
          obtain ⟨k1, k2, k3, k4, k5⟩ := (collides_iff c l).mp hcoll
          have hcw1 : 1 ≤ c.w := hcww c hmemc
          simp only [true_and] at h
          have e1 : l2.i = l.i := by rw [hland2]; rfl
          have e2 : l2.x = c.x + c.w := by rw [hland2]; rfl
          have e3 : l2.w = l.w := by rw [hland2]; rfl
          have e4 : l2.h = l.h := by rw [hland2]; rfl
          have e5 : l2.y = l.y := by rw [hland2]; rfl
          by_cases hwrap : l2.x + l2.w > cols
          · rw [if_pos hwrap] at h
            obtain ⟨hsSh, hsY, hsX⟩ :=
              slideLeft_spec cw { l2 with x := cols - l2.w, y := l2.y + 1 }
            have hw3 : (slideLeft cw { l2 with x := cols - l2.w, y := l2.y + 1 }).w = l.w := by
              rw [hsSh.2.1]
              exact e3
            have hy3 : (slideLeft cw { l2 with x := cols - l2.w, y := l2.y + 1 }).y =
                l2.y + 1 := hsY
            have hx3 : (slideLeft cw { l2 with x := cols - l2.w, y := l2.y + 1 }).x ≤
                cols - l2.w := by
              have := slideLeftGo_x_le cw
                ({ l2 with x := cols - l2.w, y := l2.y + 1 } : Item).x.toNat
                { l2 with x := cols - l2.w, y := l2.y + 1 }
              exact this
            have hentry3 := slideLeft_exit cw { l2 with x := cols - l2.w, y := l2.y + 1 }
            obtain ⟨⟨hyO, hwO⟩, hbO, hsO⟩ := ih cw _ cols full2 out h hcww
              (by rw [hw3]; exact hlw) (by rw [hw3]; exact hlwc)
              (by
                rcases hentry3 with h1 | h2
                · exact Or.inl h1
                · exact Or.inr (Or.inl h2))
              (by
                left
                rw [hw3]
                omega)
            refine ⟨⟨?_, by rw [hwO, hw3]⟩, hbO, hsO⟩
            rw [hy3, e5] at hyO
            omega
          · rw [if_neg hwrap] at h
            have hnw : l2.x + l2.w ≤ cols := by
              omega
            have hblock : collides { l2 with x := l2.x - 1 } c = true := by
              refine (collides_iff _ c).mpr ⟨?_, ?_, ?_, ?_, ?_⟩
              · show l2.i ≠ c.i
                rw [e1]
                exact fun hc => k1 hc.symm
              · show c.x < l2.x - 1 + l2.w
                rw [e2, e3]
                omega
              · show l2.x - 1 < c.x + c.w
                rw [e2]
                omega
              · show c.y < l2.y + l2.h
                rw [e4, e5]
                omega
              · show l2.y < c.y + c.h
                rw [e5]
                omega
            obtain ⟨⟨hyO, hwO⟩, hbO, hsO⟩ := ih cw l2 cols full2 out h hcww
              (by rw [e3]; exact hlw) (by rw [e3]; exact hlwc)
              (Or.inr (Or.inr ⟨c, hmemc, hblock⟩))
              (by
                left
                rw [e3] at hnw ⊢
                omega)
            refine ⟨⟨?_, by rw [hwO, e3]⟩, hbO, hsO⟩
            rw [e5] at hyO
            omega

/-- Support of a vertically compacted item: it sits at the top or exactly
below a blocking member of the comparison set. -/
theorem compactItem_support_v (fuel : Nat) (cw : List Item) (l : Item) (cols : Int)
    (full : Layout) (out : Item × Layout)
    (h : compactItem cw l (some Axis.vertical) cols full false fuel = some out)
    (hcwh : ∀ c ∈ cw, 1 ≤ c.h) (hlh : 1 ≤ l.h) (hlx : 0 ≤ l.x) :
    out.1.y = 0 ∨ ∃ b ∈ cw, collides { out.1 with y := out.1.y - 1 } b = true := by
  simp only [compactItem] at h
  split at h
  · exact Option.noConfusion h
  · rename_i l2 full2 heq
    have hout := (Option.some_injective _ h).symm
    subst hout
    obtain ⟨hsSh, hsX, hsY⟩ := slideUp_spec cw { l with y := min (bottom cw) l.y }
    have hentry : (slideUp cw { l with y := min (bottom cw) l.y }).y ≤ 0 ∨
        getFirstCollision cw (slideUp cw { l with y := min (bottom cw) l.y }) ≠ none ∨
        ∃ b ∈ cw, collides { slideUp cw { l with y := min (bottom cw) l.y } with
          y := (slideUp cw { l with y := min (bottom cw) l.y }).y - 1 } b = true := by
      rcases slideUp_exit cw { l with y := min (bottom cw) l.y } with h1 | h2
      · exact Or.inl h1
      · exact Or.inr (Or.inl h2)
    have hl1h : 1 ≤ (slideUp cw { l with y := min (bottom cw) l.y }).h := by
      rw [hsSh.2.2.1]
      exact hlh
    obtain ⟨hx2p, hsupp⟩ := compactItemGo_support_v fuel cw _ cols full (l2, full2)
      heq hcwh hl1h hentry
    have hx2 : l2.x = l.x := by
      have hxx : (slideUp cw { l with y := min (bottom cw) l.y }).x = l.x := hsX
      rw [← hxx]
      exact hx2p
    have hsupp2 : l2.y ≤ 0 ∨ ∃ b ∈ cw, collides { l2 with y := l2.y - 1 } b = true := hsupp
    by_cases hy : l2.y ≤ 0
    · left
      show max l2.y 0 = 0
      omega
    · have hy0 : (0 : Int) ≤ l2.y := by omega
      have hid : ({ l2 with y := max l2.y 0, x := max l2.x 0 } : Item) = l2 := by
        rw [max_eq_left hy0, max_eq_left (by rw [hx2]; exact hlx)]
      rcases hsupp2 with hle | ⟨b, hbmem, hbcol⟩
      · omega
      · right
        refine ⟨b, hbmem, ?_⟩
        show collides { ({ l2 with y := max l2.y 0, x := max l2.x 0 } : Item) with
          y := ({ l2 with y := max l2.y 0, x := max l2.x 0 } : Item).y - 1 } b = true
        rw [hid]
        exact hbcol

/-- Support of a horizontally compacted item: it sits at the left edge or
exactly right of a blocking member of the comparison set, within the
columns. -/
theorem compactItem_support_h (fuel : Nat) (cw : List Item) (l : Item) (cols : Int)
    (full : Layout) (out : Item × Layout)
    (h : compactItem cw l (some Axis.horizontal) cols full false fuel = some out)
    (hcww : ∀ c ∈ cw, 1 ≤ c.w) (hlw : 1 ≤ l.w) (hlwc : l.w ≤ cols) (hly : 0 ≤ l.y) :
    (out.1.x = 0 ∨ ∃ b ∈ cw, collides { out.1 with x := out.1.x - 1 } b = true) ∧
      out.1.x + out.1.w ≤ cols := by
  simp only [compactItem] at h
  split at h
  · exact Option.noConfusion h
  · rename_i l2 full2 heq
    have hout := (Option.some_injective _ h).symm
    subst hout
    obtain ⟨hsSh, hsY, hsX⟩ := slideLeft_spec cw l
    have hentry : (slideLeft cw l).x ≤ 0 ∨ getFirstCollision cw (slideLeft cw l) ≠ none ∨
        ∃ b ∈ cw, collides { slideLeft cw l with x := (slideLeft cw l).x - 1 } b = true := by
      rcases slideLeft_exit cw l with h1 | h2
      · exact Or.inl h1
      · exact Or.inr (Or.inl h2)
    have hbound : (slideLeft cw l).x + (slideLeft cw l).w ≤ cols ∨ (slideLeft cw l).x ≤ 0 ∨
        getFirstCollision cw (slideLeft cw l) ≠ none := by
      rcases slideLeft_exit cw l with h1 | h2
      · exact Or.inr (Or.inl h1)
      · exact Or.inr (Or.inr h2)
    have hl1w : 1 ≤ (slideLeft cw l).w := by
      rw [hsSh.2.1]
      exact hlw
    have hl1wc : (slideLeft cw l).w ≤ cols := by
      rw [hsSh.2.1]
      exact hlwc
    obtain ⟨⟨hyge, hw2⟩, hb2, hs2⟩ := compactItemGo_support_h fuel cw _ cols full (l2, full2)
      heq hcww hl1w hl1wc hentry hbound
    have hb2c : l2.x + l2.w ≤ cols := hb2
    have hs2c : l2.x ≤ 0 ∨ ∃ b ∈ cw, collides { l2 with x := l2.x - 1 } b = true := hs2
    have hw2' : l2.w = l.w := by
      have := hsSh.2.1
      rw [hw2, this]
    have hy2 : (0 : Int) ≤ l2.y := by
      have hyy : (slideLeft cw l).y = l.y := hsY
      have : (slideLeft cw l).y ≤ l2.y := hyge
      omega
    by_cases hx : l2.x ≤ 0
    · constructor
      · left
        show max l2.x 0 = 0
        omega
      · show max l2.x 0 + ({ l2 with y := max l2.y 0, x := max l2.x 0 } : Item).w ≤ cols
        have : ({ l2 with y := max l2.y 0, x := max l2.x 0 } : Item).w = l.w := hw2'
        rw [this]
        omega
    · have hx0 : (0 : Int) ≤ l2.x := by omega
      have hid : ({ l2 with y := max l2.y 0, x := max l2.x 0 } : Item) = l2 := by
        rw [max_eq_left hy2, max_eq_left hx0]
      constructor
      · rcases hs2c with hle | ⟨b, hbmem, hbcol⟩
        · omega
        · right
          refine ⟨b, hbmem, ?_⟩
          show collides { ({ l2 with y := max l2.y 0, x := max l2.x 0 } : Item) with
            x := ({ l2 with y := max l2.y 0, x := max l2.x 0 } : Item).x - 1 } b = true
          rw [hid]
          exact hbcol
      · show ({ l2 with y := max l2.y 0, x := max l2.x 0 } : Item).x +
          ({ l2 with y := max l2.y 0, x := max l2.x 0 } : Item).w ≤ cols
        rw [hid]
        exact hb2c

/-- Support invariant of the `compact` loop under a fixed axis: every
non-static output value sits against the boundary of its axis or exactly
against a blocking item, which is a member of the initial comparison set
or an earlier output value; horizontal values stay within the columns. -/
theorem compactGo_support : ∀ (fuel : Nat) (cw : List Item) (sorted : Layout) (k : Nat)
    (out0 : List (String × Item)) (ax : Axis) (cols : Int)
    (res : Layout × List (String × Item)),
    compactGo fuel cw sorted k out0 (some ax) cols false = some res →
    GoodLayout cols cw → GoodLayout cols sorted →
    ∃ newPairs, res.2 = out0 ++ newPairs ∧
      ∀ pr ∈ newPairs, pr.2.static = false →
        (ax = Axis.vertical →
          pr.2.y = 0 ∨ ∃ b, (b ∈ cw ∨ ∃ qr ∈ newPairs, qr.2 = b) ∧
            collides { pr.2 with y := pr.2.y - 1 } b = true) ∧
        (ax = Axis.horizontal →
          (pr.2.x = 0 ∨ ∃ b, (b ∈ cw ∨ ∃ qr ∈ newPairs, qr.2 = b) ∧
            collides { pr.2 with x := pr.2.x - 1 } b = true) ∧ pr.2.x + pr.2.w ≤ cols) := by
  intro fuel
  induction fuel with
  | zero =>
    intro cw sorted k out0 ax cols res h _ _
    exact Option.noConfusion h
  | succ n ih =>
    intro cw sorted k out0 ax cols res h hgcw hgs
    simp only [compactGo] at h
    split at h
    · rename_i hk
      have hres := (Option.some_injective _ h).symm
      subst hres
      exact ⟨[], by simp, fun pr hpr => absurd hpr (List.not_mem_nil pr)⟩
    · rename_i it hk
      have hitmem : it ∈ sorted := List.mem_iff_getElem?.mpr ⟨k, hk⟩
      have hitgood : GoodItem cols it := hgs it hitmem
      split at h
      · rename_i hst
        obtain ⟨newPairs, hout, hsupp⟩ := ih cw sorted (k + 1) _ ax cols res h hgcw hgs
        refine ⟨(it.i, { it with moved := false }) :: newPairs, ?_, ?_⟩
        · rw [hout, List.append_assoc]; rfl
        · intro pr hpr hprs
          rcases List.mem_cons.mp hpr with heqp | hmem
          · exfalso
            rw [heqp] at hprs
            have : ({ it with moved := false } : Item).static = it.static := rfl
            rw [this, hst] at hprs
            exact Bool.noConfusion hprs
          · obtain ⟨hv, hh⟩ := hsupp pr hmem hprs
            refine ⟨?_, ?_⟩
            · intro hax
              rcases hv hax with h0 | ⟨b, hbm, hbc⟩
              · exact Or.inl h0
              · refine Or.inr ⟨b, ?_, hbc⟩
                rcases hbm with hcwm | ⟨qr, hqm, hqe⟩
                · exact Or.inl hcwm
                · exact Or.inr ⟨qr, List.mem_cons_of_mem _ hqm, hqe⟩
            · intro hax
              obtain ⟨hvv, hbd⟩ := hh hax
              refine ⟨?_, hbd⟩
              rcases hvv with h0 | ⟨b, hbm, hbc⟩
              · exact Or.inl h0
              · refine Or.inr ⟨b, ?_, hbc⟩
                rcases hbm with hcwm | ⟨qr, hqm, hqe⟩
                · exact Or.inl hcwm
                · exact Or.inr ⟨qr, List.mem_cons_of_mem _ hqm, hqe⟩
      · rename_i hst
        split at h
        · exact Option.noConfusion h
        · rename_i l2 sorted2 heq
          have hnncw : ∀ c ∈ cw, 0 ≤ c.x ∧ 0 ≤ c.y ∧ 0 ≤ c.w ∧ 0 ≤ c.h := by
            intro c hc
            obtain ⟨a1, a2, a3, a4, a5⟩ := hgcw c hc
            exact ⟨a1, a2, le_trans (by decide) a3, le_trans (by decide) a4⟩
          obtain ⟨hgfc, hsh, ⟨h2x, h2y⟩, hshF, hnnF⟩ :=
            compactItem_spec n cw it (some ax) cols sorted (l2, sorted2) heq
              hnncw (nonNegSized_of_good hgs) hitgood
          have hsh2 : sameShape l2 it := hsh
          have h2x2 : (0 : Int) ≤ l2.x := h2x
          have h2y2 : (0 : Int) ≤ l2.y := h2y
          have hshF2 : layoutShapeEq sorted2 sorted := hshF
          have hnnF2 : nonNegSized sorted2 := hnnF
          have hl2good : GoodItem cols l2 := by
            obtain ⟨s1, s2, s3, s4, s5, s6⟩ := hsh2
            obtain ⟨g1, g2, g3, g4, g5⟩ := hitgood
            exact ⟨h2x2, h2y2, by omega, by omega, by omega⟩
          have hgcw2 : GoodLayout cols (cw ++ [l2]) := by
            intro c hc
            rcases List.mem_append.mp hc with hmem | hmem
            · exact hgcw c hmem
            · rw [List.mem_singleton.mp hmem]; exact hl2good
          have hgs2 : GoodLayout cols sorted2 := goodLayout_of_shapeEq hshF2 hnnF2 hgs
          obtain ⟨newPairs, hout, hsupp⟩ :=
            ih (cw ++ [l2]) sorted2 (k + 1) _ ax cols res h hgcw2 hgs2
          refine ⟨(l2.i, { l2 with moved := false }) :: newPairs, ?_, ?_⟩
          · rw [hout, List.append_assoc]; rfl
          · intro pr hpr hprs
            rcases List.mem_cons.mp hpr with heqp | hmem
            · subst heqp
              refine ⟨?_, ?_⟩
              · intro hax
                subst hax
                have hsup := compactItem_support_v n cw it cols sorted (l2, sorted2) heq
                  (fun c hc => (hgcw c hc).2.2.2.1) hitgood.2.2.2.1 hitgood.1
                have hsup2 : l2.y = 0 ∨ ∃ b ∈ cw,
                    collides { l2 with y := l2.y - 1 } b = true := hsup
                rcases hsup2 with h0 | ⟨b, hbm, hbc⟩
                · left
                  exact h0
                · right
                  refine ⟨b, Or.inl hbm, ?_⟩
                  have hrec : ({ ({ l2 with moved := false } : Item) with
                      y := ({ l2 with moved := false } : Item).y - 1 } : Item) =
                      ({ ({ l2 with y := l2.y - 1 } : Item) with moved := false } : Item) := rfl
                  show collides { ({ l2 with moved := false } : Item) with
                    y := ({ l2 with moved := false } : Item).y - 1 } b = true
                  rw [hrec, collides_clearMoved_left]
                  exact hbc
              · intro hax
                subst hax
                obtain ⟨hsupx, hbd⟩ := compactItem_support_h n cw it cols sorted (l2, sorted2)
                  heq (fun c hc => (hgcw c hc).2.2.1) hitgood.2.2.1 hitgood.2.2.2.2 hitgood.2.1
                have hsup2 : l2.x = 0 ∨ ∃ b ∈ cw,
                    collides { l2 with x := l2.x - 1 } b = true := hsupx
                have hbd2 : l2.x + l2.w ≤ cols := hbd
                refine ⟨?_, hbd2⟩
                rcases hsup2 with h0 | ⟨b, hbm, hbc⟩
                · left
                  exact h0
                · right
                  refine ⟨b, Or.inl hbm, ?_⟩
                  have hrec : ({ ({ l2 with moved := false } : Item) with
                      x := ({ l2 with moved := false } : Item).x - 1 } : Item) =
                      ({ ({ l2 with x := l2.x - 1 } : Item) with moved := false } : Item) := rfl
                  show collides { ({ l2 with moved := false } : Item) with
                    x := ({ l2 with moved := false } : Item).x - 1 } b = true
                  rw [hrec, collides_clearMoved_left]
                  exact hbc
            · obtain ⟨hv, hh⟩ := hsupp pr hmem hprs
              refine ⟨?_, ?_⟩
              · intro hax
                rcases hv hax with h0 | ⟨b, hbm, hbc⟩
                · exact Or.inl h0
                · rcases hbm with hcwm | ⟨qr, hqm, hqe⟩
                  · rcases List.mem_append.mp hcwm with hbcw | hbl2
                    · exact Or.inr ⟨b, Or.inl hbcw, hbc⟩
                    · have hbl2e : b = l2 := List.mem_singleton.mp hbl2
                      refine Or.inr ⟨{ l2 with moved := false },
                        Or.inr ⟨(l2.i, { l2 with moved := false }),
                          List.mem_cons_self _ _, rfl⟩, ?_⟩
                      rw [collides_clearMoved_right, ← hbl2e]
                      exact hbc
                  · exact Or.inr ⟨b, Or.inr ⟨qr, List.mem_cons_of_mem _ hqm, hqe⟩, hbc⟩
              · intro hax
                obtain ⟨hvv, hbd⟩ := hh hax
                refine ⟨?_, hbd⟩
                rcases hvv with h0 | ⟨b, hbm, hbc⟩
                · exact Or.inl h0
                · rcases hbm with hcwm | ⟨qr, hqm, hqe⟩
                  · rcases List.mem_append.mp hcwm with hbcw | hbl2
                    · exact Or.inr ⟨b, Or.inl hbcw, hbc⟩
                    · have hbl2e : b = l2 := List.mem_singleton.mp hbl2
                      refine Or.inr ⟨{ l2 with moved := false },
                        Or.inr ⟨(l2.i, { l2 with moved := false }),
                          List.mem_cons_self _ _, rfl⟩, ?_⟩
                      rw [collides_clearMoved_right, ← hbl2e]
                      exact hbc
                  · exact Or.inr ⟨b, Or.inr ⟨qr, List.mem_cons_of_mem _ hqm, hqe⟩, hbc⟩

/-- A collision-free item exits the collision loop of `compactItem` at
once. -/
theorem compactItemGo_free (m : Nat) (cw : List Item) (l : Item) (ct : CompactType)
    (cols : Int) (S : Layout) (ao : Bool)
    (hfree : getFirstCollision cw l = none) :
    compactItemGo (m + 1) cw l ct cols S ao = some (l, S) := by
  simp only [compactItemGo]
  rw [hfree]

/-- A non-static item that is collision-free in its comparison set, is
supported (top row or a blocker right above it), and avoids every
non-static entry of the full layout, passes through a vertical
`compactItem` unchanged, with the full layout untouched. -/
theorem compactItem_id_v (cw : List Item) (v : Item) (cols : Int) (S : Layout)
    (hfree : ∀ c ∈ cw, collides c v = false)
    (hsup : v.y = 0 ∨ ∃ b ∈ cw, collides b { v with y := v.y - 1 } = true)
    (hvx : 0 ≤ v.x) (hvy : 0 ≤ v.y)
    (hscan : ∀ q ∈ S, q.static = true ∨ collides v q = false)
    (fuel : Nat) (hfuel : S.length + 4 ≤ fuel) :
    compactItem cw v (some Axis.vertical) cols S false fuel = some (v, S) := by
  have hbot : v.y ≤ bottom cw := by
    rcases hsup with h0 | ⟨b, hbm, hbc⟩
    · rw [h0]
      exact bottom_nonneg cw
    · obtain ⟨k1, k2, k3, k4, k5⟩ := (collides_iff b { v with y := v.y - 1 }).mp hbc
      have hk4 : v.y - 1 < b.y + b.h := k4
      have hble := le_bottom_of_mem hbm
      omega
  have hclamp : ({ v with y := max v.y 0, x := max v.x 0 } : Item) = v := by
    rw [max_eq_left hvy, max_eq_left hvx]
  have hfgc : getFirstCollision cw v = none := getFirstCollision_eq_none_iff.mpr hfree
  have hl1 : ({ v with y := min (bottom cw) v.y } : Item) = v := by
    rw [min_eq_right hbot]
  simp only [compactItem]
  rw [hl1]
  by_cases hy0 : v.y = 0
  · rw [slideUp_zero cw v hy0]
    obtain ⟨m, rfl⟩ : ∃ m, fuel = m + 1 := ⟨fuel - 1, by omega⟩
    rw [compactItemGo_free m cw v _ cols S false hfgc]
    show some (({ v with y := max v.y 0, x := max v.x 0 } : Item), S) = some (v, S)
    rw [hclamp]
  · have hy1 : (1 : Int) ≤ v.y := by omega
    obtain ⟨b, hbm, hbc⟩ := hsup.resolve_left hy0
    have hcol : getFirstCollision cw { v with y := v.y - 1 } ≠ none := by
      intro hc
      rw [getFirstCollision_eq_none_iff] at hc
      rw [hc b hbm] at hbc
      exact Bool.noConfusion hbc
    rw [slideUp_stop cw v hfgc hy1 hcol]
    obtain ⟨m, rfl⟩ : ∃ m, fuel = m + 1 := ⟨fuel - 1, by omega⟩
    have hgo : compactItemGo (m + 1) cw { v with y := v.y - 1 }
        (some Axis.vertical) cols S false = some (v, S) := by
      cases hgfc : getFirstCollision cw { v with y := v.y - 1 } with
      | none => exact absurd hgfc hcol
      | some c1 =>
        have hc1mem : c1 ∈ cw := List.mem_of_find?_eq_some hgfc
        have hc1col : collides c1 { v with y := v.y - 1 } = true := by
          have := List.find?_some hgfc
          simpa using this
        have hfc1 : collides c1 v = false := hfree c1 hc1mem
        have htouch : c1.y + c1.h = v.y := by
          obtain ⟨k1, k2, k3, k4, k5⟩ := (collides_iff c1 _).mp hc1col
          have hki : c1.i ≠ v.i := k1
          have hk2 : v.x < c1.x + c1.w := k2
          have hk3 : c1.x < v.x + v.w := k3
          have hk4 : v.y - 1 < c1.y + c1.h := k4
          have hk5 : c1.y < v.y - 1 + v.h := k5
          have hnc : ¬ collides c1 v = true := by
            rw [hfc1]
            exact Bool.false_ne_true
          rw [collides_iff] at hnc
          push_neg at hnc
          by_cases hgt : v.y < c1.y + c1.h
          · have h5 := hnc hki hk2 hk3 hgt
            omega
          · omega
        have hscan2 : ∀ q ∈ S, q.static = true ∨
            collides (axSet CoordAxis.yAxis { v with y := v.y - 1 }
              (axGet CoordAxis.yAxis { v with y := v.y - 1 } + 1)) q = false := by
          intro q hq
          have heq : axSet CoordAxis.yAxis { v with y := v.y - 1 }
              (axGet CoordAxis.yAxis { v with y := v.y - 1 } + 1) = v := by
            show ({ v with y := v.y - 1 + 1 } : Item) = v
            have harith : v.y - 1 + 1 = v.y := by omega
            rw [harith]
          rw [heq]
          exact hscan q hq
        have hrcc := resolveCC_id m S { v with y := v.y - 1 } (c1.y + c1.h)
          CoordAxis.yAxis hscan2 (by omega)
        have hland : axSet CoordAxis.yAxis { v with y := v.y - 1 } (c1.y + c1.h) = v := by
          show ({ v with y := c1.y + c1.h } : Item) = v
          rw [htouch]
        simp only [compactItemGo, hgfc]
        rw [if_neg (by decide : ¬((some Axis.vertical : CompactType) = none ∧ false = true))]
        rw [if_neg (by decide : ¬((some Axis.vertical : CompactType) = some Axis.horizontal))]
        simp only [hrcc, hland]
        rw [if_neg (by
          intro hc
          exact absurd hc.1 (by decide) :
            ¬((some Axis.vertical : CompactType) = some Axis.horizontal ∧ v.x + v.w > cols))]
        obtain ⟨m2, rfl⟩ : ∃ m2, m = m2 + 1 := ⟨m - 1, by omega⟩
        exact compactItemGo_free m2 cw v _ cols S false hfgc
    rw [hgo]
    show some (({ v with y := max v.y 0, x := max v.x 0 } : Item), S) = some (v, S)
    rw [hclamp]

/-- A non-static item that is collision-free in its comparison set, is
supported on the left (left edge or a blocker right beside it), fits the
column count, and avoids every non-static entry of the full layout, passes
through a horizontal `compactItem` unchanged, with the full layout
untouched. -/
theorem compactItem_id_h (cw : List Item) (v : Item) (cols : Int) (S : Layout)
    (hfree : ∀ c ∈ cw, collides c v = false)
    (hsup : v.x = 0 ∨ ∃ b ∈ cw, collides b { v with x := v.x - 1 } = true)
    (hvx : 0 ≤ v.x) (hvy : 0 ≤ v.y) (hbd : v.x + v.w ≤ cols)
    (hscan : ∀ q ∈ S, q.static = true ∨ collides v q = false)
    (fuel : Nat) (hfuel : S.length + 4 ≤ fuel) :
    compactItem cw v (some Axis.horizontal) cols S false fuel = some (v, S) := by
  have hclamp : ({ v with y := max v.y 0, x := max v.x 0 } : Item) = v := by
    rw [max_eq_left hvy, max_eq_left hvx]
  have hfgc : getFirstCollision cw v = none := getFirstCollision_eq_none_iff.mpr hfree
  simp only [compactItem]
  by_cases hx0 : v.x = 0
  · rw [slideLeft_zero cw v hx0]
    obtain ⟨m, rfl⟩ : ∃ m, fuel = m + 1 := ⟨fuel - 1, by omega⟩
    rw [compactItemGo_free m cw v _ cols S false hfgc]
    show some (({ v with y := max v.y 0, x := max v.x 0 } : Item), S) = some (v, S)
    rw [hclamp]
  · have hx1 : (1 : Int) ≤ v.x := by omega
    obtain ⟨b, hbm, hbc⟩ := hsup.resolve_left hx0
    have hcol : getFirstCollision cw { v with x := v.x - 1 } ≠ none := by
      intro hc
      rw [getFirstCollision_eq_none_iff] at hc
      rw [hc b hbm] at hbc
      exact Bool.noConfusion hbc
    rw [slideLeft_stop cw v hfgc hx1 hcol]
    obtain ⟨m, rfl⟩ : ∃ m, fuel = m + 1 := ⟨fuel - 1, by omega⟩
    have hgo : compactItemGo (m + 1) cw { v with x := v.x - 1 }
        (some Axis.horizontal) cols S false = some (v, S) := by
      cases hgfc : getFirstCollision cw { v with x := v.x - 1 } with
      | none => exact absurd hgfc hcol
      | some c1 =>
        have hc1mem : c1 ∈ cw := List.mem_of_find?_eq_some hgfc
        have hc1col : collides c1 { v with x := v.x - 1 } = true := by
          have := List.find?_some hgfc
          simpa using this
        have hfc1 : collides c1 v = false := hfree c1 hc1mem
        have htouch : c1.x + c1.w = v.x := by
          obtain ⟨k1, k2, k3, k4, k5⟩ := (collides_iff c1 _).mp hc1col
          have hki : c1.i ≠ v.i := k1
          have hk2 : v.x - 1 < c1.x + c1.w := k2
          have hk3 : c1.x < v.x - 1 + v.w := k3
          have hk4 : v.y < c1.y + c1.h := k4
          have hk5 : c1.y < v.y + v.h := k5
          have hnc : ¬ collides c1 v = true := by
            rw [hfc1]
            exact Bool.false_ne_true
          rw [collides_iff] at hnc
          push_neg at hnc
          by_cases hgt : v.x < c1.x + c1.w
          · have h5 := hnc hki hgt (by omega) (by omega)
            omega
          · omega
        have hscan2 : ∀ q ∈ S, q.static = true ∨
            collides (axSet CoordAxis.xAxis { v with x := v.x - 1 }
              (axGet CoordAxis.xAxis { v with x := v.x - 1 } + 1)) q = false := by
          intro q hq
          have heq : axSet CoordAxis.xAxis { v with x := v.x - 1 }
              (axGet CoordAxis.xAxis { v with x := v.x - 1 } + 1) = v := by
            show ({ v with x := v.x - 1 + 1 } : Item) = v
            have harith : v.x - 1 + 1 = v.x := by omega
            rw [harith]
          rw [heq]
          exact hscan q hq
        have hrcc := resolveCC_id m S { v with x := v.x - 1 } (c1.x + c1.w)
          CoordAxis.xAxis hscan2 (by omega)
        have hland : axSet CoordAxis.xAxis { v with x := v.x - 1 } (c1.x + c1.w) = v := by
          show ({ v with x := c1.x + c1.w } : Item) = v
          rw [htouch]
        simp only [compactItemGo, hgfc]
        rw [if_neg (by decide : ¬((some Axis.horizontal : CompactType) = none ∧ false = true))]
        simp only [hrcc, hland]
        rw [if_pos trivial]
        show compactItemGo m cw
            (if True ∧ v.x + v.w > cols then
              slideLeft cw { v with x := cols - v.w, y := v.y + 1 } else v)
            (some Axis.horizontal) cols S false = some (v, S)
        rw [if_neg (fun hc => absurd hc.2 (not_lt.mpr hbd) : ¬(True ∧ v.x + v.w > cols))]
        obtain ⟨m2, rfl⟩ : ∃ m2, m = m2 + 1 := ⟨m - 1, by omega⟩
        exact compactItemGo_free m2 cw v _ cols S false hfgc
    rw [hgo]
    show some (({ v with y := max v.y 0, x := max v.x 0 } : Item), S) = some (v, S)
    rw [hclamp]

/-- The `compact` loop under a fixed axis is the identity on a layout
whose every non-static item already passes `compactItem` unchanged: the
items are emitted in order with their moved flags (already clear)
untouched, and the array is not modified. -/
theorem compactGoIdAxis (ax : Axis) (cols : Int) (S : Layout) (base : List Item)
    (hmv : ∀ v ∈ S, v.moved = false)
    (hstep : ∀ k' v, S[k']? = some v → v.static = false →
      ∀ fl : Nat, S.length + 4 ≤ fl →
        compactItem (cwFrom base S k') v (some ax) cols S false fl = some (v, S)) :
    ∀ (fuel k : Nat) (out0 : List (String × Item)),
      S.length - k + S.length + 6 ≤ fuel →
      compactGo fuel (cwFrom base S k) S k out0 (some ax) cols false =
        some (S, out0 ++ (S.drop k).map (fun a => (a.i, a))) := by
  intro fuel
  induction fuel with
  | zero =>
    intro k out0 h
    omega
  | succ n ih =>
    intro k out0 hfuel
    simp only [compactGo]
    split
    · rename_i hk
      have hlen : S.length ≤ k := List.getElem?_eq_none_iff.mp hk
      rw [List.drop_eq_nil_of_le hlen]
      simp
    · rename_i it hk
      have hklt : k < S.length := by
        by_contra hc
        push_neg at hc
        rw [List.getElem?_eq_none hc] at hk
        exact Option.noConfusion hk
      have hitmem : it ∈ S := List.mem_iff_getElem?.mpr ⟨k, hk⟩
      have hdrop : S.drop k = it :: S.drop (k + 1) := drop_cons_of_getElem hk
      have hout : ({ it with moved := false } : Item) = it :=
        clearMoved_eq_self (hmv it hitmem)
      split
      · rename_i hst
        rw [hout, ← cwFrom_succ_static hk hst]
        rw [ih (k + 1) (out0 ++ [(it.i, it)]) (by omega)]
        rw [hdrop]
        simp
      · rename_i hst
        have hstf : it.static = false := by simpa using hst
        rw [hstep k it hk hstf n (by omega)]
        show compactGo n (cwFrom base S k ++ [it]) S (k + 1)
            (out0 ++ [(it.i, { it with moved := false })]) (some ax) cols false =
          some (S, out0 ++ (S.drop k).map (fun a => (a.i, a)))
        rw [hout, ← cwFrom_succ_movable hk hstf]
        rw [ih (k + 1) (out0 ++ [(it.i, it)]) (by omega)]
        rw [hdrop]
        simp

/-- Facts about the output of an axis compaction pass on a data-model
layout with unique keys: keys and order are preserved, the output is in
the data model with cleared moved flags, entries at distinct positions do
not overlap (when the second is non-static), and every non-static entry is
supported against the boundary of the axis or another output entry, a
horizontal entry staying within the columns. -/
theorem compact_axis_facts (fuel : Nat) (L out1 mut1 : Layout) (ax : Axis) (cols : Int)
    (hgood : GoodLayout cols L) (hkeys : (L.map Item.i).Nodup)
    (h1 : compact L (some ax) cols false fuel = some (out1, mut1)) :
    out1.map Item.i = L.map Item.i ∧
    GoodLayout cols out1 ∧
    (∀ v ∈ out1, v.moved = false) ∧
    (∀ j1 j2 : Nat, ∀ u v : Item, out1[j1]? = some u → out1[j2]? = some v → j1 ≠ j2 →
      v.static = false → collides u v = false) ∧
    (∀ v ∈ out1, v.static = false →
      (ax = Axis.vertical →
        v.y = 0 ∨ ∃ b ∈ out1, collides { v with y := v.y - 1 } b = true) ∧
      (ax = Axis.horizontal →
        (v.x = 0 ∨ ∃ b ∈ out1, collides { v with x := v.x - 1 } b = true) ∧
        v.x + v.w ≤ cols)) := by
  have hperm : List.Perm (sortLayoutItems L (some ax)) L := sortLayoutItems_perm L (some ax)
  have hpermlen : (sortLayoutItems L (some ax)).length = L.length := hperm.length_eq
  simp only [compact] at h1
  split at h1
  · exact Option.noConfusion h1
  · rename_i sortedF outF hgo
    have hgo' : compactGo fuel (getStatics L ++ []) (sortLayoutItems L (some ax)) 0 []
        (some ax) cols false = some (sortedF, outF) := by
      rw [List.append_nil]
      exact hgo
    have hgcw0 : GoodLayout cols (getStatics L) := by
      intro c hc
      exact hgood c (List.mem_filter.mp hc).1
    have hgcw : GoodLayout cols (getStatics L ++ []) := by
      rw [List.append_nil]
      exact hgcw0
    have hgs : GoodLayout cols (sortLayoutItems L (some ax)) := by
      intro c hc
      exact hgood c (hperm.mem_iff.mp hc)
    have hinv : ∀ p ∈ ([] : List Item), ∀ c ∈ getStatics L ++ [], collides c p = false :=
      fun p hp => absurd hp (List.not_mem_nil p)
    have hstin : ∀ a ∈ sortLayoutItems L (some ax), a.static = true → a ∈ getStatics L := by
      intro a hmem hstat
      refine List.mem_filter.mpr ⟨hperm.mem_iff.mp hmem, ?_⟩
      simpa using hstat
    obtain ⟨newPairs, houtF, hids, hfree, hpw, hlenP, hcover⟩ :=
      compactGo_spec fuel (getStatics L) [] (sortLayoutItems L (some ax)) 0 []
        (some ax) cols (sortedF, outF) hgo' hgcw hgs hinv hstin
    obtain ⟨newPairs2, houtF2, hsupp0⟩ :=
      compactGo_support fuel (getStatics L) (sortLayoutItems L (some ax)) 0 []
        ax cols (sortedF, outF) hgo hgcw0 hgs
    have houtFe : newPairs = outF := (by simpa using houtF : outF = newPairs).symm
    have houtFe2 : newPairs2 = outF := (by simpa using houtF2 : outF = newPairs2).symm
    have hP2 : newPairs2 = newPairs := by
      rw [houtFe, houtFe2]
    rw [hP2] at hsupp0
    subst houtFe
    have hlenP' : newPairs.length = L.length := by
      rw [← hpermlen]
      simpa using hlenP
    have hpair := (Option.some_injective _ h1).symm
    have hout1 : out1 = L.map (fun it => (lookupOut newPairs it.i).getD it) :=
      congrArg Prod.fst hpair
    have hkeysS : List.Perm ((sortLayoutItems L (some ax)).map Item.i) (L.map Item.i) :=
      hperm.map Item.i
    have hkeysP : newPairs.map Prod.fst = (sortLayoutItems L (some ax)).map Item.i := by
      refine List.ext_getElem? ?_
      intro j
      by_cases hj : j < (sortLayoutItems L (some ax)).length
      · obtain ⟨a, pr, ha, hidx, hmem, hprid, hsta, hnsta⟩ := hcover j (Nat.zero_le j) hj
        rw [Nat.sub_zero] at hidx
        rw [List.getElem?_map, List.getElem?_map, ha, hidx]
        simp [hprid]
      · have hj1 : (newPairs.map Prod.fst)[j]? = none := by
          rw [List.getElem?_eq_none]
          simp only [List.length_map, hlenP']
          omega
        have hj2 : ((sortLayoutItems L (some ax)).map Item.i)[j]? = none := by
          rw [List.getElem?_eq_none]
          simp only [List.length_map]
          omega
        rw [hj1, hj2]
    have hndP : (newPairs.map Prod.fst).Nodup := by
      rw [hkeysP]
      exact hkeysS.nodup_iff.mpr hkeys
    have hkeyuniq : ∀ p1 p2 : String × Item, p1 ∈ newPairs → p2 ∈ newPairs →
        p1.1 = p2.1 → p1.2 = p2.2 := by
      intro p1 p2 hm1 hm2 hkeq
      obtain ⟨i1, hi1⟩ := List.mem_iff_getElem?.mp hm1
      obtain ⟨i2, hi2⟩ := List.mem_iff_getElem?.mp hm2
      by_cases hii : i1 = i2
      · subst hii
        rw [hi1] at hi2
        rw [Option.some_injective _ hi2]
      · exfalso
        have hk1 : (newPairs.map Prod.fst)[i1]? = some p1.1 := by
          rw [List.getElem?_map, hi1]
          rfl
        have hk2 : (newPairs.map Prod.fst)[i2]? = some p2.1 := by
          rw [List.getElem?_map, hi2]
          rfl
        exact nodup_getElem_ne hndP hii hk1 hk2 hkeq
    have hlen1 : out1.length = L.length := by
      rw [hout1, List.length_map]
    have hpos : ∀ j, j < L.length → ∃ a pr, L[j]? = some a ∧
        pr ∈ newPairs ∧ pr.1 = a.i ∧ out1[j]? = some pr.2 ∧
        (a.static = true → pr.2 = { a with moved := false }) ∧
        (a.static = false →
          pr.2.static = false ∧ pr.2.moved = false ∧ GoodItem cols pr.2) := by
      intro j hj
      obtain ⟨a, ha⟩ : ∃ a, L[j]? = some a := ⟨L[j], List.getElem?_eq_getElem hj⟩
      have hamem : a ∈ L := List.mem_iff_getElem?.mpr ⟨j, ha⟩
      have hamemS : a ∈ sortLayoutItems L (some ax) := hperm.mem_iff.mpr hamem
      obtain ⟨js, hjs⟩ := List.mem_iff_getElem?.mp hamemS
      have hjslt : js < (sortLayoutItems L (some ax)).length := by
        by_contra hc
        push_neg at hc
        rw [List.getElem?_eq_none hc] at hjs
        exact Option.noConfusion hjs
      obtain ⟨a2, pr, ha2, hidx, hmem, hprid, hsta, hnsta⟩ := hcover js (Nat.zero_le js) hjslt
      rw [Nat.sub_zero] at hidx
      have ha2a : a2 = a := by
        rw [hjs] at ha2
        exact (Option.some_injective _ ha2).symm
      have ha' : L[j]? = some a2 := by
        rw [ha2a]
        exact ha
      have hlook : lookupOut newPairs a2.i = some pr.2 := by
        have hres := lookupOut_getElem _ hndP js pr hidx
        rw [hprid] at hres
        exact hres
      refine ⟨a2, pr, ha', hmem, hprid, ?_, hsta, hnsta⟩
      rw [hout1, List.getElem?_map, ha']
      simp [hlook]
    have hvalmem : ∀ qr ∈ newPairs, qr.2 ∈ out1 := by
      intro qr hqr
      obtain ⟨jq, hjq⟩ := List.mem_iff_getElem?.mp hqr
      have hjqP : jq < newPairs.length := by
        by_contra hc
        push_neg at hc
        rw [List.getElem?_eq_none hc] at hjq
        exact Option.noConfusion hjq
      have hjqlt : jq < (sortLayoutItems L (some ax)).length := by
        omega
      obtain ⟨a2, pr, ha2, hidx, hmem, hprid, hsta, hnsta⟩ := hcover jq (Nat.zero_le jq) hjqlt
      rw [Nat.sub_zero] at hidx
      have hpq : pr = qr := by
        rw [hjq] at hidx
        exact (Option.some_injective _ hidx).symm
      subst hpq
      have ha2mem : a2 ∈ L := hperm.mem_iff.mp (List.mem_iff_getElem?.mpr ⟨jq, ha2⟩)
      obtain ⟨j, hj⟩ := List.mem_iff_getElem?.mp ha2mem
      have hjlt : j < L.length := by
        by_contra hc
        push_neg at hc
        rw [List.getElem?_eq_none hc] at hj
        exact Option.noConfusion hj
      obtain ⟨a3, pr3, ha3, hm3, hid3, hv3, hsta3, hnsta3⟩ := hpos j hjlt
      have ha3a2 : a3 = a2 := by
        rw [hj] at ha3
        exact (Option.some_injective _ ha3).symm
      have hsame : pr3.2 = pr.2 := hkeyuniq pr3 pr hm3 hmem (by rw [hid3, hprid, ha3a2])
      rw [← hsame]
      exact List.mem_iff_getElem?.mpr ⟨j, hv3⟩
    have hmapi : out1.map Item.i = L.map Item.i := by
      refine List.ext_getElem? ?_
      intro j
      by_cases hj : j < L.length
      · obtain ⟨a, pr, ha, hmem, hprid, hv, hsta, hnsta⟩ := hpos j hj
        rw [List.getElem?_map, List.getElem?_map, ha, hv]
        have hpri : pr.2.i = a.i := by
          rw [hids pr hmem, hprid]
        simp [hpri]
      · have h1n : (out1.map Item.i)[j]? = none := by
          rw [List.getElem?_eq_none]
          simp only [List.length_map, hlen1]
          omega
        have h2n : (L.map Item.i)[j]? = none := by
          rw [List.getElem?_eq_none]
          simp only [List.length_map]
          omega
        rw [h1n, h2n]
    have hgout : GoodLayout cols out1 := by
      intro w hw
      obtain ⟨j, hj0⟩ := List.mem_iff_getElem?.mp hw
      have hjlt : j < L.length := by
        rw [← hlen1]
        by_contra hc
        push_neg at hc
        rw [List.getElem?_eq_none hc] at hj0
        exact Option.noConfusion hj0
      obtain ⟨a, pr, ha, hmem, hprid, hv, hsta, hnsta⟩ := hpos j hjlt
      have hwpr : w = pr.2 := by
        rw [hj0] at hv
        exact Option.some_injective _ hv
      subst hwpr
      by_cases hstat : a.static = true
      · rw [hsta hstat]
        exact hgood a (List.mem_iff_getElem?.mpr ⟨j, ha⟩)
      · exact (hnsta (by simpa using hstat)).2.2
    have hmoved : ∀ v ∈ out1, v.moved = false := by
      intro w hw
      obtain ⟨j, hj0⟩ := List.mem_iff_getElem?.mp hw
      have hjlt : j < L.length := by
        rw [← hlen1]
        by_contra hc
        push_neg at hc
        rw [List.getElem?_eq_none hc] at hj0
        exact Option.noConfusion hj0
      obtain ⟨a, pr, ha, hmem, hprid, hv, hsta, hnsta⟩ := hpos j hjlt
      have hwpr : w = pr.2 := by
        rw [hj0] at hv
        exact Option.some_injective _ hv
      subst hwpr
      by_cases hstat : a.static = true
      · rw [hsta hstat]
      · exact (hnsta (by simpa using hstat)).2.1
    have hfree2 : ∀ j1 j2 : Nat, ∀ u v : Item, out1[j1]? = some u → out1[j2]? = some v →
        j1 ≠ j2 → v.static = false → collides u v = false := by
      intro j1 j2 u v hu hv hne hvs
      have hj1 : j1 < L.length := by
        rw [← hlen1]
        by_contra hc
        push_neg at hc
        rw [List.getElem?_eq_none hc] at hu
        exact Option.noConfusion hu
      have hj2 : j2 < L.length := by
        rw [← hlen1]
        by_contra hc
        push_neg at hc
        rw [List.getElem?_eq_none hc] at hv
        exact Option.noConfusion hv
      obtain ⟨a1, pra, ha1, hma, hida, hva, hstaa, hnstaa⟩ := hpos j1 hj1
      obtain ⟨a2, prb, ha2, hmb, hidb, hvb, hstab, hnstab⟩ := hpos j2 hj2
      have hu2 : u = pra.2 := by
        rw [hu] at hva
        exact Option.some_injective _ hva
      have hv2 : v = prb.2 := by
        rw [hv] at hvb
        exact Option.some_injective _ hvb
      subst hu2
      subst hv2
      have hkeysne : a1.i ≠ a2.i := by
        have hk1 : (L.map Item.i)[j1]? = some a1.i := by
          rw [List.getElem?_map, ha1]
          rfl
        have hk2 : (L.map Item.i)[j2]? = some a2.i := by
          rw [List.getElem?_map, ha2]
          rfl
        exact nodup_getElem_ne hkeys hne hk1 hk2
      have hprne : pra ≠ prb := fun hc => hkeysne (by rw [← hida, ← hidb, hc])
      by_cases hstat : a1.static = true
      · rw [hstaa hstat, collides_clearMoved_left]
        have ha1s : a1 ∈ getStatics L :=
          List.mem_filter.mpr ⟨List.mem_iff_getElem?.mpr ⟨j1, ha1⟩, by simpa using hstat⟩
        exact hfree prb hmb hvs a1 (List.mem_append.mpr (Or.inl ha1s))
      · have ha1ns : a1.static = false := by simpa using hstat
        have hans : pra.2.static = false := (hnstaa ha1ns).1
        have hrel := hpw.forall pairRel_symm hma hmb hprne
        exact (hrel hans hvs).1
    have hsuppOut : ∀ v ∈ out1, v.static = false →
        (ax = Axis.vertical →
          v.y = 0 ∨ ∃ b ∈ out1, collides { v with y := v.y - 1 } b = true) ∧
        (ax = Axis.horizontal →
          (v.x = 0 ∨ ∃ b ∈ out1, collides { v with x := v.x - 1 } b = true) ∧
          v.x + v.w ≤ cols) := by
      intro w hw hws
      obtain ⟨j, hj0⟩ := List.mem_iff_getElem?.mp hw
      have hjlt : j < L.length := by
        rw [← hlen1]
        by_contra hc
        push_neg at hc
        rw [List.getElem?_eq_none hc] at hj0
        exact Option.noConfusion hj0
      obtain ⟨a, pr, ha, hmem, hprid, hv, hsta, hnsta⟩ := hpos j hjlt
      have hwpr : w = pr.2 := by
        rw [hj0] at hv
        exact Option.some_injective _ hv
      subst hwpr
      obtain ⟨hV, hH⟩ := hsupp0 pr hmem hws
      constructor
      · intro hax
        rcases hV hax with h0 | ⟨b, hbm, hbc⟩
        · exact Or.inl h0
        · refine Or.inr ?_
          rcases hbm with hbs | ⟨qr, hqm, hqe⟩
          · have hbL : b ∈ L := (List.mem_filter.mp hbs).1
            have hbstat : b.static = true := by
              simpa using (List.mem_filter.mp hbs).2
            obtain ⟨jb, hjb⟩ := List.mem_iff_getElem?.mp hbL
            have hjblt : jb < L.length := by
              by_contra hc
              push_neg at hc
              rw [List.getElem?_eq_none hc] at hjb
              exact Option.noConfusion hjb
            obtain ⟨ab, prb, hab, hmb, hidb, hvb, hstab, hnstab⟩ := hpos jb hjblt
            have habb : ab = b := by
              rw [hjb] at hab
              exact (Option.some_injective _ hab).symm
            have hprbv : prb.2 = { b with moved := false } := by
              rw [← habb]
              exact hstab (by rw [habb]; exact hbstat)
            refine ⟨prb.2, List.mem_iff_getElem?.mpr ⟨jb, hvb⟩, ?_⟩
            rw [hprbv, collides_clearMoved_right]
            exact hbc
          · refine ⟨qr.2, hvalmem qr hqm, ?_⟩
            rw [hqe]
            exact hbc
      · intro hax
        obtain ⟨hVx, hbd⟩ := hH hax
        refine ⟨?_, hbd⟩
        rcases hVx with h0 | ⟨b, hbm, hbc⟩
        · exact Or.inl h0
        · refine Or.inr ?_
          rcases hbm with hbs | ⟨qr, hqm, hqe⟩
          · have hbL : b ∈ L := (List.mem_filter.mp hbs).1
            have hbstat : b.static = true := by
              simpa using (List.mem_filter.mp hbs).2
            obtain ⟨jb, hjb⟩ := List.mem_iff_getElem?.mp hbL
            have hjblt : jb < L.length := by
              by_contra hc
              push_neg at hc
              rw [List.getElem?_eq_none hc] at hjb
              exact Option.noConfusion hjb
            obtain ⟨ab, prb, hab, hmb, hidb, hvb, hstab, hnstab⟩ := hpos jb hjblt
            have habb : ab = b := by
              rw [hjb] at hab
              exact (Option.some_injective _ hab).symm
            have hprbv : prb.2 = { b with moved := false } := by
              rw [← habb]
              exact hstab (by rw [habb]; exact hbstat)
            refine ⟨prb.2, List.mem_iff_getElem?.mpr ⟨jb, hvb⟩, ?_⟩
            rw [hprbv, collides_clearMoved_right]
            exact hbc
          · refine ⟨qr.2, hvalmem qr hqm, ?_⟩
            rw [hqe]
            exact hbc
    exact ⟨hmapi, hgout, hmoved, hfree2, hsuppOut⟩

/-- Second pass of an axis compaction: a layout with unique keys whose
items satisfy the facts established for a pass-one output (data model,
cleared moved flags, positionwise non-overlap, per-axis support) is
returned unchanged, and its items are not touched. -/
theorem compact_identity_axis (out1 : Layout) (ax : Axis) (cols : Int) (fuel2 : Nat)
    (hkeys1 : (out1.map Item.i).Nodup)
    (hgout : GoodLayout cols out1)
    (hmoved : ∀ v ∈ out1, v.moved = false)
    (hfree2 : ∀ j1 j2 : Nat, ∀ u v : Item, out1[j1]? = some u → out1[j2]? = some v →
      j1 ≠ j2 → v.static = false → collides u v = false)
    (hsupp : ∀ v ∈ out1, v.static = false →
      (ax = Axis.vertical →
        v.y = 0 ∨ ∃ b ∈ out1, collides { v with y := v.y - 1 } b = true) ∧
      (ax = Axis.horizontal →
        (v.x = 0 ∨ ∃ b ∈ out1, collides { v with x := v.x - 1 } b = true) ∧
        v.x + v.w ≤ cols))
    (hfuel2 : 2 * out1.length + 6 ≤ fuel2) :
    compact out1 (some ax) cols false fuel2 = some (out1, out1) := by
  have hperm : List.Perm (sortLayoutItems out1 (some ax)) out1 :=
    sortLayoutItems_perm out1 (some ax)
  have hpermlen : (sortLayoutItems out1 (some ax)).length = out1.length := hperm.length_eq
  have hSkeys : ((sortLayoutItems out1 (some ax)).map Item.i).Nodup :=
    (hperm.map Item.i).nodup_iff.mpr hkeys1
  have hfree' : ∀ c ∈ out1, ∀ v ∈ out1, c ≠ v → v.static = false →
      collides c v = false := by
    intro c hc v hv hne hvs
    obtain ⟨pc, hpc⟩ := List.mem_iff_getElem?.mp hc
    obtain ⟨pv, hpv⟩ := List.mem_iff_getElem?.mp hv
    have hpne : pc ≠ pv := by
      intro hcontra
      subst hcontra
      rw [hpc] at hpv
      exact hne (Option.some_injective _ hpv)
    exact hfree2 pc pv c v hpc hpv hpne hvs
  have hSne : ∀ j1 j2 : Nat, ∀ u v : Item, (sortLayoutItems out1 (some ax))[j1]? = some u →
      (sortLayoutItems out1 (some ax))[j2]? = some v → j1 ≠ j2 → u ≠ v := by
    intro j1 j2 u v h1 h2 hne
    have hk1 : ((sortLayoutItems out1 (some ax)).map Item.i)[j1]? = some u.i := by
      rw [List.getElem?_map, h1]
      rfl
    have hk2 : ((sortLayoutItems out1 (some ax)).map Item.i)[j2]? = some v.i := by
      rw [List.getElem?_map, h2]
      rfl
    intro hc
    exact nodup_getElem_ne hSkeys hne hk1 hk2 (by rw [hc])
  have hcwmem : ∀ (k' : Nat) (c : Item),
      c ∈ cwFrom (getStatics out1) (sortLayoutItems out1 (some ax)) k' →
      c ∈ out1 ∧ (c.static = true ∨
        ∃ j, j < k' ∧ (sortLayoutItems out1 (some ax))[j]? = some c) := by
    intro k' c hc
    rcases List.mem_append.mp hc with hcs | hct
    · exact ⟨(List.mem_filter.mp hcs).1,
        Or.inl (by simpa using (List.mem_filter.mp hcs).2)⟩
    · have hcf := List.mem_filter.mp hct
      obtain ⟨j, hj0⟩ := List.mem_iff_getElem?.mp hcf.1
      have hjt : j < ((sortLayoutItems out1 (some ax)).take k').length := by
        by_contra hc2
        push_neg at hc2
        rw [List.getElem?_eq_none hc2] at hj0
        exact Option.noConfusion hj0
      have hjk : j < k' := by
        rw [List.length_take] at hjt
        omega
      have hj : (sortLayoutItems out1 (some ax))[j]? = some c := by
        rw [← List.getElem?_take_of_lt hjk]
        exact hj0
      exact ⟨hperm.mem_iff.mp (List.mem_iff_getElem?.mpr ⟨j, hj⟩), Or.inr ⟨j, hjk, hj⟩⟩
  have hmvS : ∀ v ∈ sortLayoutItems out1 (some ax), v.moved = false := by
    intro v hv
    exact hmoved v (hperm.mem_iff.mp hv)
  have hstep : ∀ k' v, (sortLayoutItems out1 (some ax))[k']? = some v → v.static = false →
      ∀ fl : Nat, (sortLayoutItems out1 (some ax)).length + 4 ≤ fl →
        compactItem (cwFrom (getStatics out1) (sortLayoutItems out1 (some ax)) k') v
          (some ax) cols (sortLayoutItems out1 (some ax)) false fl =
          some (v, sortLayoutItems out1 (some ax)) := by
    intro k' v hk' hvs fl hfl
    have hvmemS : v ∈ sortLayoutItems out1 (some ax) := List.mem_iff_getElem?.mpr ⟨k', hk'⟩
    have hvmem : v ∈ out1 := hperm.mem_iff.mp hvmemS
    have hvgood : GoodItem cols v := hgout v hvmem
    have hk'lt : k' < (sortLayoutItems out1 (some ax)).length := by
      by_contra hc2
      push_neg at hc2
      rw [List.getElem?_eq_none hc2] at hk'
      exact Option.noConfusion hk'
    have hfreecw : ∀ c ∈ cwFrom (getStatics out1) (sortLayoutItems out1 (some ax)) k',
        collides c v = false := by
      intro c hcw
      obtain ⟨hcmem, hcpos⟩ := hcwmem k' c hcw
      rcases hcpos with hcs | ⟨j, hjk, hj⟩
      · refine hfree' c hcmem v hvmem ?_ hvs
        intro hceq
        rw [hceq, hvs] at hcs
        exact Bool.noConfusion hcs
      · exact hfree' c hcmem v hvmem (hSne j k' c v hj hk' (by omega)) hvs
    have hscan : ∀ q ∈ sortLayoutItems out1 (some ax),
        q.static = true ∨ collides v q = false := by
      intro q hq
      by_cases hqs : q.static = true
      · exact Or.inl hqs
      · right
        by_cases hqv : v = q
        · rw [← hqv]
          exact collides_self v
        · exact hfree' v hvmem q (hperm.mem_iff.mp hq) hqv (by simpa using hqs)
    obtain ⟨hV, hH⟩ := hsupp v hvmem hvs
    cases ax with
    | vertical =>
      have hsupV : v.y = 0 ∨ ∃ b ∈ cwFrom (getStatics out1)
          (sortLayoutItems out1 (some Axis.vertical)) k',
          collides b { v with y := v.y - 1 } = true := by
        rcases hV rfl with h0 | ⟨b, hbm, hbc⟩
        · exact Or.inl h0
        · right
          obtain ⟨k1, k2, k3, k4, k5⟩ := (collides_iff { v with y := v.y - 1 } b).mp hbc
          have hkeyne : b.i ≠ v.i := by
            have hk1 : v.i ≠ b.i := k1
            exact fun hc => hk1 hc.symm
          have hbv : b ≠ v := fun hc => hkeyne (by rw [hc])
          have hnb : collides b v = false := hfree' b hbm v hvmem hbv hvs
          have hbh : (1 : Int) ≤ b.h := (hgout b hbm).2.2.2.1
          have hvh : (1 : Int) ≤ v.h := hvgood.2.2.2.1
          have hk2 : b.x < v.x + v.w := k2
          have hk3 : v.x < b.x + b.w := k3
          have hk4 : b.y < v.y - 1 + v.h := k4
          have hk5 : v.y - 1 < b.y + b.h := k5
          have htouch : b.y + b.h = v.y := by
            have hnc : ¬ collides b v = true := by
              rw [hnb]
              exact Bool.false_ne_true
            rw [collides_iff] at hnc
            push_neg at hnc
            by_cases hgt : v.y < b.y + b.h
            · have h5 := hnc hkeyne hk3 hk2 hgt
              omega
            · omega
          by_cases hbs : b.static = true
          · refine ⟨b, List.mem_append.mpr (Or.inl (List.mem_filter.mpr
              ⟨hbm, by simpa using hbs⟩)), ?_⟩
            rw [collides_symm]
            exact hbc
          · have hbsf : b.static = false := by simpa using hbs
            have hbmemS : b ∈ sortLayoutItems out1 (some Axis.vertical) :=
              hperm.mem_iff.mpr hbm
            obtain ⟨jb, hjb⟩ := List.mem_iff_getElem?.mp hbmemS
            have hjblt : jb < (sortLayoutItems out1 (some Axis.vertical)).length := by
              by_contra hc2
              push_neg at hc2
              rw [List.getElem?_eq_none hc2] at hjb
              exact Option.noConfusion hjb
            have hby : b.y < v.y := by omega
            have hjbk : jb < k' := by
              by_contra hc2
              push_neg at hc2
              have hnejb : jb ≠ k' := by
                intro he
                rw [he, hk'] at hjb
                exact hbv (Option.some_injective _ hjb).symm
              have hlt : k' < jb := by omega
              have hpwS := sortLayoutItems_sorted_v out1
              rw [List.pairwise_iff_getElem] at hpwS
              have hrel := hpwS k' jb hk'lt hjblt hlt
              have hsk : (sortLayoutItems out1 (some Axis.vertical))[k'] = v := by
                rw [List.getElem?_eq_getElem hk'lt] at hk'
                exact Option.some_injective _ hk'
              have hsb : (sortLayoutItems out1 (some Axis.vertical))[jb] = b := by
                rw [List.getElem?_eq_getElem hjblt] at hjb
                exact Option.some_injective _ hjb
              rw [hsk, hsb] at hrel
              simp only [rowColLe, Bool.or_eq_true, Bool.and_eq_true,
                decide_eq_true_eq] at hrel
              omega
            refine ⟨b, List.mem_append.mpr (Or.inr (List.mem_filter.mpr
              ⟨List.mem_iff_getElem?.mpr ⟨jb, ?_⟩, by simpa using hbsf⟩)), ?_⟩
            · rw [List.getElem?_take_of_lt hjbk]
              exact hjb
            · rw [collides_symm]
              exact hbc
      exact compactItem_id_v _ v cols _ hfreecw hsupV hvgood.1 hvgood.2.1 hscan fl hfl
    | horizontal =>
      obtain ⟨hHs, hbd⟩ := hH rfl
      have hsupH : v.x = 0 ∨ ∃ b ∈ cwFrom (getStatics out1)
          (sortLayoutItems out1 (some Axis.horizontal)) k',
          collides b { v with x := v.x - 1 } = true := by
        rcases hHs with h0 | ⟨b, hbm, hbc⟩
        · exact Or.inl h0
        · right
          obtain ⟨k1, k2, k3, k4, k5⟩ := (collides_iff { v with x := v.x - 1 } b).mp hbc
          have hkeyne : b.i ≠ v.i := by
            have hk1 : v.i ≠ b.i := k1
            exact fun hc => hk1 hc.symm
          have hbv : b ≠ v := fun hc => hkeyne (by rw [hc])
          have hnb : collides b v = false := hfree' b hbm v hvmem hbv hvs
          have hbw : (1 : Int) ≤ b.w := (hgout b hbm).2.2.1
          have hvw : (1 : Int) ≤ v.w := hvgood.2.2.1
          have hk2 : b.x < v.x - 1 + v.w := k2
          have hk3 : v.x - 1 < b.x + b.w := k3
          have hk4 : b.y < v.y + v.h := k4
          have hk5 : v.y < b.y + b.h := k5
          have htouch : b.x + b.w = v.x := by
            have hnc : ¬ collides b v = true := by
              rw [hnb]
              exact Bool.false_ne_true
            rw [collides_iff] at hnc
            push_neg at hnc
            by_cases hgt : v.x < b.x + b.w
            · have h5 := hnc hkeyne hgt (by omega) (by omega)
              omega
            · omega
          by_cases hbs : b.static = true
          · refine ⟨b, List.mem_append.mpr (Or.inl (List.mem_filter.mpr
              ⟨hbm, by simpa using hbs⟩)), ?_⟩
            rw [collides_symm]
            exact hbc
          · have hbsf : b.static = false := by simpa using hbs
            have hbmemS : b ∈ sortLayoutItems out1 (some Axis.horizontal) :=
              hperm.mem_iff.mpr hbm
            obtain ⟨jb, hjb⟩ := List.mem_iff_getElem?.mp hbmemS
            have hjblt : jb < (sortLayoutItems out1 (some Axis.horizontal)).length := by
              by_contra hc2
              push_neg at hc2
              rw [List.getElem?_eq_none hc2] at hjb
              exact Option.noConfusion hjb
            have hbx : b.x < v.x := by omega
            have hjbk : jb < k' := by
              by_contra hc2
              push_neg at hc2
              have hnejb : jb ≠ k' := by
                intro he
                rw [he, hk'] at hjb
                exact hbv (Option.some_injective _ hjb).symm
              have hlt : k' < jb := by omega
              have hpwS := sortLayoutItems_sorted_h out1
              rw [List.pairwise_iff_getElem] at hpwS
              have hrel := hpwS k' jb hk'lt hjblt hlt
              have hsk : (sortLayoutItems out1 (some Axis.horizontal))[k'] = v := by
                rw [List.getElem?_eq_getElem hk'lt] at hk'
                exact Option.some_injective _ hk'
              have hsb : (sortLayoutItems out1 (some Axis.horizontal))[jb] = b := by
                rw [List.getElem?_eq_getElem hjblt] at hjb
                exact Option.some_injective _ hjb
              rw [hsk, hsb] at hrel
              simp only [colRowLe, Bool.or_eq_true, Bool.and_eq_true,
                decide_eq_true_eq] at hrel
              omega
            refine ⟨b, List.mem_append.mpr (Or.inr (List.mem_filter.mpr
              ⟨List.mem_iff_getElem?.mpr ⟨jb, ?_⟩, by simpa using hbsf⟩)), ?_⟩
            · rw [List.getElem?_take_of_lt hjbk]
              exact hjb
            · rw [collides_symm]
              exact hbc
      exact compactItem_id_h _ v cols _ hfreecw hsupH hvgood.1 hvgood.2.1 hbd hscan fl hfl
  have hcw0 : cwFrom (getStatics out1) (sortLayoutItems out1 (some ax)) 0 =
      getStatics out1 := by
    simp [cwFrom]
  have hrun := compactGoIdAxis ax cols (sortLayoutItems out1 (some ax)) (getStatics out1)
    hmvS hstep fuel2 0 [] (by omega)
  rw [hcw0] at hrun
  simp only [List.drop_zero, List.nil_append] at hrun
  simp only [compact]
  simp only [hrun]
  have hSpairsnd : (((sortLayoutItems out1 (some ax)).map
      (fun u => (u.i, u))).map Prod.fst).Nodup := by
    rw [List.map_map]
    simpa [Function.comp] using hSkeys
  have h1 : out1.map (fun it =>
      (lookupOut ((sortLayoutItems out1 (some ax)).map (fun u => (u.i, u))) it.i).getD it) =
      out1 := by
    have hcong : ∀ it ∈ out1,
        (lookupOut ((sortLayoutItems out1 (some ax)).map (fun u => (u.i, u))) it.i).getD it =
          id it := by
      intro it hit
      have hitS : it ∈ sortLayoutItems out1 (some ax) := hperm.mem_iff.mpr hit
      obtain ⟨j, hj⟩ := List.mem_iff_getElem?.mp hitS
      have hj2 : ((sortLayoutItems out1 (some ax)).map (fun u => (u.i, u)))[j]? =
          some (it.i, it) := by
        rw [List.getElem?_map, hj]
        rfl
      have hres := lookupOut_getElem _ hSpairsnd j (it.i, it) hj2
      simp only at hres
      rw [hres]
      rfl
    rw [List.map_congr_left hcong, List.map_id]
  have h2 : out1.map (fun it =>
      (findItem (sortLayoutItems out1 (some ax)) it.i).getD it) = out1 := by
    have hcong : ∀ it ∈ out1,
        (findItem (sortLayoutItems out1 (some ax)) it.i).getD it = id it := by
      intro it hit
      have hitS : it ∈ sortLayoutItems out1 (some ax) := hperm.mem_iff.mpr hit
      obtain ⟨j, hj⟩ := List.mem_iff_getElem?.mp hitS
      rw [findItem_self (sortLayoutItems out1 (some ax)) hSkeys j it hj]
      rfl
    rw [List.map_congr_left hcong, List.map_id]
  rw [h1, h2]

/-- C4 amended: for every fixed compaction axis (vertical, horizontal or
none), column count and allowOverlap setting, compaction is idempotent on
layouts within the data model (non-negative coordinates, sizes at least
one, width within the column count) having unique keys: compacting the
result of a compaction returns it unchanged, and leaves its items
untouched.  Outside the data model idempotence fails, see the
counterexample. -/
theorem c4_compact_idempotent (fuel fuel2 : Nat) (L out1 mut1 : Layout)
    (ct : CompactType) (cols : Int) (ao : Bool)
    (hgood : GoodLayout cols L) (hkeys : (L.map Item.i).Nodup)
    (h1 : compact L ct cols ao fuel = some (out1, mut1))
    (hfuel2 : 2 * L.length + 6 ≤ fuel2) :
    compact out1 ct cols ao fuel2 = some (out1, out1) := by
  cases ct with
  | none =>
    exact compact_idempotent_none fuel fuel2 L out1 mut1 cols ao hgood hkeys h1
      (by omega)
  | some ax =>
    have h1f : compact L (some ax) cols false fuel = some (out1, mut1) := by
      cases ao with
      | false => exact h1
      | true =>
        rw [← compact_ao fuel L ax cols]
        exact h1
    obtain ⟨hmapi, hgout, hmoved, hfree2, hsupp⟩ :=
      compact_axis_facts fuel L out1 mut1 ax cols hgood hkeys h1f
    have hkeys1 : (out1.map Item.i).Nodup := by
      rw [hmapi]
      exact hkeys
    have hlen1 : out1.length = L.length := by
      have hl := congrArg List.length hmapi
      simpa using hl
    have hid : compact out1 (some ax) cols false fuel2 = some (out1, out1) :=
      compact_identity_axis out1 ax cols fuel2 hkeys1 hgout hmoved hfree2 hsupp (by omega)
    cases ao with
    | false => exact hid
    | true =>
      rw [compact_ao fuel2 out1 ax cols]
      exact hid

/-- Witness for the amended C4 theorem: a data-model layout, vertically
compacted and then compacted again, is returned unchanged the second
time, with its items untouched. -/
theorem c4_compact_idempotent_witness :
    GoodLayout 2 [mkItem "a" 0 5 1 1] ∧
    (([mkItem "a" 0 5 1 1].map Item.i).Nodup) ∧
    compact [mkItem "a" 0 5 1 1] (some Axis.vertical) 2 false 10 =
      some ([mkItem "a" 0 0 1 1], [mkItem "a" 0 5 1 1]) ∧
    compact [mkItem "a" 0 0 1 1] (some Axis.vertical) 2 false 10 =
      some ([mkItem "a" 0 0 1 1], [mkItem "a" 0 0 1 1]) :=
  have hg : GoodLayout 2 [mkItem "a" 0 5 1 1] := by
    intro c hc
    rw [List.mem_singleton] at hc
    subst hc
    exact ⟨by decide, by decide, by decide, by decide, by decide⟩
  ⟨hg, by decide, by decide,
    c4_compact_idempotent 10 10 [mkItem "a" 0 5 1 1] [mkItem "a" 0 0 1 1]
      [mkItem "a" 0 5 1 1] (some Axis.vertical) 2 false hg (by decide)
      (by decide) (by decide)⟩
